import Mathlib

/-!
Verification development for the computational core of the phylo-mds
repository (a phylogenetic tree-set analysis engine written in JavaScript).

The JavaScript sources are shallowly embedded as executable Lean
definitions:

* machine numbers: JavaScript numbers that hold integers are modelled as
  `Nat`/`Int`; fractional arithmetic is modelled as exact `ℚ` (the code
  uses double precision; floating-point rounding itself is not modelled);
* 32-bit bitset words are modelled as `Nat` values below `2 ^ 32`, with
  the JavaScript `|`, `&`, `^`, `~`, `<<` operations mapped to `|||`,
  `&&&`, `^^^`, xor-with-all-ones, `<<<`;
* log-domain quantities (`logCCP`, accumulated log probabilities,
  `maxSubtreeCCP`) are represented by their exponentials in `Option ℚ`:
  `some q` stands for the real number `ln q` (with `q > 0`) and `none`
  stands for `-Infinity`.  The code only ever adds, compares and takes
  maxima of such values, and `ln` is strictly monotone on positives, so
  sums become products and comparisons are preserved exactly;
* JavaScript exceptions are modelled with `Except`; a thrown `TypeError`
  caused by accessing a member of `undefined` is the `typeErr`
  constructor;
* JavaScript `Map` objects (`cladeMapping`, keyed by the canonical
  bitset string, which for bitsets of one fixed size is in bijection
  with the set of set bits) are modelled as insertion-ordered
  association lists keyed by `Finset ℕ`;
* the `phylojs` tree library is an external collaborator (out of scope
  per the specification); its rooted trees are modelled by the `Vertex`
  inductive with the standard semantics of `isLeaf`, `leafList`,
  `root`, `parent` and `getMRCA`.
-/

namespace PhyloMDS

/-! ## Bitset (src/unnamed/part_002, bitset.js)

A `BitSet` is a fixed-size bit vector backed by `Uint32Array`.
`words` holds the 32-bit words; the constructor allocates
`Math.ceil(size / 32)` zero words. -/

structure BitSet where
  size : ℕ
  words : List ℕ
deriving DecidableEq, Repr

/-- `new BitSet(size)`: `Math.ceil(size / 32)` zeroed 32-bit words. -/
def BitSet.new (size : ℕ) : BitSet :=
  ⟨size, List.replicate ((size + 31) / 32) 0⟩

/-- Well-formedness maintained by the JavaScript constructor: the backing
array has exactly `Math.ceil(size / 32)` words and every word fits in 32
bits (`Uint32Array` stores unsigned 32-bit values). -/
def BitSet.WF (b : BitSet) : Prop :=
  b.words.length = (b.size + 31) / 32 ∧ ∀ w ∈ b.words, w < 2 ^ 32

instance (b : BitSet) : Decidable b.WF := by
  unfold BitSet.WF; infer_instance

/-- `BitSet.set(index)`: throws when `index < 0 || index >= this.size`,
otherwise ors `1 << (index % 32)` into word `Math.floor(index / 32)`. -/
def BitSet.set (b : BitSet) (index : ℤ) : Except String BitSet :=
  if index < 0 ∨ (b.size : ℤ) ≤ index then .error "Index out of bounds"
  else
    let i := index.toNat
    let wordIndex := i / 32
    let bitIndex := i % 32
    .ok ⟨b.size, b.words.set wordIndex (b.words.getD wordIndex 0 ||| (1 <<< bitIndex))⟩

/-- `BitSet.clear(index)`: throws when out of bounds, otherwise ands the
word with `~(1 << bitIndex)`, i.e. with `0xFFFFFFFF XOR (1 << bitIndex)`
after the `Uint32Array` coercion. -/
def BitSet.clear (b : BitSet) (index : ℤ) : Except String BitSet :=
  if index < 0 ∨ (b.size : ℤ) ≤ index then .error "Index out of bounds"
  else
    let i := index.toNat
    let wordIndex := i / 32
    let bitIndex := i % 32
    .ok ⟨b.size, b.words.set wordIndex
      (b.words.getD wordIndex 0 &&& ((2 ^ 32 - 1) ^^^ (1 <<< bitIndex)))⟩

/-- `BitSet.get(index)`: throws when out of bounds, otherwise tests
`(this.words[wordIndex] & (1 << bitIndex)) !== 0`. -/
def BitSet.get (b : BitSet) (index : ℤ) : Except String Bool :=
  if index < 0 ∨ (b.size : ℤ) ≤ index then .error "Index out of bounds"
  else
    let i := index.toNat
    let wordIndex := i / 32
    let bitIndex := i % 32
    .ok ((b.words.getD wordIndex 0 &&& (1 <<< bitIndex)) ≠ 0)

/-! ## Rooted trees (external collaborator `phylojs`)

The tree-reader collaborator (src/src/tree-reader.js) supplies `phylojs`
trees.  A node carries an optional label, a numeric id, an optional
height, an optional branch length and an ordered list of children;
`isLeaf()` holds iff the children list is empty, `leafList` enumerates
the leaves in depth-first order, `root` is the root node. -/

inductive Vertex : Type where
  | mk : Option String → ℕ → Option ℚ → Option ℚ → List Vertex → Vertex

instance : Inhabited Vertex := ⟨.mk none 0 none none []⟩

def Vertex.label : Vertex → Option String
  | .mk l _ _ _ _ => l

def Vertex.vid : Vertex → ℕ
  | .mk _ i _ _ _ => i

def Vertex.height : Vertex → Option ℚ
  | .mk _ _ h _ _ => h

def Vertex.branchLength : Vertex → Option ℚ
  | .mk _ _ _ bl _ => bl

def Vertex.children : Vertex → List Vertex
  | .mk _ _ _ _ cs => cs

/-- `node.isLeaf()`: no children. -/
def Vertex.isLeaf (v : Vertex) : Bool := v.children.isEmpty

/-- `leaf.label || leaf.id.toString()`: the empty string is falsy in
JavaScript, so an empty label also falls back to the id. -/
def labelOf (v : Vertex) : String :=
  match v.label with
  | some s => if s = "" then toString v.vid else s
  | none => toString v.vid

/-- `x || 0` applied to an optional height (`vertex.height || 0`). -/
def effHeight (h : Option ℚ) : ℚ := h.getD 0

mutual

/-- The leaves of a subtree in depth-first left-to-right order
(as produced by `collectTips` / `leafList`). -/
def leavesOf : Vertex → List Vertex
  | .mk l i h bl [] => [.mk l i h bl []]
  | .mk _ _ _ _ (c :: cs) => leavesOfAll (c :: cs)

def leavesOfAll : List Vertex → List Vertex
  | [] => []
  | c :: cs => leavesOf c ++ leavesOfAll cs

end

/-- A tree as handed over by the tree reader: a root vertex.
`tree.leafList` is `leavesOf root`, `tree.getTipLabels()` maps
`labelOf` over it. -/
structure JSTree where
  root : Vertex

instance : Inhabited JSTree := ⟨⟨default⟩⟩

def JSTree.leafLabels (t : JSTree) : List String :=
  (leavesOf t.root).map labelOf

/-- A vertex is strictly binary: every internal vertex has exactly two
children (the data-model invariant of the specification). -/
def Vertex.Binary : Vertex → Prop
  | .mk _ _ _ _ [] => True
  | .mk _ _ _ _ [c₁, c₂] => c₁.Binary ∧ c₂.Binary
  | .mk _ _ _ _ _ => False

instance : ∀ v : Vertex, Decidable v.Binary := fun v =>
  match v with
  | .mk _ _ _ _ [] => .isTrue trivial
  | .mk l i h bl [c₁, c₂] =>
    letI := instDecidableBinary c₁
    letI := instDecidableBinary c₂
    inferInstanceAs (Decidable (c₁.Binary ∧ c₂.Binary))
  | .mk _ _ _ _ (_ :: _ :: _ :: _) => .isFalse id
  | .mk _ _ _ _ [_] => .isFalse id

/-! ## String ordering

JavaScript's `Array.prototype.sort()` on strings compares UTF-16 code
units; for the labels in scope this is the lexicographic order on the
character data, which `String.data` exposes.  The built-in
`String.decidableLE` does not reduce in the kernel, so the order is
stated on the character lists directly. -/

def strLe (s t : String) : Prop := s.data ≤ t.data

instance : DecidableRel strLe :=
  fun s t => inferInstanceAs (Decidable (s.data ≤ t.data))

instance : IsTotal String strLe := ⟨fun s t => le_total s.data t.data⟩

instance : IsTrans String strLe := ⟨fun _ _ _ h h' => le_trans h h'⟩

instance : IsAntisymm String strLe := ⟨fun s t h h' => by
  cases s; cases t
  exact congrArg String.mk (le_antisymm h h')⟩

/-- Ascending sort of labels, modelling `Array.from(set).sort()`. -/
def sortStrings (l : List String) : List String := l.insertionSort strLe

/-- JavaScript `Set` insertion: membership test, append if absent.
Folding this over a list keeps the first occurrence of each element. -/
def setAdd (s : List String) (x : String) : List String :=
  if x ∈ s then s else s ++ [x]

/-! ## CCD data model (src/unnamed/part_005, clade.js / src/unnamed/part_004, abstract-ccd.js)

A clade is identified by its bitset of leaf positions; the JavaScript
`cladeMapping` is keyed by the canonical string of that bitset and all
partition/child references are to the deduplicated clade objects, so a
`Finset ℕ` key identifies a clade uniquely.  Log-domain fields store the
exponential of the JavaScript float: `logCCP = some q` stands for
`ln q`, `none` for `-Infinity` (the constructor default). -/

inductive CCDErr where
  | taxonUnknown (label : String)  -- 'Taxon "label" not found in taxon mapping'
  | typeErr                        -- JavaScript TypeError from reading a member of undefined
  | noTrees                        -- 'No trees provided'
deriving DecidableEq, Repr

instance {ε α : Type} [DecidableEq ε] [DecidableEq α] : DecidableEq (Except ε α) :=
  fun x y =>
    match x, y with
    | .ok a, .ok b => if h : a = b then .isTrue (by rw [h]) else .isFalse (by simp [h])
    | .error e, .error f => if h : e = f then .isTrue (by rw [h]) else .isFalse (by simp [h])
    | .ok _, .error _ => .isFalse (by simp)
    | .error _, .ok _ => .isFalse (by simp)

structure PartitionD where
  child1 : Finset ℕ
  child2 : Finset ℕ
  occ : ℕ
  sumHeights : ℚ
  ccp : ℚ
  logCCP : Option ℚ
deriving DecidableEq

/-- `new CladePartition(parent, c1, c2)`: zero occurrences,
`ccp = -1`, `logCCP = -Infinity`. -/
def PartitionD.new (c1 c2 : Finset ℕ) : PartitionD :=
  ⟨c1, c2, 0, 0, -1, none⟩

structure CladeD where
  occ : ℕ
  sumHeights : ℚ
  partitions : List PartitionD
deriving DecidableEq

/-- A freshly created `Clade`: no occurrences, no partitions. -/
def CladeD.new : CladeD := ⟨0, 0, []⟩

/-- The mutable `AbstractCCD` fields the claims observe.  `clades` is the
insertion-ordered `cladeMapping`.  The `baseTrees` bookkeeping and the
probability/entropy caches on clade objects are not read by any claim
and are omitted. -/
structure CCDState where
  leafArraySize : ℕ
  taxonNames : List String
  numBaseTrees : ℕ
  clades : List (Finset ℕ × CladeD)
  probabilitiesDirty : Bool
  entropyDirty : Bool
  numberOfTopologiesDirty : Bool
deriving DecidableEq

/-- `new CCD1(numLeaves)` followed by the `taxonNames`/`taxonMapping`
assignment: cache flags clear and `initializeRootClade` installs the
all-ones root bitset.  The taxon mapping sends `taxonNames[i] ↦ i`,
which the embedding recovers with `List.indexOf?`. -/
def CCDState.empty (names : List String) : CCDState :=
  { leafArraySize := names.length
    taxonNames := names
    numBaseTrees := 0
    clades := [(Finset.range names.length, CladeD.new)]
    probabilitiesDirty := false
    entropyDirty := false
    numberOfTopologiesDirty := false }

/-- `cladeMapping.get(bits.toString())`. -/
def lookupClade : List (Finset ℕ × CladeD) → Finset ℕ → Option CladeD
  | [], _ => none
  | (k, c) :: rest, bits => if k = bits then some c else lookupClade rest bits

/-- In-place mutation of the clade stored under a key. -/
def updateClade : List (Finset ℕ × CladeD) → Finset ℕ → (CladeD → CladeD) →
    List (Finset ℕ × CladeD)
  | [], _, _ => []
  | (k, c) :: rest, bits, f =>
    if k = bits then (k, f c) :: rest else (k, c) :: updateClade rest bits f

/-- `partition.containsChildClades(c1, c2)`: unordered comparison of the
two child clades. -/
def partitionMatches (p : PartitionD) (b1 b2 : Finset ℕ) : Bool :=
  (p.child1 = b1 ∧ p.child2 = b2) ∨ (p.child1 = b2 ∧ p.child2 = b1)

/-- `clade.getCladePartition` followed by `createCladePartition` (push
with zero occurrences) when absent, then `increaseOccurrenceCount` on
the located partition.  The create-then-increment pair is collapsed: a
fresh partition is appended directly with one occurrence. -/
def bumpOrCreatePartition (ps : List PartitionD) (b1 b2 : Finset ℕ) (h : ℚ) :
    List PartitionD :=
  if ps.any (fun p => partitionMatches p b1 b2) then
    bumpFirst ps b1 b2 h
  else
    ps ++ [{ PartitionD.new b1 b2 with occ := 1, sumHeights := h }]
where
  bumpFirst : List PartitionD → Finset ℕ → Finset ℕ → ℚ → List PartitionD
    | [], _, _, _ => []
    | p :: rest, b1, b2, h =>
      if partitionMatches p b1 b2 then
        { p with occ := p.occ + 1, sumHeights := p.sumHeights + h } :: rest
      else p :: bumpFirst rest b1 b2 h

/-- The clade-level effect of one `cladifyVertex` visit: look the bitset
up, `addNewClade` (append) when absent, then
`increaseOccurrenceCount(height)`. -/
def visitClade (cl : List (Finset ℕ × CladeD)) (bits : Finset ℕ) (h : ℚ) :
    List (Finset ℕ × CladeD) :=
  let cl' := if (lookupClade cl bits).isSome then cl else cl ++ [(bits, CladeD.new)]
  updateClade cl' bits (fun c => { c with occ := c.occ + 1, sumHeights := c.sumHeights + h })

/-- The partition-level effect of one internal-vertex visit. -/
def visitPartition (cl : List (Finset ℕ × CladeD)) (bits b1 b2 : Finset ℕ) (h : ℚ) :
    List (Finset ℕ × CladeD) :=
  updateClade cl bits (fun c => { c with partitions := bumpOrCreatePartition c.partitions b1 b2 h })

/-- `AbstractCCD.cladifyVertex(vertex)`.  Only `children[0]` and
`children[1]` are ever read: children beyond the second are silently
ignored, and a vertex with exactly one child makes
`cladifyVertex(undefined)` dereference `undefined` (a TypeError) after
the first child has been processed.  No arity check exists. -/
def cladifyVertex (s : CCDState) (v : Vertex) : Except CCDErr (CCDState × Finset ℕ) :=
  match v with
  | .mk lbl vid hgt bl [] =>
    let label := labelOf (.mk lbl vid hgt bl [])
    match s.taxonNames.indexOf? label with
    | none => .error (.taxonUnknown label)
    | some index =>
      let bits : Finset ℕ := {index}
      .ok ({ s with clades := visitClade s.clades bits (effHeight hgt) }, bits)
  | .mk _ _ _ _ [c] => do
    let _ ← cladifyVertex s c
    .error .typeErr
  | .mk _ _ hgt _ (c₁ :: c₂ :: _) => do
    let (s₁, b₁) ← cladifyVertex s c₁
    let (s₂, b₂) ← cladifyVertex s₁ c₂
    let bits := b₁ ∪ b₂
    let cl₁ := visitClade s₂.clades bits (effHeight hgt)
    let cl₂ := visitPartition cl₁ bits b₁ b₂ (effHeight hgt)
    .ok ({ s₂ with clades := cl₂ }, bits)

/-- `AbstractCCD.setCacheAsDirty()`. -/
def setCacheAsDirty (s : CCDState) : CCDState :=
  { s with probabilitiesDirty := true, entropyDirty := true, numberOfTopologiesDirty := true }

/-- `AbstractCCD.addTree(tree)`: bump the base-tree counter, cladify the
root, mark every cache dirty.  (On a JavaScript exception the partial
mutations survive; the `Except` model only tracks runs that are
observed after successful calls, which is all any claim requires.) -/
def addTree (s : CCDState) (t : JSTree) : Except CCDErr CCDState := do
  let s₁ := { s with numBaseTrees := s.numBaseTrees + 1 }
  let (s₂, _) ← cladifyVertex s₁ t.root
  .ok (setCacheAsDirty s₂)

/-- `CladePartition.setCCP(value)`: stores the value and
`logCCP = value > 0 ? Math.log(value) : -Infinity` (log values carried
as their exponentials). -/
def setCCP (p : PartitionD) (value : ℚ) : PartitionD :=
  { p with ccp := value, logCCP := if 0 < value then some value else none }

/-- The per-clade body of `CCD1.initialize()`: when the clade has
partitions, sum their occurrence counts and set each partition's CCP to
`occurrences / partitionSum` (0 when the sum is not positive). -/
def initializeClade (c : CladeD) : CladeD :=
  if c.partitions.isEmpty then c
  else
    let partitionSum : ℕ := (c.partitions.map (·.occ)).sum
    { c with partitions := c.partitions.map (fun p =>
        setCCP p (if 0 < partitionSum then (p.occ : ℚ) / (partitionSum : ℚ) else 0)) }

/-- `CCD1.initialize()`: normalise every clade's partition counts into
CCPs, then set `entropyDirty` and `numberOfTopologiesDirty` to `true`
and leave `probabilitiesDirty` untouched. -/
def CCDState.initialize (s : CCDState) : CCDState :=
  { s with
    clades := s.clades.map (fun kc => (kc.1, initializeClade kc.2))
    entropyDirty := true
    numberOfTopologiesDirty := true }

/-- The `allTaxa` set of `CCD1.fromTrees`: every tree's `leafList`
labels inserted into a JavaScript `Set`, in encounter order. -/
def allTaxaOf (trees : List JSTree) : List String :=
  trees.foldl (fun acc t => t.leafLabels.foldl setAdd acc) []

/-- `Math.floor(trees.length * burnin)` at rational precision
(JavaScript multiplies doubles; the rare cases where the double product
rounds across an integer boundary are not modelled). -/
def burninCountOf (n : ℕ) (burnin : ℚ) : ℕ :=
  (Int.floor ((n : ℚ) * burnin)).toNat

/-- `CCD1.fromTrees(trees, burnin)`.  Note the source order: the taxon
set is collected from ALL trees first; the burnin slice only restricts
which trees are ingested.  `Math.floor(trees.length * burnin)` is taken
at rational precision; JavaScript `Array.slice` semantics for a
negative count (a burnin below 0) is not modelled. -/
def fromTrees (trees : List JSTree) (burnin : ℚ) : Except CCDErr CCDState := do
  if trees.isEmpty then throw .noTrees
  let sortedTaxa := sortStrings (allTaxaOf trees)
  let ccd := CCDState.empty sortedTaxa
  let burninCount := burninCountOf trees.length burnin
  let treesToUse := trees.drop burninCount
  let s ← treesToUse.foldlM addTree ccd
  .ok s.initialize

/-! ## Maximum tree probability (AbstractCCD.getMaxLogTreeProbability)

`maxSubtreeCCP` values are log-domain and are carried as exponentials:
`none` is `-Infinity` (not yet computed / no valid partition), `some q`
is `ln q`.  The per-clade values live in an association list parallel
to `cladeMapping`. -/

def lookupVal : List (Finset ℕ × Option ℚ) → Finset ℕ → Option (Option ℚ)
  | [], _ => none
  | (k, x) :: rest, bits => if k = bits then some x else lookupVal rest bits

def updateVal : List (Finset ℕ × Option ℚ) → Finset ℕ → Option ℚ →
    List (Finset ℕ × Option ℚ)
  | [], _, _ => []
  | (k, x) :: rest, bits, y =>
    if k = bits then (k, y) :: rest else (k, x) :: updateVal rest bits y

/-- The reset loop: every clade's `maxSubtreeCCP` to `-Infinity`, then
leaf clades (`cladeInBits.cardinality() === 1`) to `0 = ln 1`. -/
def initMaxVals (cl : List (Finset ℕ × CladeD)) : List (Finset ℕ × Option ℚ) :=
  cl.map (fun kc => (kc.1, if kc.1.card = 1 then some 1 else none))

/-- `allChildrenComputed` for one partition: both child clades carry a
finite `maxSubtreeCCP`.  (In every reachable state both children are
present in the mapping; a missing key also counts as not computed.) -/
def childrenComputed (vals : List (Finset ℕ × Option ℚ)) (p : PartitionD) : Bool :=
  (match lookupVal vals p.child1 with | some (some _) => true | _ => false) &&
  (match lookupVal vals p.child2 with | some (some _) => true | _ => false)

/-- The candidate value of one partition:
`logCCP + child1.maxSubtreeCCP + child2.maxSubtreeCCP`, skipped
(`none`) when `logCCP` is `-Infinity` or `ccp <= 0`. -/
def partitionCandidate (vals : List (Finset ℕ × Option ℚ)) (p : PartitionD) : Option ℚ :=
  if p.logCCP = none ∨ p.ccp ≤ 0 then none
  else
    match lookupVal vals p.child1, lookupVal vals p.child2 with
    | some (some v₁), some (some v₂) => some (p.ccp * v₁ * v₂)
    | _, _ => none

/-- The `totalLogCCP > maxLogCCP` accumulation over a clade's
partitions, starting from `-Infinity`. -/
def bestPartitionValue (vals : List (Finset ℕ × Option ℚ)) (ps : List PartitionD) :
    Option ℚ :=
  ps.foldl (fun acc p =>
    match partitionCandidate vals p, acc with
    | none, a => a
    | some c, none => some c
    | some c, some m => if m < c then some c else some m) none

/-- One clade visit inside a relaxation pass: skip when already
computed, a leaf, childless or blocked on an uncomputed child;
otherwise store the best partition value and report a change (the code
sets `changed = true` even when the result is again `-Infinity`). -/
def maxStep (acc : List (Finset ℕ × Option ℚ) × Bool) (kc : Finset ℕ × CladeD) :
    List (Finset ℕ × Option ℚ) × Bool :=
  let (vals, changed) := acc
  let (k, c) := kc
  match lookupVal vals k with
  | some (some _) => (vals, changed)
  | _ =>
    if k.card = 1 then (vals, changed)
    else if c.partitions.all (childrenComputed vals) && !c.partitions.isEmpty then
      (updateVal vals k (bestPartitionValue vals c.partitions), true)
    else (vals, changed)

/-- One full pass of the `for (const clade of clades)` loop. -/
def maxPass (cl : List (Finset ℕ × CladeD)) (vals : List (Finset ℕ × Option ℚ)) :
    List (Finset ℕ × Option ℚ) × Bool :=
  cl.foldl maxStep (vals, false)

/-- The `while (changed && iterations < maxIterations)` loop with
`maxIterations = clades.length` as fuel. -/
def maxLoop (cl : List (Finset ℕ × CladeD)) :
    ℕ → List (Finset ℕ × Option ℚ) → List (Finset ℕ × Option ℚ)
  | 0, vals => vals
  | fuel + 1, vals =>
    let (vals', ch) := maxPass cl vals
    if ch then maxLoop cl fuel vals' else vals'

/-- `AbstractCCD.getMaxLogTreeProbability()` (CCD1's
`tidyUpCacheIfDirty` is a no-op): reset, relax, return the root
clade's `maxSubtreeCCP`. -/
def CCDState.getMaxLogTreeProbability (s : CCDState) : Option ℚ :=
  let vals := initMaxVals s.clades
  let final := maxLoop s.clades s.clades.length vals
  (lookupVal final (Finset.range s.leafArraySize)).join

/-- `Math.exp` on a log-domain value carried as its exponential:
`exp(-Infinity) = 0`, `exp(ln q) = q`. -/
def expOf : Option ℚ → ℚ
  | none => 0
  | some q => q

/-- `AbstractCCD.getMaxTreeProbability()`. -/
def CCDState.getMaxTreeProbability (s : CCDState) : ℚ :=
  expOf s.getMaxLogTreeProbability

/-! ## Per-tree log probability (AbstractCCD.getTreeLogProbability) -/

/-- The value `calculateNodeLogProb` returns for a node: `null` for a
leaf, the located clade for an internal node, `undefined` when the
clade is absent from the mapping. -/
inductive NodeRes where
  | nullRes
  | cladeRes (k : Finset ℕ)
  | undefRes
deriving DecidableEq

/-- JavaScript truthiness of a `calculateNodeLogProb` result (`null`
and `undefined` are falsy, a clade object is truthy). -/
def NodeRes.isClade : NodeRes → Bool
  | cladeRes _ => true
  | _ => false

/-- `logProb += x` on log-domain values carried as exponentials:
adding logs multiplies the carried values; `-Infinity` absorbs. -/
def addLog : Option ℚ → Option ℚ → Option ℚ
  | some a, some b => some (a * b)
  | _, _ => none

/-- `AbstractCCD.getLeafClade(leafNode)`: build the single-bit bitset of
the node's label and look it up; `null` when the label is unmapped or
the clade is absent. -/
def CCDState.getLeafClade (s : CCDState) (leafNode : Vertex) : Option (Finset ℕ) :=
  match s.taxonNames.indexOf? (labelOf leafNode) with
  | some index => if (lookupClade s.clades {index}).isSome then some {index} else none
  | none => none

/-- `clade.getCladePartition(a, b)` where either argument may be `null`
(which matches no child clade). -/
def findPartitionOpt (ps : List PartitionD) (a b : Option (Finset ℕ)) :
    Option PartitionD :=
  ps.find? (fun p =>
    (a == some p.child1 && b == some p.child2) ||
    (a == some p.child2 && b == some p.child1))

/-- The contribution of one child to the parent's `cladeInBits`: the
child clade's bits when `calculateNodeLogProb` returned a clade,
otherwise (null or undefined result) the child node's own taxon bit
(skipped when the label is unmapped). -/
def childBits (s : CCDState) (r : NodeRes) (child : Vertex) : Finset ℕ :=
  match r with
  | .cladeRes k => k
  | _ =>
    match s.taxonNames.indexOf? (labelOf child) with
    | some i => {i}
    | none => ∅

/-- `calculateNodeLogProb(node)` threading the enclosing `logProb`
accumulator (log-domain, carried as an exponential: `some 1` is the
initial `0`).  Only `children[0]` and `children[1]` are read; a vertex
with a single child dereferences `undefined` after its first child has
been processed. -/
def calcNodeLogProb (s : CCDState) :
    Vertex → Option ℚ → Except CCDErr (NodeRes × Option ℚ)
  | .mk _ _ _ _ [], logProb => .ok (.nullRes, logProb)
  | .mk _ _ _ _ [c], logProb => do
    let _ ← calcNodeLogProb s c logProb
    .error .typeErr
  | .mk _ _ _ _ (c₁ :: c₂ :: _), logProb => do
    let (r₁, lp₁) ← calcNodeLogProb s c₁ logProb
    let (r₂, lp₂) ← calcNodeLogProb s c₂ lp₁
    let bits := childBits s r₁ c₁ ∪ childBits s r₂ c₂
    match lookupClade s.clades bits with
    | none => .ok (.undefRes, none)
    | some clade =>
      if r₁.isClade || r₂.isClade then
        let a₁ := match r₁ with | .cladeRes k => some k | _ => s.getLeafClade c₁
        let a₂ := match r₂ with | .cladeRes k => some k | _ => s.getLeafClade c₂
        match findPartitionOpt clade.partitions a₁ a₂ with
        | some p => .ok (.cladeRes bits, addLog lp₂ p.logCCP)
        | none => .ok (.cladeRes bits, none)
      else
        .ok (.cladeRes bits, lp₂)

/-- `AbstractCCD.getTreeLogProbability(tree)`.  The initial
`computeCladeProbabilitiesIfDirty()` call refreshes the probability
caches; it reads no `ccp`/`logCCP`, writes none, throws nothing and
does not influence the returned value, so it is not modelled.  The
returned log probability is carried as its exponential (`some 1` is a
log probability of `0`, `none` is `-Infinity`). -/
def CCDState.getTreeLogProbability (s : CCDState) (t : JSTree) :
    Except CCDErr (Option ℚ) := do
  let (_, lp) ← calcNodeLogProb s t.root (some 1)
  .ok lp

/-! ## Tree distance kernels (src/src/styles.css bundle, distance-metrics.js) -/

/-- `collectDescendantLeaves(node)`: descendant leaf labels in
depth-first order. -/
def descendantLabels (v : Vertex) : List String :=
  (leavesOf v).map labelOf

/-- `getSplitForNode(node)` for an internal node: the descendant labels
versus their complement in the tip-label list, both sorted (the
membership filter runs before either side is sorted). -/
def nodeSplit (tips : List String) (v : Vertex) : List String × List String :=
  let descendants := descendantLabels v
  let complement := tips.filter (fun l => l ∉ descendants)
  (sortStrings descendants, sortStrings complement)

mutual

/-- The `traverse` loop of `getTreeSplits`: visit every internal node
(pre-order), keep each split whose sides are both nonempty. -/
def collectSplits (tips : List String) : Vertex → List (List String × List String)
  | .mk _ _ _ _ [] => []
  | .mk l i h bl (c :: cs) =>
    let split := nodeSplit tips (.mk l i h bl (c :: cs))
    (if split.1 ≠ [] ∧ split.2 ≠ [] then [split] else []) ++
      collectSplitsAll tips (c :: cs)

def collectSplitsAll (tips : List String) : List Vertex → List (List String × List String)
  | [] => []
  | c :: cs => collectSplits tips c ++ collectSplitsAll tips cs

end

/-- `getTreeSplits(tree)` over `tree.getTipLabels()`. -/
def getTreeSplits (t : JSTree) : List (List String × List String) :=
  collectSplits t.leafLabels t.root

/-- `areSplitsEqual`: unordered equality of the two (sorted) sides. -/
def areSplitsEqual (s₁ s₂ : List String × List String) : Bool :=
  (s₁.1 == s₂.1 && s₁.2 == s₂.2) || (s₁.1 == s₂.2 && s₁.2 == s₂.1)

/-- `calculateRFDistance(tree1, tree2)`: splits of each tree with no
equal split in the other, counted on both sides. -/
def calculateRFDistance (t₁ t₂ : JSTree) : ℕ :=
  let splits1 := getTreeSplits t₁
  let splits2 := getTreeSplits t₂
  (splits1.filter (fun s => !(splits2.any (fun s' => areSplitsEqual s' s)))).length +
  (splits2.filter (fun s => !(splits1.any (fun s' => areSplitsEqual s' s)))).length

/-- `calculateSPRDistance(tree1, tree2) = Math.ceil(rf / 2)`. -/
def calculateSPRDistance (t₁ t₂ : JSTree) : ℕ :=
  (calculateRFDistance t₁ t₂ + 1) / 2

/-- `current.branchLength || 1` in `getDistanceToAncestor`: JavaScript
`||` falls back to 1 not only for a missing branch length but also for
a branch length of exactly 0 (both are falsy). -/
def effBranchLength (bl : Option ℚ) : ℚ :=
  match bl with
  | none => 1
  | some x => if x = 0 then 1 else x

mutual

/-- The function `getDistanceToAncestor(tip, v)` for the tip labelled
`a` inside the subtree `v`: the walk from the tip along `parent` links
up to but excluding `v`, summing effective branch lengths (the tip's
own branch length included).  Parametrised by the
effective-branch-length rule so that the specification's wording can
be instantiated alongside the code's. -/
def distUp (eff : Option ℚ → ℚ) : Vertex → String → Option ℚ
  | .mk lbl i h bl [], a =>
    if labelOf (.mk lbl i h bl []) = a then some 0 else none
  | .mk _ _ _ _ (c :: cs), a => distUpSearch eff (c :: cs) a

/-- The first child subtree containing the tip, with the child's own
effective branch length added on top of the recursive distance. -/
def distUpSearch (eff : Option ℚ → ℚ) : List Vertex → String → Option ℚ
  | [], _ => none
  | c :: cs, a =>
    match (distUp eff c a).map (· + eff c.branchLength) with
    | some d => some d
    | none => distUpSearch eff cs a

end

mutual

/-- The path length between the tips labelled `a` and `b`:
`getDistanceToAncestor(a, mrca) + getDistanceToAncestor(b, mrca)` where
`tree.getMRCA([a, b])` (external `phylojs`) is the deepest vertex whose
leaf set contains both labels — found here by descending while some
child still contains both. -/
def pairPath (eff : Option ℚ → ℚ) : Vertex → String → String → Option ℚ
  | .mk _ _ _ _ [], _, _ => none
  | .mk _ _ _ _ (c :: cs), a, b =>
    match pairPathDescend eff (c :: cs) a b with
    | some r => r
    | none =>
      if a ∈ descendantLabels (.mk none 0 none none (c :: cs)) ∧
         b ∈ descendantLabels (.mk none 0 none none (c :: cs)) then do
        let d₁ ← distUp eff (.mk none 0 none none (c :: cs)) a
        let d₂ ← distUp eff (.mk none 0 none none (c :: cs)) b
        pure (d₁ + d₂)
      else none

/-- Descend into the first child whose leaf set contains both labels
(the `getMRCA` search step); `none` when no child contains both, i.e.
the current vertex is the MRCA. -/
def pairPathDescend (eff : Option ℚ → ℚ) : List Vertex → String → String → Option (Option ℚ)
  | [], _, _ => none
  | c :: cs, a, b =>
    if a ∈ descendantLabels c ∧ b ∈ descendantLabels c then some (pairPath eff c a b)
    else pairPathDescend eff cs a b

end

/-- The sorted pair key `[l1, l2].sort().join('-')`, kept as an ordered
pair (the join is injective for the hyphen-free labels in scope). -/
def pairKey (a b : String) : String × String :=
  if strLe a b then (a, b) else (b, a)

/-- `getAllPairwisePaths(tree)`: for every tip pair `i < j` (tips in
depth-first order) record the path length under the sorted pair key.
`pairPath` is label-based; for the trees the claims quantify over
(distinct tip labels within each tree) it is always defined and the
`getD 0` default is never taken. -/
def getAllPairwisePaths (eff : Option ℚ → ℚ) (t : JSTree) :
    List ((String × String) × ℚ) :=
  let tips := leavesOf t.root
  (List.range tips.length).flatMap (fun i =>
    (List.range tips.length).filterMap (fun j =>
      if i < j then
        let l₁ := labelOf (tips.getD i default)
        let l₂ := labelOf (tips.getD j default)
        some (pairKey l₁ l₂, (pairPath eff t.root l₁ l₂).getD 0)
      else none))

/-- `paths[key]` lookup. -/
def lookupPath (ps : List ((String × String) × ℚ)) (k : String × String) : Option ℚ :=
  (ps.find? (fun e => e.1 == k)).map (·.2)

/-- `calculatePathDistance(tree1, tree2)`: mean absolute difference over
the keys present in both path maps; `none` models the `Infinity`
returned when no key is shared. -/
def calculatePathDistance (t₁ t₂ : JSTree) : Option ℚ :=
  let paths1 := getAllPairwisePaths effBranchLength t₁
  let paths2 := getAllPairwisePaths effBranchLength t₂
  let shared := paths1.filter (fun e => (lookupPath paths2 e.1).isSome)
  let totalDiff := (shared.map (fun e => |e.2 - (lookupPath paths2 e.1).getD 0|)).sum
  if 0 < shared.length then some (totalDiff / shared.length) else none

/-- The `switch (metric)` dispatch shared by both matrix builders
(`'rf'`, `'spr'`, `'path'`, default `'rf'`).  Distances are `Option ℚ`
with `none` for `Infinity`. -/
def metricDistance (metric : String) (t₁ t₂ : JSTree) : Option ℚ :=
  if metric = "rf" then some (calculateRFDistance t₁ t₂ : ℚ)
  else if metric = "spr" then some (calculateSPRDistance t₁ t₂ : ℚ)
  else if metric = "path" then calculatePathDistance t₁ t₂
  else some (calculateRFDistance t₁ t₂ : ℚ)

/-- `calculateDistanceMatrix(trees, metric)`: zero-filled `n × n`
matrix, filled for `i < j` and mirrored. -/
def calculateDistanceMatrix (trees : List JSTree) (metric : String) :
    Array (Array (Option ℚ)) := Id.run do
  let n := trees.length
  let mut matrix := Array.mkArray n (Array.mkArray n (some (0 : ℚ)))
  for i in List.range n do
    for j in [i + 1:n] do
      let distance := metricDistance metric (trees.getD i default) (trees.getD j default)
      matrix := matrix.set! i ((matrix.getD i #[]).set! j distance)
      matrix := matrix.set! j ((matrix.getD j #[]).set! i distance)
  return matrix

/-- `calculateDistanceMatrixWithProgress(trees, metric, cb)`: the same
fill preceded by a `progressCallback(i, j, n)` report and a yield to
the event loop every tenth column; neither touches the matrix. -/
def calculateDistanceMatrixWithProgress (trees : List JSTree) (metric : String)
    (progressCallback : ℕ → ℕ → ℕ → Unit) : Array (Array (Option ℚ)) := Id.run do
  let n := trees.length
  let mut matrix := Array.mkArray n (Array.mkArray n (some (0 : ℚ)))
  for i in List.range n do
    for j in [i + 1:n] do
      let _ := progressCallback i j n
      let distance := metricDistance metric (trees.getD i default) (trees.getD j default)
      matrix := matrix.set! i ((matrix.getD i #[]).set! j distance)
      matrix := matrix.set! j ((matrix.getD j #[]).set! i distance)
  return matrix

/-! ## Classical MDS (src/src/mds.js)

The eigendecomposition comes from the external `numeric` library; it is
a parameter `eig` returning the eigenpairs (`eig.lambda.x[idx]` with
the matching column of `eig.E.x`).  `Math.sqrt` is likewise a
parameter. -/

/-- Squared distances `D[i][j] = d * d`. -/
def squaredDistances (distances : List (List ℚ)) : List (List ℚ) :=
  distances.map (fun row => row.map (fun d => d * d))

/-- The double-centred matrix
`B[i][j] = -0.5 * (D[i][j] - rowMeans[i] - rowMeans[j] + totalMean)`. -/
def centeredMatrix (distances : List (List ℚ)) : List (List ℚ) :=
  let n := distances.length
  let D := squaredDistances distances
  let rowMeans := D.map (fun row => row.sum / (n : ℚ))
  let totalMean := rowMeans.sum / (n : ℚ)
  (List.range n).map (fun i => (List.range n).map (fun j =>
    -(1 / 2) * ((D.getD i []).getD j 0 - rowMeans.getD i 0 - rowMeans.getD j 0 + totalMean)))

/-- The descending eigenvalue order of
`eigenPairs.sort((a, b) => b.value - a.value)`. -/
def eigGe (p q : ℚ × List ℚ) : Prop := q.1 ≤ p.1

instance : DecidableRel eigGe := fun p q => inferInstanceAs (Decidable (q.1 ≤ p.1))

instance : IsTotal (ℚ × List ℚ) eigGe := ⟨fun p q => le_total q.1 p.1⟩

instance : IsTrans (ℚ × List ℚ) eigGe := ⟨fun _ _ _ h h' => le_trans h' h⟩

def sortEigenPairs (l : List (ℚ × List ℚ)) : List (ℚ × List ℚ) :=
  l.insertionSort eigGe

/-- `classicalMDS(distances)`: double-centre, eigendecompose, sort
descending, and scale the top one or two eigenvectors by the square
roots of their positive eigenvalues; a non-positive eigenvalue leaves
its output dimension at 0.  (For `n = 0` the JavaScript code throws on
`eigenPairs[0]`; that empty case returns the empty coordinate list
here and is outside every claim.) -/
def classicalMDS (sqrt : ℚ → ℚ) (eig : List (List ℚ) → List (ℚ × List ℚ))
    (distances : List (List ℚ)) : List (List ℚ) :=
  let n := distances.length
  let B := centeredMatrix distances
  let eigenPairs := sortEigenPairs (eig B)
  (List.range n).map (fun i =>
    [(match eigenPairs[0]? with
      | some p => if 0 < p.1 then p.2.getD i 0 * sqrt p.1 else 0
      | none => 0),
     (match eigenPairs[1]? with
      | some p => if 0 < p.1 then p.2.getD i 0 * sqrt p.1 else 0
      | none => 0)])

/-! ## Dissonance (src/unnamed/part_003, ccd/dissonance.js)

`getEntropy()` in the source is a pure numeric computation over the CCD
(clade-probability propagation followed by a `probability * logCCP`
sum); it involves real logarithms, throws nothing and influences only
the recorded entropy numbers, so it enters the model as an abstract
function `H : CCDState → ℚ`.  Every claim about this module concerns
error behaviour, which `H` cannot affect. -/

inductive DissErr where
  | insufficientTrees    -- 'Not enough trees (n) to split into k parts'
  | noTreeSets           -- 'No tree sets provided'
  | emptyTreeSets        -- 'Empty tree sets provided'
  | ccdErr (e : CCDErr)  -- an exception propagated out of the CCD layer
deriving DecidableEq, Repr

def liftCCD {α : Type} : Except CCDErr α → Except DissErr α
  | .ok a => .ok a
  | .error e => .error (.ccdErr e)

/-- `Math.min(...treeSets.map(set => set.length))` (0 only when some
set is empty; the empty `treeSets` case is guarded earlier). -/
def minLength (treeSets : List (List JSTree)) : ℕ :=
  match treeSets.map (·.length) with
  | [] => 0
  | h :: t => t.foldl min h

/-- The `allTaxa` union over a list of tree sets. -/
def allTaxaOfSets (treeSets : List (List JSTree)) : List String :=
  treeSets.foldl (fun acc set => set.foldl (fun a t => t.leafLabels.foldl setAdd a) acc) []

/-- The fields of the `calculateDissonance` result object that later
code reads (display-only fields are omitted). -/
structure DissResult where
  numChains : ℕ
  numTrees : ℕ
  entropies : Array (List ℚ)
  dissonanceValues : List ℚ
  finalDissonance : ℚ
  meanDissonance : ℚ
  avgFinalEntropy : ℚ
  relativeDissonance : ℚ
  chainCCDs : Array CCDState
  combinedCCD : CCDState

/-- The body of the inner `for (let j = 0; j < numChains; j++)` loop of
`calculateDissonance`, one chain update: add tree `i` of chain `j` to
chain CCD `j`, re-initialise, record its entropy, accumulate the
weighted entropy sum, and add the same tree to the pooled CCD.  The
loop state is `(ccds, combinedCCD, entropies, weightedEntropySum)`. -/
def dissChainStep (H : CCDState → ℚ) (treeSets : List (List JSTree)) (i : ℕ)
    (st : Array CCDState × CCDState × Array (List ℚ) × ℚ) (j : ℕ) :
    Except DissErr (Array CCDState × CCDState × Array (List ℚ) × ℚ) := do
  let (ccds, combinedCCD, entropies, weightedEntropySum) := st
  let numChains := treeSets.length
  let tree := (treeSets.getD j []).getD i default
  let s ← liftCCD (addTree (ccds.getD j (CCDState.empty [])) tree)
  let s := s.initialize
  let ccds := ccds.set! j s
  let entropy := H s
  let entropies := entropies.set! j (entropies.getD j [] ++ [entropy])
  let weightedEntropySum := weightedEntropySum + entropy / (numChains : ℚ)
  let combinedCCD ← liftCCD (addTree combinedCCD tree)
  .ok (ccds, combinedCCD, entropies, weightedEntropySum)

/-- The body of the outer `for (let i = 0; i < numTrees; i++)` loop:
run the chain updates, then initialise the pooled CCD, record its
entropy and the dissonance `H_pool - mean(H_j)`. -/
def dissTreeStep (H : CCDState → ℚ) (treeSets : List (List JSTree))
    (st : Array CCDState × CCDState × Array (List ℚ) × List ℚ) (i : ℕ) :
    Except DissErr (Array CCDState × CCDState × Array (List ℚ) × List ℚ) := do
  let (ccds, combinedCCD, entropies, dissonanceValues) := st
  let numChains := treeSets.length
  let (ccds, combinedCCD, entropies, weightedEntropySum) ←
    (List.range numChains).foldlM (dissChainStep H treeSets i)
      (ccds, combinedCCD, entropies, 0)
  let combinedCCD := combinedCCD.initialize
  let combinedEntropy := H combinedCCD
  let entropies := entropies.set! numChains (entropies.getD numChains [] ++ [combinedEntropy])
  .ok (ccds, combinedCCD, entropies,
    dissonanceValues ++ [combinedEntropy - weightedEntropySum])

/-- `calculateDissonance(treeSets)`: guard against empty input, build a
shared taxon index, then per step add one tree from every chain to its
CCD and to the pooled CCD, re-initialise, and record entropies and the
dissonance (the imperative loops are folds over their index ranges). -/
def calculateDissonance (H : CCDState → ℚ) (treeSets : List (List JSTree)) :
    Except DissErr DissResult := do
  if treeSets.isEmpty then throw .noTreeSets
  let numChains := treeSets.length
  let numTrees := minLength treeSets
  if numTrees = 0 then throw .emptyTreeSets
  let sortedTaxa := sortStrings (allTaxaOfSets treeSets)
  let empty := CCDState.empty sortedTaxa
  let (ccds, combinedCCD, entropies, dissonanceValues) ←
    (List.range numTrees).foldlM (dissTreeStep H treeSets)
      (Array.mkArray numChains empty, empty, Array.mkArray (numChains + 1) [], [])
  let finalDissonance := (dissonanceValues.getLast?).getD 0
  let meanDissonance := dissonanceValues.sum / (dissonanceValues.length : ℚ)
  let avgFinalEntropy := ((List.range numChains).map (fun i =>
    ((entropies.getD i []).getLast?).getD 0 / (numChains : ℚ))).sum
  let relativeDissonance := if 0 < avgFinalEntropy then finalDissonance / avgFinalEntropy else 0
  .ok { numChains := numChains, numTrees := numTrees, entropies := entropies,
        dissonanceValues := dissonanceValues, finalDissonance := finalDissonance,
        meanDissonance := meanDissonance, avgFinalEntropy := avgFinalEntropy,
        relativeDissonance := relativeDissonance, chainCCDs := ccds,
        combinedCCD := combinedCCD }

/-- The tree subsampling of `compareCCDTreeProbabilities`: keep every
`Math.ceil(length / 1000)`-th tree once the list exceeds 1000. -/
def sampleTrees (trees : List JSTree) : List JSTree :=
  if trees.length ≤ 1000 then trees
  else
    let stride := (trees.length + 999) / 1000
    (List.range trees.length).filterMap (fun i =>
      if i % stride = 0 then some (trees.getD i default) else none)

/-- The failure-relevant skeleton of `compareCCDTreeProbabilities`: the
only fallible steps are the `getTreeLogProbability` evaluations (the
statistics derived from the returned numbers throw nothing). -/
def compareLogProbs (ccd₁ ccd₂ : CCDState) (trees : List JSTree) :
    Except CCDErr Unit :=
  trees.foldlM (fun _ tree => do
    let _ ← ccd₁.getTreeLogProbability tree
    let _ ← ccd₂.getTreeLogProbability tree
    .ok ()) ()

/-- `calculateWithinChainDissonance(trees, numSplits)`: the
insufficient-trees guard, the split into `numSplits` contiguous blocks
of `Math.floor(length / numSplits)` trees (the last block absorbing the
remainder), the shared dissonance computation, and — for two splits on
hard problems — the CCD probability comparison.  The decoration of the
result with display fields (`splitSize`, `interpretation`, notes) is
not modelled. -/
def calculateWithinChainDissonance (H : CCDState → ℚ) (trees : List JSTree)
    (numSplits : ℕ) : Except DissErr DissResult := do
  if trees.length < numSplits * 2 then throw .insufficientTrees
  let splitSize := trees.length / numSplits
  let treeSets := (List.range numSplits).map (fun i =>
    let start := i * splitSize
    let stop := if i = numSplits - 1 then trees.length else (i + 1) * splitSize
    (trees.drop start).take (stop - start))
  let result ← calculateDissonance H treeSets
  if numSplits = 2 ∧ result.chainCCDs.size = 2 ∧ 10 < result.avgFinalEntropy then
    let sample₁ := sampleTrees (treeSets.getD 0 [])
    let sample₂ := sampleTrees (treeSets.getD 1 [])
    let dflt := CCDState.empty []
    let _ ← liftCCD (compareLogProbs (result.chainCCDs.getD 0 dflt)
      (result.chainCCDs.getD 1 dflt) (sample₁ ++ sample₂))
    .ok result
  else
    .ok result

/-! ## Specification-side definitions

These follow the wording of the specification / the claims (not the
source) and exist to be compared against the embedded code. -/

/-- Modelled from the spec, for claim C1: "discard the first
⌊|trees|·burninFraction⌋ trees, build a taxon index from the leaf
labels of the remaining trees (sorted ascending)". -/
def specTaxonNamesAfterBurnin (trees : List JSTree) (burnin : ℚ) : List String :=
  let burninCount := burninCountOf trees.length burnin
  sortStrings ((trees.drop burninCount).foldl (fun acc t => t.leafLabels.foldl setAdd acc) [])

/-- The branch-length default the specification describes for the path
distance: "a missing branch length defaults to 1" — a present branch
length (zero included) is used as is. -/
def specEffBranchLength (bl : Option ℚ) : ℚ := bl.getD 1

/-- The unordered leaf-label pairs present in both trees, enumerated
canonically from the sorted list of shared labels. -/
def specSharedPairs (t₁ t₂ : JSTree) : List (String × String) :=
  let shared := sortStrings (t₁.leafLabels.filter (fun l => l ∈ t₂.leafLabels))
  (List.range shared.length).flatMap (fun i =>
    (List.range shared.length).filterMap (fun j =>
      if i < j then some (shared.getD i "", shared.getD j "") else none))

/-- The path-distance characterisation stated by claim C6, parametrised
by the effective-branch-length rule: restrict to the unordered
leaf-label pairs present in both trees, take the mean absolute
difference of the two trees' a→MRCA→b path-length sums over those
shared pairs, and `Infinity` (`none`) when no pair is shared. -/
def specPathDistance (eff : Option ℚ → ℚ) (t₁ t₂ : JSTree) : Option ℚ :=
  let pairs := specSharedPairs t₁ t₂
  let total := (pairs.map (fun ab =>
    |((pairPath eff t₁.root ab.1 ab.2).getD 0) - ((pairPath eff t₂.root ab.1 ab.2).getD 0)|)).sum
  if 0 < pairs.length then some (total / pairs.length) else none


/-! ## Run characterisation of single-tree ingestion (proof scaffolding)

These definitions are not part of the embedded source; they describe,
for a binary vertex, the clade key each vertex receives and the exact
clade-mapping segment one `cladifyVertex` run appends.  They are proved
to coincide with the run of the embedded code. -/

/-- The bitset key a vertex receives from `cladifyVertex`: a leaf maps
to the singleton of its taxon index, an internal vertex to the union of
the keys of its first two children. -/
def vkey (names : List String) : Vertex → Finset ℕ
  | .mk lbl i h bl [] =>
    match names.indexOf? (labelOf (.mk lbl i h bl [])) with
    | some idx => {idx}
    | none => ∅
  | .mk _ _ _ _ (c₁ :: c₂ :: _) => vkey names c₁ ∪ vkey names c₂
  | .mk _ _ _ _ [_] => ∅

/-- Every vertex of a (binary) subtree, the root first, then the first
two children's subtrees. -/
def subtreeVertices : Vertex → List Vertex
  | .mk lbl i h bl [] => [.mk lbl i h bl []]
  | .mk lbl i h bl (c₁ :: c₂ :: rest) =>
    .mk lbl i h bl (c₁ :: c₂ :: rest) :: (subtreeVertices c₁ ++ subtreeVertices c₂)
  | .mk lbl i h bl [c] => [.mk lbl i h bl [c]]

/-- The clade-mapping segment appended by cladifying a fresh binary
subtree: children's segments first (post-order), then the vertex's own
entry with one occurrence and, for an internal vertex, its single
partition. -/
def treeEntries (names : List String) : Vertex → List (Finset ℕ × CladeD)
  | .mk lbl i h bl [] =>
    [(vkey names (.mk lbl i h bl []), ⟨1, 0 + effHeight h, []⟩)]
  | .mk lbl i h bl (c₁ :: c₂ :: rest) =>
    treeEntries names c₁ ++ treeEntries names c₂ ++
      [(vkey names (.mk lbl i h bl (c₁ :: c₂ :: rest)),
        ⟨1, 0 + effHeight h,
          [⟨vkey names c₁, vkey names c₂, 1, effHeight h, -1, none⟩]⟩)]
  | .mk _ _ _ _ [_] => []

/-- The same segment after `initialize()`: the single partition of each
internal entry carries `ccp = 1` and `logCCP = some 1` (the exponential
of a zero log). -/
def treeEntriesInit (names : List String) : Vertex → List (Finset ℕ × CladeD)
  | .mk lbl i h bl [] =>
    [(vkey names (.mk lbl i h bl []), ⟨1, 0 + effHeight h, []⟩)]
  | .mk lbl i h bl (c₁ :: c₂ :: rest) =>
    treeEntriesInit names c₁ ++ treeEntriesInit names c₂ ++
      [(vkey names (.mk lbl i h bl (c₁ :: c₂ :: rest)),
        ⟨1, 0 + effHeight h,
          [⟨vkey names c₁, vkey names c₂, 1, effHeight h, 1, some 1⟩]⟩)]
  | .mk _ _ _ _ [_] => []

/-- All label/index hypotheses of the single-tree theorems: the vertex
is strictly binary, every leaf label is in the taxon index, and the
leaf labels are pairwise distinct. -/
def GoodTree (names : List String) (v : Vertex) : Prop :=
  v.Binary ∧ (∀ u ∈ leavesOf v, (names.indexOf? (labelOf u)).isSome) ∧
    ((leavesOf v).map labelOf).Nodup

/-- The clade record stored for a vertex after `initialize()` on a
single-tree CCD: one occurrence, and (for an internal vertex) one
partition with `ccp = 1` and `logCCP = some 1`. -/
def initCladeOf (names : List String) : Vertex → CladeD
  | .mk _ _ h _ [] => ⟨1, 0 + effHeight h, []⟩
  | .mk _ _ h _ (c₁ :: c₂ :: _) =>
    ⟨1, 0 + effHeight h, [⟨vkey names c₁, vkey names c₂, 1, effHeight h, 1, some 1⟩]⟩
  | .mk _ _ h _ [_] => ⟨1, 0 + effHeight h, []⟩

/-- The clade mapping produced by cladifying a binary tree into the
fresh `CCDState.empty` mapping (whose single entry is the all-taxa root
clade): the root entry is bumped in place at the head, the remaining
subtree entries follow in post-order. -/
def rootEntries (names : List String) : Vertex → List (Finset ℕ × CladeD)
  | .mk lbl i h bl [] => [(vkey names (.mk lbl i h bl []), ⟨1, 0 + effHeight h, []⟩)]
  | .mk lbl i h bl (c₁ :: c₂ :: rest) =>
    (vkey names (.mk lbl i h bl (c₁ :: c₂ :: rest)),
      ⟨1, 0 + effHeight h,
        [⟨vkey names c₁, vkey names c₂, 1, effHeight h, -1, none⟩]⟩)
      :: (treeEntries names c₁ ++ treeEntries names c₂)
  | .mk _ _ _ _ [_] => []

/-- The `calculateNodeLogProb` result of a vertex of the single tree:
`null` for a leaf, the vertex's clade for an internal vertex. -/
def nodeResOf (names : List String) : Vertex → NodeRes
  | .mk _ _ _ _ [] => .nullRes
  | u => .cladeRes (vkey names u)

/-- The same mapping after `initialize()`. -/
def rootEntriesInit (names : List String) : Vertex → List (Finset ℕ × CladeD)
  | .mk lbl i h bl [] => [(vkey names (.mk lbl i h bl []), ⟨1, 0 + effHeight h, []⟩)]
  | .mk lbl i h bl (c₁ :: c₂ :: rest) =>
    (vkey names (.mk lbl i h bl (c₁ :: c₂ :: rest)),
      ⟨1, 0 + effHeight h,
        [⟨vkey names c₁, vkey names c₂, 1, effHeight h, 1, some 1⟩]⟩)
      :: (treeEntriesInit names c₁ ++ treeEntriesInit names c₂)
  | .mk _ _ _ _ [_] => []

/-! ## Concrete example inputs

Small trees over the taxa `a`, `b`, `c` used by witnesses and
counterexamples. -/

def leafA : Vertex := .mk (some "a") 1 none none []

def leafB : Vertex := .mk (some "b") 2 none none []

def leafC : Vertex := .mk (some "c") 3 none none []

def cherryAB : Vertex := .mk none 4 none none [leafA, leafB]

/-- The binary tree `((a,b),c)`. -/
def treeABC : JSTree := ⟨.mk none 5 none none [cherryAB, leafC]⟩

/-- A trifurcating root `(a,b,c)` — not a binary tree. -/
def treeTrifurcation : JSTree := ⟨.mk none 6 none none [leafA, leafB, leafC]⟩

/-- The root `(a,b)` of the trifurcation with its third child removed. -/
def treeBifurcationAB : JSTree := ⟨.mk none 6 none none [leafA, leafB]⟩

/-- A tree that is a single leaf labelled `a`. -/
def treeLeafA : JSTree := ⟨leafA⟩

/-- The cherry `(a:0,b:0)` — both pendant branches have length 0. -/
def treeZeroBL : JSTree :=
  ⟨.mk none 3 none none
    [.mk (some "a") 1 none (some 0) [], .mk (some "b") 2 none (some 0) []]⟩

/-- The cherry `(a:2,b:2)`. -/
def treeTwoBL : JSTree :=
  ⟨.mk none 3 none none
    [.mk (some "a") 1 none (some 2) [], .mk (some "b") 2 none (some 2) []]⟩

/-- A tree that is a single leaf labelled `c`. -/
def treeLeafC : JSTree := ⟨leafC⟩

theorem decide_land_shift (x k : ℕ) :
    decide ((x &&& (1 <<< k)) ≠ 0) = x.testBit k := by
  rw [Nat.shiftLeft_eq, one_mul, Nat.and_two_pow]
  cases h : x.testBit k <;> simp [h]

theorem BitSet.get_eq_testBit (b : BitSet) (i : ℤ) (h0 : 0 ≤ i) (h1 : i < (b.size : ℤ)) :
    b.get i = .ok ((b.words.getD (i.toNat / 32) 0).testBit (i.toNat % 32)) := by
  unfold BitSet.get
  rw [if_neg (by omega)]
  exact congrArg Except.ok (decide_land_shift _ _)

/-- C10: for every well-formed BitSet and every integer index, each of
`set`, `clear` and `get` throws exactly when the index is negative or
at least the size; for an in-range index the call succeeds, `set`
makes bit `i` read back `true`, `clear` makes it read back `false`,
and every other index reads back exactly as before. -/
theorem bitset_bounds_and_update (b : BitSet)
    (hwf : b.words.length = (b.size + 31) / 32) (i : ℤ) :
    ((∃ b', b.set i = .ok b') ↔ 0 ≤ i ∧ i < (b.size : ℤ)) ∧
    ((∃ b', b.clear i = .ok b') ↔ 0 ≤ i ∧ i < (b.size : ℤ)) ∧
    ((∃ v, b.get i = .ok v) ↔ 0 ≤ i ∧ i < (b.size : ℤ)) ∧
    (∀ b', b.set i = .ok b' →
      b'.get i = .ok true ∧ ∀ j : ℤ, j ≠ i → b'.get j = b.get j) ∧
    (∀ b', b.clear i = .ok b' →
      b'.get i = .ok false ∧ ∀ j : ℤ, j ≠ i → b'.get j = b.get j) := by
  by_cases hin : 0 ≤ i ∧ i < (b.size : ℤ)
  case neg =>
    have hcond : i < 0 ∨ (b.size : ℤ) ≤ i := by omega
    refine ⟨?_, ?_, ?_, ?_, ?_⟩ <;>
      simp [BitSet.set, BitSet.clear, BitSet.get, if_pos hcond, hin]
  case pos =>
    have hcond : ¬(i < 0 ∨ (b.size : ℤ) ≤ i) := by omega
    have hwlt : i.toNat / 32 < b.words.length := by rw [hwf]; omega
    refine ⟨?_, ?_, ?_, ?_, ?_⟩
    · simp [BitSet.set, if_neg hcond, hin]
    · simp [BitSet.clear, if_neg hcond, hin]
    · simp only [BitSet.get, if_neg hcond]
      exact ⟨fun _ => hin, fun _ => ⟨_, rfl⟩⟩
    · intro b' hset
      rw [BitSet.set, if_neg hcond] at hset
      injection hset with hset
      subst hset
      constructor
      · rw [BitSet.get_eq_testBit _ _ hin.1 (by exact_mod_cast hin.2)]
        simp only [List.getD_eq_getElem?_getD, List.getElem?_set_self hwlt, Option.getD_some]
        rw [Nat.shiftLeft_eq, one_mul, Nat.testBit_lor, Nat.testBit_two_pow_self]
        simp
      · intro j hj
        by_cases hjin : 0 ≤ j ∧ j < (b.size : ℤ)
        · rw [BitSet.get_eq_testBit _ _ hjin.1 (by exact_mod_cast hjin.2),
            BitSet.get_eq_testBit _ _ hjin.1 (by exact_mod_cast hjin.2)]
          by_cases hw : j.toNat / 32 = i.toNat / 32
          · have hb : j.toNat % 32 ≠ i.toNat % 32 := by omega
            simp only [hw, List.getD_eq_getElem?_getD, List.getElem?_set_self hwlt,
              Option.getD_some]
            rw [Nat.shiftLeft_eq, one_mul, Nat.testBit_lor,
              Nat.testBit_two_pow_of_ne (by omega)]
            simp
          · simp only [List.getD_eq_getElem?_getD, List.getElem?_set_ne (Ne.symm hw)]
        · have : j < 0 ∨ (b.size : ℤ) ≤ j := by omega
          simp [BitSet.get, if_pos this]
    · intro b' hclr
      rw [BitSet.clear, if_neg hcond] at hclr
      injection hclr with hclr
      subst hclr
      constructor
      · rw [BitSet.get_eq_testBit _ _ hin.1 (by exact_mod_cast hin.2)]
        simp only [List.getD_eq_getElem?_getD, List.getElem?_set_self hwlt, Option.getD_some]
        rw [Nat.shiftLeft_eq, one_mul, Nat.testBit_land, Nat.testBit_xor,
          Nat.testBit_two_pow_sub_one, Nat.testBit_two_pow_self]
        have : i.toNat % 32 < 32 := by omega
        simp [this]
      · intro j hj
        by_cases hjin : 0 ≤ j ∧ j < (b.size : ℤ)
        · rw [BitSet.get_eq_testBit _ _ hjin.1 (by exact_mod_cast hjin.2),
            BitSet.get_eq_testBit _ _ hjin.1 (by exact_mod_cast hjin.2)]
          by_cases hw : j.toNat / 32 = i.toNat / 32
          · have hb : j.toNat % 32 ≠ i.toNat % 32 := by omega
            simp only [hw, List.getD_eq_getElem?_getD, List.getElem?_set_self hwlt,
              Option.getD_some]
            rw [Nat.shiftLeft_eq, one_mul, Nat.testBit_land, Nat.testBit_xor,
              Nat.testBit_two_pow_sub_one, Nat.testBit_two_pow_of_ne (by omega)]
            have : j.toNat % 32 < 32 := by omega
            simp [this]
          · simp only [List.getD_eq_getElem?_getD, List.getElem?_set_ne (Ne.symm hw)]
        · have : j < 0 ∨ (b.size : ℤ) ≤ j := by omega
          simp [BitSet.get, if_pos this]

/-- C10 witness: the theorem applied to a fresh five-bit set at
index 3. -/
theorem bitset_bounds_witness :
    ∃ b', (BitSet.new 5).set 3 = .ok b' :=
  ((bitset_bounds_and_update (BitSet.new 5) (by decide) 3).1).mpr (by decide)

theorem getD_range_map {α : Type} (f : ℕ → α) (n i : ℕ) (d : α) (h : i < n) :
    (((List.range n).map f).getD i d) = f i := by
  rw [List.getD_eq_getElem?_getD, List.getElem?_map, List.getElem?_range h]
  rfl

/-- C5: `classicalMDS` sorts the eigenpairs of the double-centred
squared-distance matrix by eigenvalue descending and uses the top two:
when both top eigenvalues are positive, coordinate `i` is
`(v¹ᵢ·sqrt λ₁, v²ᵢ·sqrt λ₂)`; when the second is not positive, every
second output dimension is 0; when the first is not positive, every
coordinate is `(0, 0)` (descending order makes the second one
non-positive too). -/
theorem classicalMDS_top_two (sqrt : ℚ → ℚ) (eig : List (List ℚ) → List (ℚ × List ℚ))
    (D : List (List ℚ)) (n : ℕ)
    (hn : D.length = n) (hn1 : 1 ≤ n)
    (hrows : ∀ row ∈ D, row.length = n)
    (hsym : ∀ i < n, ∀ j < n, (D.getD i []).getD j 0 = (D.getD j []).getD i 0)
    (hlen : (eig (centeredMatrix D)).length = n) :
    List.Sorted eigGe (sortEigenPairs (eig (centeredMatrix D))) ∧
    (∀ p₁ p₂, (sortEigenPairs (eig (centeredMatrix D)))[0]? = some p₁ →
      (sortEigenPairs (eig (centeredMatrix D)))[1]? = some p₂ →
      0 < p₁.1 → 0 < p₂.1 →
      ∀ i < n, (classicalMDS sqrt eig D).getD i [] =
        [p₁.2.getD i 0 * sqrt p₁.1, p₂.2.getD i 0 * sqrt p₂.1]) ∧
    (∀ p₂, (sortEigenPairs (eig (centeredMatrix D)))[1]? = some p₂ → p₂.1 ≤ 0 →
      ∀ i < n, ((classicalMDS sqrt eig D).getD i []).getD 1 0 = 0) ∧
    (∀ p₁, (sortEigenPairs (eig (centeredMatrix D)))[0]? = some p₁ → p₁.1 ≤ 0 →
      ∀ i < n, (classicalMDS sqrt eig D).getD i [] = [0, 0]) := by
  refine ⟨List.sorted_insertionSort eigGe _, ?_, ?_, ?_⟩
  · intro p₁ p₂ h₁ h₂ hp₁ hp₂ i hi
    unfold classicalMDS
    rw [hn, getD_range_map _ _ _ _ hi, h₁, h₂]
    simp [hp₁, hp₂]
  · intro p₂ h₂ hp₂ i hi
    unfold classicalMDS
    rw [hn, getD_range_map _ _ _ _ hi, h₂]
    simp [not_lt.mpr hp₂]
  · intro p₁ h₁ hp₁ i hi
    have hs := List.sorted_insertionSort eigGe (eig (centeredMatrix D))
    unfold classicalMDS
    rw [hn, getD_range_map _ _ _ _ hi, h₁]
    cases h₂ : (sortEigenPairs (eig (centeredMatrix D)))[1]? with
    | none => simp [not_lt.mpr hp₁]
    | some p₂ =>
      have hp₂ : p₂.1 ≤ 0 := by
        match hll : sortEigenPairs (eig (centeredMatrix D)), h₁, h₂ with
        | q₁ :: q₂ :: rest, h₁, h₂ =>
          simp only [List.getElem?_cons_zero, Option.some.injEq] at h₁
          have h₂' : q₂ = p₂ := by simpa using h₂
          have hs' : List.Sorted eigGe (sortEigenPairs (eig (centeredMatrix D))) := hs
          rw [hll] at hs'
          have hq : eigGe q₁ q₂ := (List.sorted_cons.mp hs').1 q₂ (by simp)
          subst h₁ h₂'
          exact le_trans hq hp₁
      simp [not_lt.mpr hp₁, not_lt.mpr hp₂]

/-- C5 witness: the theorem applied to a concrete symmetric 2×2 matrix
and a concrete eigendecomposition. -/
theorem classicalMDS_witness :
    (classicalMDS id (fun _ => [(1, [1, 0]), (4, [0, 1])]) [[0, 1], [1, 0]]).getD 0 [] =
      [(0 : ℚ) * id (4 : ℚ), (1 : ℚ) * id (1 : ℚ)] :=
  (classicalMDS_top_two id (fun _ => [(1, [1, 0]), (4, [0, 1])]) [[0, 1], [1, 0]] 2
    (by decide) (by decide) (by decide) (by decide) (by decide)).2.1
    (4, [0, 1]) (1, [1, 0]) (by decide) (by decide) (by decide) (by decide) 0 (by decide)

/-- C7: the async progress variant returns, entry for entry, the same
matrix as the synchronous builder for every tree list, metric and
progress callback; the callback invocation and the yield points do not
change any numeric result. -/
theorem progress_matrix_eq (trees : List JSTree) (metric : String)
    (cb : ℕ → ℕ → ℕ → Unit) :
    calculateDistanceMatrixWithProgress trees metric cb =
      calculateDistanceMatrix trees metric := rfl

/-! ## Cache-flag lemmas (claims about addTree / initialize) -/

theorem exceptBind_ok {ε α β : Type} (a : α) (f : α → Except ε β) :
    (Except.ok a >>= f) = f a := rfl

theorem exceptBind_error {ε α β : Type} (e : ε) (f : α → Except ε β) :
    ((Except.error e : Except ε α) >>= f) = Except.error e := rfl

theorem exceptThrow_bind {ε α β : Type} (e : ε) (f : α → Except ε β) :
    ((throw e : Except ε α) >>= f) = Except.error e := rfl

theorem exceptPure_bind {ε α β : Type} (a : α) (f : α → Except ε β) :
    ((Except.pure a : Except ε α) >>= f) = f a := rfl

theorem purePUnit_bind {ε β : Type} (f : PUnit → Except ε β) :
    ((pure PUnit.unit : Except ε PUnit) >>= f) = f PUnit.unit := rfl

theorem addTree_flags (s : CCDState) (t : JSTree) (s' : CCDState)
    (h : addTree s t = .ok s') :
    s'.probabilitiesDirty = true ∧ s'.entropyDirty = true ∧
      s'.numberOfTopologiesDirty = true := by
  unfold addTree at h
  simp only [] at h
  cases hc : cladifyVertex { s with numBaseTrees := s.numBaseTrees + 1 } t.root with
  | error e =>
    rw [hc, exceptBind_error] at h
    exact absurd h (by simp)
  | ok p =>
    rw [hc, exceptBind_ok] at h
    injection h with h
    subst h
    exact ⟨rfl, rfl, rfl⟩

theorem foldlM_addTree_flags (trees : List JSTree) (s₀ s : CCDState)
    (hne : trees ≠ []) (h : trees.foldlM addTree s₀ = .ok s) :
    s.probabilitiesDirty = true ∧ s.entropyDirty = true ∧
      s.numberOfTopologiesDirty = true := by
  induction trees generalizing s₀ with
  | nil => exact absurd rfl hne
  | cons t rest ih =>
    rw [List.foldlM_cons] at h
    cases hc : addTree s₀ t with
    | error e =>
      rw [hc, exceptBind_error] at h
      exact absurd h (by simp)
    | ok s₁ =>
      rw [hc, exceptBind_ok] at h
      cases rest with
      | nil =>
        simp only [List.foldlM_nil] at h
        injection h with h
        subst h
        exact addTree_flags s₀ t s₁ hc
      | cons r rs => exact ih s₁ (by simp) h

/-- C4, counterexample: build a CCD from one tree (`(a,b)` over taxa
`a`, `b`) and initialise; the entropy dirty flag is `true`, not `false`
as the claim states (the same run also leaves the topology-count and
probabilities flags `true`). -/
theorem initialize_dirty_flags_counterexample :
    (List.foldlM addTree (CCDState.empty ["a", "b"]) [⟨cherryAB⟩]).map
      (fun s => s.initialize.entropyDirty) ≠ .ok false := by decide

/-- C4 (amended): after `initialize()` following one or more successful
`addTree` calls, the entropy and topology-count dirty flags are both
`true` (set by `initialize` itself) and the probabilities dirty flag is
also `true` (set by `addTree`; `initialize` leaves it unchanged). -/
theorem initialize_dirty_flags_after_addTree (s₀ : CCDState) (trees : List JSTree)
    (s : CCDState) (hne : trees ≠ []) (h : trees.foldlM addTree s₀ = .ok s) :
    s.initialize.entropyDirty = true ∧ s.initialize.numberOfTopologiesDirty = true ∧
      s.initialize.probabilitiesDirty = true := by
  obtain ⟨h1, _, _⟩ := foldlM_addTree_flags trees s₀ s hne h
  exact ⟨rfl, rfl, h1⟩

/-- C4 witness: the amended theorem applied to the concrete
one-tree run over taxa `a`, `b`. -/
theorem initialize_dirty_flags_witness :
    (List.foldlM addTree (CCDState.empty ["a", "b"]) [⟨cherryAB⟩]).map
      (fun s => ( s.initialize.entropyDirty, s.initialize.numberOfTopologiesDirty,
        s.initialize.probabilitiesDirty)) = .ok (true, true, true) := by
  cases hEq : List.foldlM addTree (CCDState.empty ["a", "b"]) [⟨cherryAB⟩] with
  | error e =>
    have hok : (List.foldlM addTree (CCDState.empty ["a", "b"]) [⟨cherryAB⟩]).isOk = true := by
      decide
    rw [hEq] at hok
    exact absurd hok (by simp [Except.isOk, Except.toBool])
  | ok s =>
    obtain ⟨h1, h2, h3⟩ := initialize_dirty_flags_after_addTree
      (CCDState.empty ["a", "b"]) [⟨cherryAB⟩] s (by simp) hEq
    simp [Except.map, h1, h2, h3]

/-- C2, counterexample: ingesting a tree whose root has three children
does not fail with any error (in particular not with a MalformedTree
error); the result is identical to ingesting the same tree with the
third child removed. -/
theorem cladify_trifurcation_counterexample :
    (addTree (CCDState.empty ["a", "b", "c"]) treeTrifurcation).isOk = true ∧
    addTree (CCDState.empty ["a", "b", "c"]) treeTrifurcation =
      addTree (CCDState.empty ["a", "b", "c"]) treeBifurcationAB := by
  constructor
  · decide
  · rfl

/-- C2 (amended): `cladifyVertex` performs no arity check and no
MalformedTree error exists: a vertex with more than two children is
cladified exactly as if only its first two children were present, and a
vertex with exactly one child fails with a TypeError (from
dereferencing `undefined`), after its first child has been processed. -/
theorem cladifyVertex_nonbinary_behaviour :
    (∀ (s : CCDState) (l : Option String) (i : ℕ) (h bl : Option ℚ)
      (c₁ c₂ : Vertex) (rest : List Vertex),
      cladifyVertex s (.mk l i h bl (c₁ :: c₂ :: rest)) =
        cladifyVertex s (.mk l i h bl [c₁, c₂])) ∧
    (∀ (s : CCDState) (l : Option String) (i : ℕ) (h bl : Option ℚ) (c : Vertex)
      (s' : CCDState) (b : Finset ℕ),
      cladifyVertex s c = .ok (s', b) →
      cladifyVertex s (.mk l i h bl [c]) = .error .typeErr) := by
  constructor
  · intro s l i h bl c₁ c₂ rest
    cases rest with
    | nil => rfl
    | cons r rs => rfl
  · intro s l i h bl c s' b hc
    show (do
      let _ ← cladifyVertex s c
      (.error .typeErr : Except CCDErr (CCDState × Finset ℕ))) = .error .typeErr
    rw [hc]
    rfl

/-- C2 witness: the amended theorem applied to the concrete
trifurcation over `a`, `b`, `c` and to a single-child vertex. -/
theorem cladifyVertex_nonbinary_witness :
    cladifyVertex (CCDState.empty ["a", "b", "c"]) (.mk none 6 none none [leafA, leafB, leafC]) =
      cladifyVertex (CCDState.empty ["a", "b", "c"]) (.mk none 6 none none [leafA, leafB]) ∧
    cladifyVertex (CCDState.empty ["a"]) (.mk none 9 none none [leafA]) = .error .typeErr := by
  refine ⟨cladifyVertex_nonbinary_behaviour.1 _ _ _ _ _ _ _ _, ?_⟩
  cases hEq : cladifyVertex (CCDState.empty ["a"]) leafA with
  | error e =>
    have hok : (cladifyVertex (CCDState.empty ["a"]) leafA).isOk = true := by decide
    rw [hEq] at hok
    exact absurd hok (by simp [Except.isOk, Except.toBool])
  | ok p =>
    exact cladifyVertex_nonbinary_behaviour.2 (CCDState.empty ["a"]) none 9 none none
      leafA p.1 p.2 (by rw [hEq])

/-! ## State-preservation lemmas for the CCD pipeline -/

theorem cladifyVertex_preserves (s : CCDState) (v : Vertex) :
    ∀ s' b, cladifyVertex s v = .ok (s', b) →
      s'.taxonNames = s.taxonNames ∧ s'.leafArraySize = s.leafArraySize ∧
        s'.numBaseTrees = s.numBaseTrees ∧
        s'.probabilitiesDirty = s.probabilitiesDirty ∧
        s'.entropyDirty = s.entropyDirty ∧
        s'.numberOfTopologiesDirty = s.numberOfTopologiesDirty := by
  induction s, v using cladifyVertex.induct with
  | case1 s lbl vid hgt bl label hnone =>
    intro s' b h
    unfold cladifyVertex at h
    simp only [] at h
    rw [hnone] at h
    exact absurd h (by simp)
  | case2 s lbl vid hgt bl label index hidx =>
    intro s' b h
    unfold cladifyVertex at h
    simp only [] at h
    rw [hidx] at h
    injection h with h
    injection h with h₁ h₂
    subst h₁
    exact ⟨rfl, rfl, rfl, rfl, rfl, rfl⟩
  | case3 s a a₁ a₂ a₃ c ih =>
    intro s' b h
    unfold cladifyVertex at h
    simp only [] at h
    cases hc : cladifyVertex s c with
    | error e => rw [hc, exceptBind_error] at h; exact absurd h (by simp)
    | ok p => rw [hc, exceptBind_ok] at h; exact absurd h (by simp)
  | case4 s a a₁ hgt a₂ c₁ c₂ tail ih₁ ih₂ =>
    intro s' b h
    unfold cladifyVertex at h
    simp only [] at h
    cases hc₁ : cladifyVertex s c₁ with
    | error e => rw [hc₁, exceptBind_error] at h; exact absurd h (by simp)
    | ok p₁ =>
      rw [hc₁, exceptBind_ok] at h
      cases hc₂ : cladifyVertex p₁.1 c₂ with
      | error e => rw [hc₂, exceptBind_error] at h; exact absurd h (by simp)
      | ok p₂ =>
        rw [hc₂, exceptBind_ok] at h
        injection h with h
        injection h with h₁ h₂
        obtain ⟨ha, hb, hc, hd, he, hf⟩ := ih₁ p₁.1 p₁.2 (by rw [hc₁])
        obtain ⟨ha', hb', hc', hd', he', hf'⟩ := ih₂ p₁.1 p₂.1 p₂.2 (by rw [hc₂])
        subst h₁
        refine ⟨?_, ?_, ?_, ?_, ?_, ?_⟩ <;> simp_all

theorem addTree_preserves (s : CCDState) (t : JSTree) (s' : CCDState)
    (h : addTree s t = .ok s') :
    s'.taxonNames = s.taxonNames ∧ s'.leafArraySize = s.leafArraySize ∧
      s'.numBaseTrees = s.numBaseTrees + 1 := by
  unfold addTree at h
  simp only [] at h
  cases hc : cladifyVertex { s with numBaseTrees := s.numBaseTrees + 1 } t.root with
  | error e => rw [hc, exceptBind_error] at h; exact absurd h (by simp)
  | ok p =>
    rw [hc, exceptBind_ok] at h
    injection h with h
    subst h
    obtain ⟨ha, hb, hc', _⟩ := cladifyVertex_preserves _ _ p.1 p.2 (by rw [hc])
    exact ⟨ha, hb, hc'⟩

theorem foldlM_addTree_preserves (trees : List JSTree) :
    ∀ s₀ s, trees.foldlM addTree s₀ = .ok s →
      s.taxonNames = s₀.taxonNames ∧ s.leafArraySize = s₀.leafArraySize ∧
        s.numBaseTrees = s₀.numBaseTrees + trees.length := by
  induction trees with
  | nil =>
    intro s₀ s h
    simp only [List.foldlM_nil] at h
    injection h with h
    subst h
    exact ⟨rfl, rfl, by simp⟩
  | cons t rest ih =>
    intro s₀ s h
    rw [List.foldlM_cons] at h
    cases hc : addTree s₀ t with
    | error e => rw [hc, exceptBind_error] at h; exact absurd h (by simp)
    | ok s₁ =>
      rw [hc, exceptBind_ok] at h
      obtain ⟨ha, hb, hc'⟩ := addTree_preserves s₀ t s₁ hc
      obtain ⟨ha', hb', hc''⟩ := ih s₁ s h
      refine ⟨by rw [ha', ha], by rw [hb', hb], ?_⟩
      rw [hc'', hc']
      simp [List.length_cons]
      omega

/-! ## Taxon-set lemmas (the JavaScript `Set` fold and the sort) -/

theorem foldl_setAdd_mem (xs : List String) :
    ∀ acc y, y ∈ xs.foldl setAdd acc ↔ y ∈ acc ∨ y ∈ xs := by
  induction xs with
  | nil => intro acc y; simp
  | cons x rest ih =>
    intro acc y
    rw [List.foldl_cons, ih]
    unfold setAdd
    by_cases hx : x ∈ acc
    · rw [if_pos hx]
      constructor
      · rintro (h | h)
        · exact Or.inl h
        · exact Or.inr (List.mem_cons_of_mem x h)
      · rintro (h | h)
        · exact Or.inl h
        · rcases List.mem_cons.mp h with h | h
          · exact Or.inl (h ▸ hx)
          · exact Or.inr h
    · rw [if_neg hx]
      simp only [List.mem_append, List.mem_singleton, List.mem_cons]
      tauto

theorem foldl_setAdd_nodup (xs : List String) :
    ∀ acc, acc.Nodup → (xs.foldl setAdd acc).Nodup := by
  induction xs with
  | nil => intro acc h; simpa using h
  | cons x rest ih =>
    intro acc h
    rw [List.foldl_cons]
    apply ih
    unfold setAdd
    by_cases hx : x ∈ acc
    · rwa [if_pos hx]
    · rw [if_neg hx]
      refine List.Nodup.append h (List.nodup_singleton x) ?_
      intro a ha hax
      rw [List.mem_singleton] at hax
      exact hx (hax ▸ ha)

theorem allTaxaOf_mem (trees : List JSTree) (y : String) :
    y ∈ allTaxaOf trees ↔ ∃ t ∈ trees, y ∈ t.leafLabels := by
  unfold allTaxaOf
  suffices h : ∀ acc, y ∈ trees.foldl (fun acc t => t.leafLabels.foldl setAdd acc) acc ↔
      y ∈ acc ∨ ∃ t ∈ trees, y ∈ t.leafLabels by
    simpa using h []
  induction trees with
  | nil => intro acc; simp
  | cons t rest ih =>
    intro acc
    rw [List.foldl_cons, ih, foldl_setAdd_mem]
    simp only [List.mem_cons]
    constructor
    · rintro ((h | h) | ⟨u, hu, hy⟩)
      · exact Or.inl h
      · exact Or.inr ⟨t, Or.inl rfl, h⟩
      · exact Or.inr ⟨u, Or.inr hu, hy⟩
    · rintro (h | ⟨u, (rfl | hu), hy⟩)
      · exact Or.inl (Or.inl h)
      · exact Or.inl (Or.inr hy)
      · exact Or.inr ⟨u, hu, hy⟩

theorem allTaxaOf_nodup (trees : List JSTree) : (allTaxaOf trees).Nodup := by
  unfold allTaxaOf
  suffices h : ∀ acc : List String, acc.Nodup →
      (trees.foldl (fun acc t => t.leafLabels.foldl setAdd acc) acc).Nodup from
    h [] List.nodup_nil
  induction trees with
  | nil => intro acc h; simpa using h
  | cons t rest ih =>
    intro acc h
    rw [List.foldl_cons]
    exact ih _ (foldl_setAdd_nodup _ _ h)

theorem sortStrings_mem (l : List String) (y : String) :
    y ∈ sortStrings l ↔ y ∈ l :=
  (List.perm_insertionSort strLe l).mem_iff

theorem sortStrings_nodup (l : List String) (h : l.Nodup) : (sortStrings l).Nodup :=
  ((List.perm_insertionSort strLe l).nodup_iff).mpr h

theorem sortStrings_sorted (l : List String) : List.Sorted strLe (sortStrings l) :=
  List.sorted_insertionSort strLe l

/-- Unfolding `fromTrees` once the burnin count is known (the rational
floor does not evaluate by kernel reduction alone). -/
theorem fromTrees_eval (trees : List JSTree) (burnin : ℚ) (k : ℕ)
    (hk : burninCountOf trees.length burnin = k) (hne : trees.isEmpty = false) :
    fromTrees trees burnin =
      (trees.drop k).foldlM addTree (CCDState.empty (sortStrings (allTaxaOf trees))) >>=
        (fun s => .ok s.initialize) := by
  unfold fromTrees
  rw [if_neg (by rw [hne]; simp)]
  simp only []
  rw [hk]
  rfl

/-- Unfolding `fromTrees` on a successful run: the state is the
initialisation of the fold of `addTree` over the post-burnin trees,
starting from the empty CCD over the sorted taxa of ALL trees. -/
theorem fromTrees_ok_elim (trees : List JSTree) (burnin : ℚ) (s : CCDState)
    (h : fromTrees trees burnin = .ok s) :
    ∃ s₁, (trees.drop (burninCountOf trees.length burnin)).foldlM addTree
        (CCDState.empty (sortStrings (allTaxaOf trees))) = .ok s₁ ∧
      s = s₁.initialize := by
  unfold fromTrees at h
  by_cases hne : trees.isEmpty
  · rw [if_pos hne] at h
    rw [exceptThrow_bind] at h
    exact absurd h (by simp)
  · rw [if_neg hne] at h
    simp only [] at h
    cases hc : (trees.drop (burninCountOf trees.length burnin)).foldlM addTree
        (CCDState.empty (sortStrings (allTaxaOf trees))) with
    | error e => rw [hc, exceptBind_error] at h; exact absurd h (by simp)
    | ok s₁ =>
      rw [hc, exceptBind_ok] at h
      injection h with h
      exact ⟨s₁, rfl, h.symm⟩

/-- C1, counterexample: two single-leaf trees labelled `c` then `a`
with a burnin fraction of one half.  The first tree (the only one with
taxon `c`) is discarded as burnin, yet the taxon index of the built CCD
is `["a", "c"]` — not the `["a"]` the claim demands — and the
burnin-only taxon `c` receives bit position 1. -/
theorem fromTrees_burnin_taxa_counterexample :
    (fromTrees [treeLeafC, treeLeafA] (1 / 2)).map (fun s => s.taxonNames) = .ok ["a", "c"] ∧
    specTaxonNamesAfterBurnin [treeLeafC, treeLeafA] (1 / 2) = ["a"] ∧
    (fromTrees [treeLeafC, treeLeafA] (1 / 2)).map
      (fun s => s.taxonNames.indexOf? "c") = .ok (some 1) := by
  have hk : burninCountOf ([treeLeafC, treeLeafA] : List JSTree).length (1 / 2) = 1 := by
    norm_num [burninCountOf]
  have he := fromTrees_eval [treeLeafC, treeLeafA] (1 / 2) 1 hk rfl
  refine ⟨?_, ?_, ?_⟩
  · rw [he]; decide
  · unfold specTaxonNamesAfterBurnin
    simp only []
    rw [hk]
    decide
  · rw [he]; decide

/-- C1 (amended): `CCD1.fromTrees` builds the taxon index from the leaf
labels of ALL input trees — including the ones the burnin then
discards — sorted ascending and without duplicates; the burnin slice
only restricts which trees are ingested (the base-tree count is the
number of retained trees).  A taxon occurring solely in burnin trees
therefore still receives a bit position. -/
theorem fromTrees_taxon_index_all_trees (trees : List JSTree) (burnin : ℚ) (s : CCDState)
    (h : fromTrees trees burnin = .ok s) :
    List.Sorted strLe s.taxonNames ∧ s.taxonNames.Nodup ∧
    (∀ l, l ∈ s.taxonNames ↔ ∃ t ∈ trees, l ∈ t.leafLabels) ∧
    s.numBaseTrees = (trees.drop (burninCountOf trees.length burnin)).length := by
  obtain ⟨s₁, hfold, hs⟩ := fromTrees_ok_elim trees burnin s h
  obtain ⟨hnames, _, hcount⟩ := foldlM_addTree_preserves _ _ _ hfold
  have hnames' : s.taxonNames = sortStrings (allTaxaOf trees) := by
    rw [hs]
    show s₁.taxonNames = _
    rw [hnames]
    rfl
  have hcount' : s.numBaseTrees = s₁.numBaseTrees := by rw [hs]; rfl
  refine ⟨?_, ?_, ?_, ?_⟩
  · rw [hnames']; exact sortStrings_sorted _
  · rw [hnames']; exact sortStrings_nodup _ (allTaxaOf_nodup trees)
  · intro l
    rw [hnames', sortStrings_mem, allTaxaOf_mem]
  · rw [hcount', hcount]
    simp [CCDState.empty]

/-- C1 witness: the amended theorem applied to the concrete two-tree
run with burnin one half; the taxon list is sorted even though taxon
`c` only occurs in the discarded tree. -/
theorem fromTrees_taxon_index_witness :
    (fromTrees [treeLeafC, treeLeafA] (1 / 2)).map
      (fun s => decide (List.Sorted strLe s.taxonNames)) = .ok true := by
  cases hEq : fromTrees [treeLeafC, treeLeafA] (1 / 2) with
  | error e =>
    have hok : (fromTrees [treeLeafC, treeLeafA] (1 / 2)).isOk = true := by
      rw [fromTrees_eval [treeLeafC, treeLeafA] (1 / 2) 1 (by norm_num [burninCountOf]) rfl]
      decide
    rw [hEq] at hok
    exact absurd hok (by simp [Except.isOk, Except.toBool])
  | ok s =>
    obtain ⟨h1, _, _, _⟩ := fromTrees_taxon_index_all_trees [treeLeafC, treeLeafA] (1 / 2) s hEq
    simp [Except.map, decide_eq_true h1]

/-! ## Positive partition occurrence counts (the reachable-state
invariant behind CCP normalisation) -/

/-- Every partition stored anywhere in the clade mapping has been
incremented at least once. -/
def PartitionsPos (cl : List (Finset ℕ × CladeD)) : Prop :=
  ∀ kc ∈ cl, ∀ p ∈ kc.2.partitions, 1 ≤ p.occ

theorem updateClade_forall (P : CladeD → Prop) (cl : List (Finset ℕ × CladeD))
    (k : Finset ℕ) (f : CladeD → CladeD) (hcl : ∀ kc ∈ cl, P kc.2)
    (hf : ∀ c, P c → P (f c)) : ∀ kc ∈ updateClade cl k f, P kc.2 := by
  induction cl with
  | nil => intro kc hkc; simp [updateClade] at hkc
  | cons e rest ih =>
    intro kc hkc
    unfold updateClade at hkc
    by_cases he : e.1 = k
    · rw [if_pos he] at hkc
      rcases List.mem_cons.mp hkc with h | h
      · subst h; exact hf e.2 (hcl e (List.mem_cons_self e rest))
      · exact hcl kc (List.mem_cons_of_mem e h)
    · rw [if_neg he] at hkc
      rcases List.mem_cons.mp hkc with h | h
      · subst h; exact hcl e (List.mem_cons_self e rest)
      · exact ih (fun kc' hkc' => hcl kc' (List.mem_cons_of_mem e hkc')) kc h

theorem visitClade_partitionsPos (cl : List (Finset ℕ × CladeD)) (bits : Finset ℕ)
    (h : ℚ) (hcl : PartitionsPos cl) : PartitionsPos (visitClade cl bits h) := by
  unfold visitClade PartitionsPos
  simp only []
  refine updateClade_forall (fun c => ∀ p ∈ c.partitions, 1 ≤ p.occ) _ _ _ ?_ ?_
  · intro kc hkc
    by_cases hs : (lookupClade cl bits).isSome
    · rw [if_pos hs] at hkc; exact hcl kc hkc
    · rw [if_neg hs] at hkc
      rcases List.mem_append.mp hkc with hm | hm
      · exact hcl kc hm
      · rw [List.mem_singleton] at hm
        subst hm
        intro p hp
        simp [CladeD.new] at hp
  · intro c hc
    exact hc

theorem bumpFirst_pos (b₁ b₂ : Finset ℕ) (h : ℚ) :
    ∀ ps : List PartitionD, (∀ p ∈ ps, 1 ≤ p.occ) →
      ∀ p ∈ bumpOrCreatePartition.bumpFirst ps b₁ b₂ h, 1 ≤ p.occ := by
  intro ps
  induction ps with
  | nil =>
    intro _ p hp
    simp [bumpOrCreatePartition.bumpFirst] at hp
  | cons q rest ih =>
    intro hps p hp
    unfold bumpOrCreatePartition.bumpFirst at hp
    by_cases hq : partitionMatches q b₁ b₂
    · rw [if_pos hq] at hp
      rcases List.mem_cons.mp hp with h' | h'
      · subst h'; simp
      · exact hps p (List.mem_cons_of_mem q h')
    · rw [if_neg hq] at hp
      rcases List.mem_cons.mp hp with h' | h'
      · rw [h']
        exact hps q (List.mem_cons_self q rest)
      · exact ih (fun p' hp' => hps p' (List.mem_cons_of_mem q hp')) p h'

theorem bumpOrCreatePartition_pos (ps : List PartitionD) (b₁ b₂ : Finset ℕ) (h : ℚ)
    (hps : ∀ p ∈ ps, 1 ≤ p.occ) :
    ∀ p ∈ bumpOrCreatePartition ps b₁ b₂ h, 1 ≤ p.occ := by
  unfold bumpOrCreatePartition
  by_cases hany : ps.any (fun p => partitionMatches p b₁ b₂)
  · rw [if_pos hany]
    exact bumpFirst_pos b₁ b₂ h ps hps
  · rw [if_neg hany]
    intro p hp
    rcases List.mem_append.mp hp with hm | hm
    · exact hps p hm
    · rw [List.mem_singleton] at hm
      subst hm
      simp

theorem visitPartition_partitionsPos (cl : List (Finset ℕ × CladeD))
    (bits b₁ b₂ : Finset ℕ) (h : ℚ) (hcl : PartitionsPos cl) :
    PartitionsPos (visitPartition cl bits b₁ b₂ h) := by
  unfold visitPartition PartitionsPos
  refine updateClade_forall (fun c => ∀ p ∈ c.partitions, 1 ≤ p.occ) _ _ _ ?_ ?_
  · exact hcl
  · intro c hc
    exact bumpOrCreatePartition_pos c.partitions b₁ b₂ h hc

theorem cladifyVertex_partitionsPos (s : CCDState) (v : Vertex) :
    ∀ s' b, cladifyVertex s v = .ok (s', b) → PartitionsPos s.clades →
      PartitionsPos s'.clades := by
  induction s, v using cladifyVertex.induct with
  | case1 s lbl vid hgt bl label hnone =>
    intro s' b h
    unfold cladifyVertex at h
    simp only [] at h
    rw [hnone] at h
    exact absurd h (by simp)
  | case2 s lbl vid hgt bl label index hidx =>
    intro s' b h hpos
    unfold cladifyVertex at h
    simp only [] at h
    rw [hidx] at h
    injection h with h
    injection h with h₁ h₂
    subst h₁
    exact visitClade_partitionsPos _ _ _ hpos
  | case3 s a a₁ a₂ a₃ c ih =>
    intro s' b h
    unfold cladifyVertex at h
    simp only [] at h
    cases hc : cladifyVertex s c with
    | error e => rw [hc, exceptBind_error] at h; exact absurd h (by simp)
    | ok p => rw [hc, exceptBind_ok] at h; exact absurd h (by simp)
  | case4 s a a₁ hgt a₂ c₁ c₂ tail ih₁ ih₂ =>
    intro s' b h hpos
    unfold cladifyVertex at h
    simp only [] at h
    cases hc₁ : cladifyVertex s c₁ with
    | error e => rw [hc₁, exceptBind_error] at h; exact absurd h (by simp)
    | ok p₁ =>
      rw [hc₁, exceptBind_ok] at h
      cases hc₂ : cladifyVertex p₁.1 c₂ with
      | error e => rw [hc₂, exceptBind_error] at h; exact absurd h (by simp)
      | ok p₂ =>
        rw [hc₂, exceptBind_ok] at h
        injection h with h
        injection h with h₁ h₂
        have hpos₁ := ih₁ p₁.1 p₁.2 (by rw [hc₁]) hpos
        have hpos₂ := ih₂ p₁.1 p₂.1 p₂.2 (by rw [hc₂]) hpos₁
        subst h₁
        exact visitPartition_partitionsPos _ _ _ _ _
          (visitClade_partitionsPos _ _ _ hpos₂)

theorem addTree_partitionsPos (s : CCDState) (t : JSTree) (s' : CCDState)
    (h : addTree s t = .ok s') (hpos : PartitionsPos s.clades) :
    PartitionsPos s'.clades := by
  unfold addTree at h
  simp only [] at h
  cases hc : cladifyVertex { s with numBaseTrees := s.numBaseTrees + 1 } t.root with
  | error e => rw [hc, exceptBind_error] at h; exact absurd h (by simp)
  | ok p =>
    obtain ⟨s₂, b₂⟩ := p
    rw [hc, exceptBind_ok] at h
    injection h with h
    subst h
    exact cladifyVertex_partitionsPos _ _ s₂ b₂ hc hpos

theorem foldlM_addTree_partitionsPos (trees : List JSTree) :
    ∀ s₀ s, trees.foldlM addTree s₀ = .ok s → PartitionsPos s₀.clades →
      PartitionsPos s.clades := by
  induction trees with
  | nil =>
    intro s₀ s h hpos
    simp only [List.foldlM_nil] at h
    injection h with h
    subst h
    exact hpos
  | cons t rest ih =>
    intro s₀ s h hpos
    rw [List.foldlM_cons] at h
    cases hc : addTree s₀ t with
    | error e => rw [hc, exceptBind_error] at h; exact absurd h (by simp)
    | ok s₁ =>
      rw [hc, exceptBind_ok] at h
      exact ih s₁ s h (addTree_partitionsPos s₀ t s₁ hc hpos)

theorem sum_map_div_cast (l : List ℕ) (S : ℚ) :
    (l.map (fun n : ℕ => (n : ℚ) / S)).sum = ((l.sum : ℕ) : ℚ) / S := by
  induction l with
  | nil => simp
  | cons n rest ih => simp [ih, add_div]

/-- The per-clade effect of `initialize()` on a clade with at least one
partition whose occurrence counts are positive. -/
theorem initializeClade_spec (c : CladeD) (hcp : ¬c.partitions.isEmpty)
    (hS0 : 0 < (c.partitions.map (·.occ)).sum) :
    (∀ p ∈ (initializeClade c).partitions,
      p.ccp = (p.occ : ℚ) /
        ((((initializeClade c).partitions.map (·.occ)).sum : ℕ) : ℚ) ∧
      p.logCCP = if 0 < p.ccp then some p.ccp else none) ∧
    ((initializeClade c).partitions.map (·.ccp)).sum = 1 := by
  have hic : initializeClade c = { c with partitions := c.partitions.map (fun p =>
      setCCP p ((p.occ : ℚ) / (((c.partitions.map (·.occ)).sum : ℕ) : ℚ))) } := by
    unfold initializeClade
    rw [if_neg hcp]
    simp only [if_pos hS0]
  rw [hic]
  simp only []
  have hocc : ((c.partitions.map (fun p =>
      setCCP p ((p.occ : ℚ) / (((c.partitions.map (·.occ)).sum : ℕ) : ℚ)))).map (·.occ)) =
      c.partitions.map (·.occ) := by
    rw [List.map_map]
    rfl
  constructor
  · intro p hp
    rw [List.mem_map] at hp
    obtain ⟨q, hq, hp⟩ := hp
    rw [← hp, hocc]
    exact ⟨rfl, rfl⟩
  · rw [List.map_map]
    have hcomp : ((fun p : PartitionD => p.ccp) ∘ fun p =>
        setCCP p ((p.occ : ℚ) / (((c.partitions.map (·.occ)).sum : ℕ) : ℚ))) =
        fun p : PartitionD => (p.occ : ℚ) / (((c.partitions.map (·.occ)).sum : ℕ) : ℚ) := rfl
    rw [hcomp]
    have hmm : (c.partitions.map fun p : PartitionD =>
        (p.occ : ℚ) / (((c.partitions.map (·.occ)).sum : ℕ) : ℚ)) =
        ((c.partitions.map (·.occ)).map fun n : ℕ =>
          (n : ℚ) / (((c.partitions.map (·.occ)).sum : ℕ) : ℚ)) := by
      rw [List.map_map]
      rfl
    rw [hmm, sum_map_div_cast]
    apply div_self
    exact_mod_cast Nat.pos_iff_ne_zero.mp hS0

/-- C3: after `initialize()` on a CCD into which at least one tree has
been ingested, for every clade with at least one partition: each
partition's `ccp` equals its occurrence count divided by the sum of
occurrence counts over the clade's partitions, its `logCCP` is the
logarithm of the `ccp` when that is positive and `-Infinity` otherwise
(log values carried as exponentials), and the `ccp`s of the clade's
partitions sum to exactly 1. -/
theorem initialize_ccp_normalisation (s₀ : CCDState) (trees : List JSTree) (s : CCDState)
    (hpos : PartitionsPos s₀.clades) (hne : trees ≠ [])
    (h : trees.foldlM addTree s₀ = .ok s) :
    ∀ kc ∈ s.initialize.clades, kc.2.partitions ≠ [] →
      (∀ p ∈ kc.2.partitions,
        p.ccp = (p.occ : ℚ) / (((kc.2.partitions.map (·.occ)).sum : ℕ) : ℚ) ∧
        p.logCCP = if 0 < p.ccp then some p.ccp else none) ∧
      (kc.2.partitions.map (·.ccp)).sum = 1 := by
  have hpos' := foldlM_addTree_partitionsPos trees s₀ s h hpos
  intro kc hkc hne'
  unfold CCDState.initialize at hkc
  simp only [List.mem_map] at hkc
  obtain ⟨⟨k, c⟩, hmem, hkc⟩ := hkc
  rw [← hkc] at hne' ⊢
  simp only [] at hne' ⊢
  have hcpart : c.partitions ≠ [] := by
    intro hc
    apply hne'
    simp [initializeClade, hc]
  have hS0 : 0 < (c.partitions.map (·.occ)).sum := by
    obtain ⟨p, hp⟩ := List.exists_mem_of_ne_nil c.partitions hcpart
    calc 0 < 1 := Nat.zero_lt_one
    _ ≤ p.occ := hpos' (k, c) hmem p hp
    _ ≤ (c.partitions.map (·.occ)).sum := List.le_sum_of_mem (List.mem_map_of_mem (·.occ) hp)
  exact initializeClade_spec c (by simpa [List.isEmpty_iff] using hcpart) hS0

/-- C3 witness: the theorem applied to the concrete one-tree run over
taxa `a`, `b`; every clade's CCPs sum to 1 (extracted through the
theorem rather than by rational kernel evaluation). -/
theorem initialize_ccp_normalisation_witness :
    (List.foldlM addTree (CCDState.empty ["a", "b"]) [⟨cherryAB⟩]).map
      (fun s => ( s.initialize.clades.all (fun kc =>
        kc.2.partitions.isEmpty || decide ((kc.2.partitions.map (·.ccp)).sum = 1)))) =
      .ok true := by
  cases hEq : List.foldlM addTree (CCDState.empty ["a", "b"]) [⟨cherryAB⟩] with
  | error e =>
    have hok : (List.foldlM addTree (CCDState.empty ["a", "b"]) [⟨cherryAB⟩]).isOk = true := by
      decide
    rw [hEq] at hok
    exact absurd hok (by simp [Except.isOk, Except.toBool])
  | ok s =>
    have hmain := initialize_ccp_normalisation (CCDState.empty ["a", "b"]) [⟨cherryAB⟩] s
      (by
        intro kc hkc p hp
        simp only [CCDState.empty] at hkc
        rw [List.mem_singleton] at hkc
        rw [hkc] at hp
        simp [CladeD.new] at hp)
      (by simp) hEq
    simp only [Except.map]
    congr 1
    rw [List.all_eq_true]
    intro kc hkc
    by_cases hp : kc.2.partitions.isEmpty
    · simp [hp]
    · have h1 := (hmain kc hkc (by simpa [List.isEmpty_iff] using hp)).2
      simp [hp, h1]

/-! ## InsufficientTrees error analysis (dissonance, claim C9) -/

theorem liftCCD_ne_insufficient {α : Type} (x : Except CCDErr α) :
    liftCCD x ≠ .error .insufficientTrees := by
  cases x <;> simp [liftCCD]

theorem bind_ne_insufficient {α β : Type} (x : Except DissErr α)
    (f : α → Except DissErr β) (hx : x ≠ .error .insufficientTrees)
    (hf : ∀ a, f a ≠ .error .insufficientTrees) :
    (x >>= f) ≠ .error .insufficientTrees := by
  cases x with
  | error e =>
    rw [exceptBind_error]
    intro hc
    injection hc with hc
    exact hx (by rw [hc])
  | ok a => rw [exceptBind_ok]; exact hf a

theorem foldlM_ne_insufficient {σ α : Type} (l : List α) :
    ∀ (st : σ) (f : σ → α → Except DissErr σ),
      (∀ s a, f s a ≠ .error .insufficientTrees) →
      l.foldlM f st ≠ .error .insufficientTrees := by
  induction l with
  | nil =>
    intro st f hf
    simp [List.foldlM_nil, pure, Except.pure]
  | cons a rest ih =>
    intro st f hf
    rw [List.foldlM_cons]
    exact bind_ne_insufficient _ _ (hf st a) (fun s => ih s f hf)

theorem dissChainStep_ne_insufficient (H : CCDState → ℚ) (treeSets : List (List JSTree))
    (i : ℕ) (st : Array CCDState × CCDState × Array (List ℚ) × ℚ) (j : ℕ) :
    dissChainStep H treeSets i st j ≠ .error .insufficientTrees := by
  obtain ⟨ccds, combinedCCD, entropies, weightedEntropySum⟩ := st
  unfold dissChainStep
  simp only []
  apply bind_ne_insufficient _ _ (liftCCD_ne_insufficient _)
  intro s
  apply bind_ne_insufficient _ _ (liftCCD_ne_insufficient _)
  intro c
  simp

theorem dissTreeStep_ne_insufficient (H : CCDState → ℚ) (treeSets : List (List JSTree))
    (st : Array CCDState × CCDState × Array (List ℚ) × List ℚ) (i : ℕ) :
    dissTreeStep H treeSets st i ≠ .error .insufficientTrees := by
  obtain ⟨ccds, combinedCCD, entropies, dissonanceValues⟩ := st
  unfold dissTreeStep
  simp only []
  apply bind_ne_insufficient
  · exact foldlM_ne_insufficient _ _ _ (dissChainStep_ne_insufficient H treeSets i)
  · intro a
    obtain ⟨x, y, z, w⟩ := a
    simp

theorem calculateDissonance_ne_insufficient (H : CCDState → ℚ)
    (treeSets : List (List JSTree)) :
    calculateDissonance H treeSets ≠ .error .insufficientTrees := by
  unfold calculateDissonance
  by_cases h₁ : treeSets.isEmpty
  · rw [if_pos h₁, exceptThrow_bind]
    simp
  · rw [if_neg h₁]
    simp only []
    by_cases h₂ : minLength treeSets = 0
    · rw [if_pos h₂, exceptThrow_bind]
      simp
    · rw [if_neg h₂]
      rw [purePUnit_bind, purePUnit_bind]
      apply bind_ne_insufficient
      · exact foldlM_ne_insufficient _ _ _ (dissTreeStep_ne_insufficient H treeSets)
      · intro a
        obtain ⟨x, y, z, w⟩ := a
        simp

/-- C9: `calculateWithinChainDissonance(trees, k)` fails with the
InsufficientTrees error exactly when the number of trees is below
`2k`; with at least `2k` trees the splitting and the incremental
dissonance computation never raise that error (any residual failure is
a propagated CCD-layer exception, a different kind). -/
theorem withinChainDissonance_insufficient_iff (H : CCDState → ℚ)
    (trees : List JSTree) (numSplits : ℕ) (hk : 2 ≤ numSplits) :
    calculateWithinChainDissonance H trees numSplits = .error .insufficientTrees ↔
      trees.length < numSplits * 2 := by
  constructor
  · intro h
    by_contra hlen
    unfold calculateWithinChainDissonance at h
    rw [if_neg hlen] at h
    rw [purePUnit_bind] at h
    revert h
    apply bind_ne_insufficient
    · exact calculateDissonance_ne_insufficient H _
    · intro result
      by_cases hc : numSplits = 2 ∧ result.chainCCDs.size = 2 ∧ 10 < result.avgFinalEntropy
      · rw [if_pos hc]
        simp only []
        apply bind_ne_insufficient _ _ (liftCCD_ne_insufficient _)
        intro u
        simp
      · rw [if_neg hc]
        simp
  · intro hlen
    unfold calculateWithinChainDissonance
    rw [if_pos hlen]
    rfl

/-- C9 witness: the theorem applied with three splits (`k = 3`): five
trees are too few (`5 < 6`) and fail with InsufficientTrees, six trees
never produce that error. -/
theorem withinChainDissonance_insufficient_witness :
    calculateWithinChainDissonance (fun _ => 0) (List.replicate 5 treeLeafA) 3 =
      .error .insufficientTrees ∧
    calculateWithinChainDissonance (fun _ => 0) (List.replicate 6 treeLeafA) 3 ≠
      .error .insufficientTrees := by
  constructor
  · exact (withinChainDissonance_insufficient_iff (fun _ => 0)
      (List.replicate 5 treeLeafA) 3 (by decide)).mpr (by decide)
  · intro h
    have := (withinChainDissonance_insufficient_iff (fun _ => 0)
      (List.replicate 6 treeLeafA) 3 (by decide)).mp h
    simp at this

/-! ## Taxon index lookup lemmas -/

theorem indexOf?_some_getD (l : List String) (a : String) :
    ∀ i, l.indexOf? a = some i → i < l.length ∧ l.getD i "" = a := by
  induction l with
  | nil => intro i h; simp at h
  | cons x xs ih =>
    intro i h
    rw [List.indexOf?_cons] at h
    by_cases hx : x == a
    · rw [if_pos hx] at h
      injection h with h
      subst h
      refine ⟨by simp, ?_⟩
      simpa using beq_iff_eq.mp hx
    · rw [if_neg hx] at h
      cases hi : xs.indexOf? a with
      | none => rw [hi] at h; simp at h
      | some j =>
        rw [hi] at h
        have h' : Nat.succ j = i := by simpa using h
        subst h'
        obtain ⟨h₁, h₂⟩ := ih j hi
        refine ⟨by simp only [List.length_cons]; omega, ?_⟩
        show (x :: xs).getD (j + 1) "" = a
        rw [List.getD_cons_succ]
        exact h₂

theorem indexOf?_inj (l : List String) (a b : String) (i : ℕ)
    (ha : l.indexOf? a = some i) (hb : l.indexOf? b = some i) : a = b := by
  obtain ⟨_, h₂⟩ := indexOf?_some_getD l a i ha
  obtain ⟨_, h₄⟩ := indexOf?_some_getD l b i hb
  rw [← h₂, ← h₄]

theorem nodup_indexOf?_getD (l : List String) :
    l.Nodup → ∀ i, i < l.length → l.indexOf? (l.getD i "") = some i := by
  induction l with
  | nil => intro _ i hi; simp at hi
  | cons x xs ih =>
    intro hnd i hi
    rw [List.nodup_cons] at hnd
    cases i with
    | zero => simp [List.indexOf?_cons]
    | succ j =>
      have hj : j < xs.length := by simpa using hi
      have hmem : xs.getD j "" ∈ xs := by
        rw [List.getD_eq_getElem?_getD, List.getElem?_eq_getElem hj]
        exact List.getElem_mem hj
      have hne : ¬(x == xs.getD j "") := by
        rw [beq_iff_eq]
        intro hx
        exact hnd.1 (hx ▸ hmem)
      rw [show (x :: xs).getD (j + 1) "" = xs.getD j "" by simp,
        List.indexOf?_cons, if_neg hne, ih hnd.2 j hj]
      rfl

/-! ## Association list lemmas for the clade mapping -/

theorem lookupClade_append (cl₁ cl₂ : List (Finset ℕ × CladeD)) (k : Finset ℕ) :
    lookupClade (cl₁ ++ cl₂) k =
      match lookupClade cl₁ k with
      | some c => some c
      | none => lookupClade cl₂ k := by
  induction cl₁ with
  | nil => simp [lookupClade]
  | cons e rest ih =>
    by_cases he : e.1 = k
    · simp [lookupClade, he]
    · simp only [List.cons_append, lookupClade, if_neg he]
      exact ih

theorem lookupClade_eq_none (cl : List (Finset ℕ × CladeD)) (k : Finset ℕ)
    (h : ∀ kc ∈ cl, kc.1 ≠ k) : lookupClade cl k = none := by
  induction cl with
  | nil => rfl
  | cons e rest ih =>
    unfold lookupClade
    rw [if_neg (h e (List.mem_cons_self e rest))]
    exact ih (fun kc hkc => h kc (List.mem_cons_of_mem e hkc))

theorem lookupClade_mem_nodup (cl : List (Finset ℕ × CladeD)) (k : Finset ℕ) (c : CladeD)
    (hmem : (k, c) ∈ cl) (hnd : (cl.map (·.1)).Nodup) : lookupClade cl k = some c := by
  induction cl with
  | nil => simp at hmem
  | cons e rest ih =>
    rw [List.map_cons, List.nodup_cons] at hnd
    rcases List.mem_cons.mp hmem with h | h
    · rw [← h]
      unfold lookupClade
      rw [if_pos rfl]
    · have hek : e.1 ≠ k := by
        intro hk
        exact hnd.1 (hk ▸ List.mem_map_of_mem (·.1) h)
      unfold lookupClade
      rw [if_neg hek]
      exact ih h hnd.2

theorem updateClade_append_right (cl₁ cl₂ : List (Finset ℕ × CladeD)) (k : Finset ℕ)
    (f : CladeD → CladeD) (h : ∀ kc ∈ cl₁, kc.1 ≠ k) :
    updateClade (cl₁ ++ cl₂) k f = cl₁ ++ updateClade cl₂ k f := by
  induction cl₁ with
  | nil => simp
  | cons e rest ih =>
    simp only [List.cons_append]
    conv_lhs => unfold updateClade
    rw [if_neg (h e (List.mem_cons_self e rest))]
    rw [ih (fun kc hkc => h kc (List.mem_cons_of_mem e hkc))]

theorem visitClade_fresh (cl : List (Finset ℕ × CladeD)) (k : Finset ℕ) (h : ℚ)
    (hfresh : ∀ kc ∈ cl, kc.1 ≠ k) :
    visitClade cl k h = cl ++ [(k, ⟨1, 0 + h, []⟩)] := by
  unfold visitClade
  rw [lookupClade_eq_none cl k hfresh]
  simp only [Option.isSome_none, Bool.false_eq_true, if_false]
  rw [updateClade_append_right cl [(k, CladeD.new)] k _ hfresh]
  show cl ++ updateClade [(k, CladeD.new)] k _ = _
  unfold updateClade
  rw [if_pos rfl]
  rfl

theorem visitClade_found (k : Finset ℕ) (c : CladeD)
    (h : ℚ) (cl' : List (Finset ℕ × CladeD)) :
    visitClade ((k, c) :: cl') k h =
      (k, { c with occ := c.occ + 1, sumHeights := c.sumHeights + h }) :: cl' := by
  unfold visitClade
  have hl : lookupClade ((k, c) :: cl') k = some c := by
    unfold lookupClade
    rw [if_pos rfl]
  rw [hl]
  simp only [Option.isSome_some, if_pos]
  unfold updateClade
  rw [if_pos rfl]

theorem visitPartition_head (k : Finset ℕ) (c : CladeD) (cl' : List (Finset ℕ × CladeD))
    (b₁ b₂ : Finset ℕ) (h : ℚ) :
    visitPartition ((k, c) :: cl') k b₁ b₂ h =
      (k, { c with partitions := bumpOrCreatePartition c.partitions b₁ b₂ h }) :: cl' := by
  unfold visitPartition updateClade
  rw [if_pos rfl]

theorem visitPartition_append_right (cl₁ cl₂ : List (Finset ℕ × CladeD)) (k b₁ b₂ : Finset ℕ)
    (h : ℚ) (hfresh : ∀ kc ∈ cl₁, kc.1 ≠ k) :
    visitPartition (cl₁ ++ cl₂) k b₁ b₂ h = cl₁ ++ visitPartition cl₂ k b₁ b₂ h := by
  unfold visitPartition
  exact updateClade_append_right _ _ _ _ hfresh

/-! ## Structure of binary subtrees and their clade keys -/

theorem leavesOf_node (lbl : Option String) (i : ℕ) (h bl : Option ℚ) (c₁ c₂ : Vertex) :
    leavesOf (.mk lbl i h bl [c₁, c₂]) = leavesOf c₁ ++ leavesOf c₂ := by
  show leavesOfAll [c₁, c₂] = leavesOf c₁ ++ leavesOf c₂
  show leavesOf c₁ ++ leavesOfAll [c₂] = _
  show leavesOf c₁ ++ (leavesOf c₂ ++ leavesOfAll []) = _
  rw [show leavesOfAll [] = [] from rfl, List.append_nil]

theorem subtreeVertices_node (lbl : Option String) (i : ℕ) (h bl : Option ℚ)
    (c₁ c₂ : Vertex) :
    subtreeVertices (.mk lbl i h bl [c₁, c₂]) =
      .mk lbl i h bl [c₁, c₂] :: (subtreeVertices c₁ ++ subtreeVertices c₂) := rfl

theorem self_mem_subtreeVertices (v : Vertex) : v ∈ subtreeVertices v := by
  cases v with
  | mk lbl i h bl cs =>
    cases cs with
    | nil => exact List.mem_singleton.mpr rfl
    | cons c₁ rest =>
      cases rest with
      | nil => exact List.mem_singleton.mpr rfl
      | cons c₂ rest₂ => exact List.mem_cons_self _ _

theorem goodTree_left (names : List String) (lbl : Option String) (i : ℕ)
    (h bl : Option ℚ) (c₁ c₂ : Vertex)
    (hg : GoodTree names (.mk lbl i h bl [c₁, c₂])) : GoodTree names c₁ := by
  obtain ⟨hb, hm, hn⟩ := hg
  rw [leavesOf_node] at hm hn
  refine ⟨hb.1, ?_, ?_⟩
  · intro u hu
    exact hm u (List.mem_append_left _ hu)
  · rw [List.map_append] at hn
    exact (List.nodup_append.mp hn).1

theorem goodTree_right (names : List String) (lbl : Option String) (i : ℕ)
    (h bl : Option ℚ) (c₁ c₂ : Vertex)
    (hg : GoodTree names (.mk lbl i h bl [c₁, c₂])) : GoodTree names c₂ := by
  obtain ⟨hb, hm, hn⟩ := hg
  rw [leavesOf_node] at hm hn
  refine ⟨hb.2, ?_, ?_⟩
  · intro u hu
    exact hm u (List.mem_append_right _ hu)
  · rw [List.map_append] at hn
    exact (List.nodup_append.mp hn).2.1

theorem mem_subtree_leaves (v : Vertex) :
    ∀ u ∈ subtreeVertices v, ∀ w ∈ leavesOf u, w ∈ leavesOf v := by
  induction v using subtreeVertices.induct with
  | case1 lbl i h bl =>
    intro u hu w hw
    simp only [subtreeVertices, List.mem_singleton] at hu
    subst hu; exact hw
  | case2 lbl i h bl c₁ c₂ rest ih₁ ih₂ =>
    intro u hu w hw
    simp only [subtreeVertices, List.mem_cons, List.mem_append] at hu
    have hle : leavesOf (.mk lbl i h bl (c₁ :: c₂ :: rest)) =
        leavesOf c₁ ++ (leavesOf c₂ ++ leavesOfAll rest) := rfl
    rcases hu with hu | hu | hu
    · subst hu; exact hw
    · rw [hle]; exact List.mem_append_left _ (ih₁ u hu w hw)
    · rw [hle]; exact List.mem_append_right _ (List.mem_append_left _ (ih₂ u hu w hw))
  | case3 lbl i h bl c =>
    intro u hu w hw
    simp only [subtreeVertices, List.mem_singleton] at hu
    subst hu; exact hw

theorem mem_vkey_exists (names : List String) (v : Vertex) :
    ∀ j ∈ vkey names v, ∃ u ∈ leavesOf v, names.indexOf? (labelOf u) = some j := by
  induction v using subtreeVertices.induct with
  | case1 lbl i h bl =>
    intro j hj
    simp only [vkey] at hj
    cases hidx : names.indexOf? (labelOf (.mk lbl i h bl [])) with
    | none => rw [hidx] at hj; exact absurd hj (Finset.not_mem_empty j)
    | some idx =>
      rw [hidx] at hj
      rw [Finset.mem_singleton] at hj
      subst hj
      exact ⟨.mk lbl i h bl [], List.mem_singleton.mpr rfl, hidx⟩
  | case2 lbl i h bl c₁ c₂ rest ih₁ ih₂ =>
    intro j hj
    have hk : vkey names (.mk lbl i h bl (c₁ :: c₂ :: rest)) =
        vkey names c₁ ∪ vkey names c₂ := rfl
    rw [hk, Finset.mem_union] at hj
    have hle : leavesOf (.mk lbl i h bl (c₁ :: c₂ :: rest)) =
        leavesOf c₁ ++ (leavesOf c₂ ++ leavesOfAll rest) := rfl
    rcases hj with hj | hj
    · obtain ⟨u, hu, hju⟩ := ih₁ j hj
      exact ⟨u, by rw [hle]; exact List.mem_append_left _ hu, hju⟩
    · obtain ⟨u, hu, hju⟩ := ih₂ j hj
      exact ⟨u, by
        rw [hle]; exact List.mem_append_right _ (List.mem_append_left _ hu), hju⟩
  | case3 lbl i h bl c =>
    intro j hj
    simp only [vkey] at hj
    exact absurd hj (Finset.not_mem_empty j)

theorem mem_vkey_of_leaf (names : List String) (v : Vertex) :
    v.Binary → ∀ u ∈ leavesOf v, ∀ j, names.indexOf? (labelOf u) = some j →
    j ∈ vkey names v := by
  induction v using subtreeVertices.induct with
  | case1 lbl i h bl =>
    intro _ u hu j hj
    have hu' : u = .mk lbl i h bl [] := List.mem_singleton.mp hu
    subst hu'
    show j ∈ vkey names (.mk lbl i h bl [])
    simp only [vkey]
    rw [hj]
    exact Finset.mem_singleton_self j
  | case2 lbl i h bl c₁ c₂ rest ih₁ ih₂ =>
    intro hb u hu j hj
    cases rest with
    | cons r rs => exact False.elim hb
    | nil =>
      obtain ⟨hb₁, hb₂⟩ := hb
      rw [leavesOf_node, List.mem_append] at hu
      show j ∈ vkey names c₁ ∪ vkey names c₂
      rcases hu with hu | hu
      · exact Finset.mem_union_left _ (ih₁ hb₁ u hu j hj)
      · exact Finset.mem_union_right _ (ih₂ hb₂ u hu j hj)
  | case3 lbl i h bl c =>
    intro hb
    exact False.elim hb

theorem vkey_nonempty (names : List String) (v : Vertex) :
    v.Binary → (∀ u ∈ leavesOf v, (names.indexOf? (labelOf u)).isSome) →
    (vkey names v).Nonempty := by
  induction v using subtreeVertices.induct with
  | case1 lbl i h bl =>
    intro _ hm
    obtain ⟨idx, hidx⟩ := Option.isSome_iff_exists.mp
      (hm (.mk lbl i h bl []) (List.mem_singleton.mpr rfl))
    show (vkey names (.mk lbl i h bl [])).Nonempty
    simp only [vkey]
    rw [hidx]
    exact ⟨idx, Finset.mem_singleton_self idx⟩
  | case2 lbl i h bl c₁ c₂ rest ih₁ ih₂ =>
    intro hb hm
    cases rest with
    | cons r rs => exact False.elim hb
    | nil =>
      have hm₁ : ∀ u ∈ leavesOf c₁, (names.indexOf? (labelOf u)).isSome := by
        intro u hu
        exact hm u (by rw [leavesOf_node]; exact List.mem_append_left _ hu)
      obtain ⟨j, hj⟩ := ih₁ hb.1 hm₁
      exact ⟨j, Finset.mem_union_left _ hj⟩
  | case3 lbl i h bl c =>
    intro hb
    exact False.elim hb

theorem vkey_disjoint_of_labels (names : List String) (x y : Vertex)
    (hdisj : ∀ u ∈ leavesOf x, ∀ w ∈ leavesOf y, labelOf u ≠ labelOf w) :
    ∀ j ∈ vkey names x, j ∉ vkey names y := by
  intro j hjx hjy
  obtain ⟨u, hu, hju⟩ := mem_vkey_exists names x j hjx
  obtain ⟨w, hw, hjw⟩ := mem_vkey_exists names y j hjy
  exact hdisj u hu w hw (indexOf?_inj names (labelOf u) (labelOf w) j hju hjw)

theorem binary_of_mem_subtree (v : Vertex) :
    v.Binary → ∀ u ∈ subtreeVertices v, u.Binary := by
  induction v using subtreeVertices.induct with
  | case1 lbl i h bl =>
    intro hb u hu
    simp only [subtreeVertices, List.mem_singleton] at hu
    subst hu; exact hb
  | case2 lbl i h bl c₁ c₂ rest ih₁ ih₂ =>
    intro hb u hu
    cases rest with
    | cons r rs => exact False.elim hb
    | nil =>
      simp only [subtreeVertices, List.mem_cons, List.mem_append] at hu
      rcases hu with hu | hu | hu
      · subst hu; exact hb
      · exact ih₁ hb.1 u hu
      · exact ih₂ hb.2 u hu
  | case3 lbl i h bl c =>
    intro hb
    exact False.elim hb

theorem goodTree_of_mem_subtree (names : List String) (v : Vertex) :
    GoodTree names v → ∀ u ∈ subtreeVertices v, GoodTree names u := by
  induction v using subtreeVertices.induct with
  | case1 lbl i h bl =>
    intro hg u hu
    simp only [subtreeVertices, List.mem_singleton] at hu
    subst hu; exact hg
  | case2 lbl i h bl c₁ c₂ rest ih₁ ih₂ =>
    intro hg u hu
    cases rest with
    | cons r rs => exact False.elim hg.1
    | nil =>
      simp only [subtreeVertices, List.mem_cons, List.mem_append] at hu
      rcases hu with hu | hu | hu
      · subst hu; exact hg
      · exact ih₁ (goodTree_left names lbl i h bl c₁ c₂ hg) u hu
      · exact ih₂ (goodTree_right names lbl i h bl c₁ c₂ hg) u hu
  | case3 lbl i h bl c =>
    intro hg
    exact False.elim hg.1

theorem goodTree_labels_disjoint (names : List String) (lbl : Option String)
    (i : ℕ) (h bl : Option ℚ) (c₁ c₂ : Vertex)
    (hg : GoodTree names (.mk lbl i h bl [c₁, c₂])) :
    ∀ u ∈ leavesOf c₁, ∀ w ∈ leavesOf c₂, labelOf u ≠ labelOf w := by
  obtain ⟨_, _, hn⟩ := hg
  rw [leavesOf_node, List.map_append] at hn
  have hd := (List.nodup_append.mp hn).2.2
  intro u hu w hw heq
  exact hd (List.mem_map_of_mem _ hu) (heq ▸ List.mem_map_of_mem _ hw)

theorem vkey_ne_across (names : List String) (c₁ c₂ : Vertex)
    (hg₁ : GoodTree names c₁)
    (hdisj : ∀ a ∈ leavesOf c₁, ∀ b ∈ leavesOf c₂, labelOf a ≠ labelOf b) :
    ∀ u ∈ subtreeVertices c₁, ∀ w ∈ subtreeVertices c₂,
      vkey names u ≠ vkey names w := by
  intro u hu w hw heq
  have hgu := goodTree_of_mem_subtree names c₁ hg₁ u hu
  obtain ⟨j, hj⟩ := vkey_nonempty names u hgu.1 hgu.2.1
  have hdisj' : ∀ a ∈ leavesOf u, ∀ b ∈ leavesOf w, labelOf a ≠ labelOf b :=
    fun a ha b hb =>
      hdisj a (mem_subtree_leaves c₁ u hu a ha) b (mem_subtree_leaves c₂ w hw b hb)
  exact vkey_disjoint_of_labels names u w hdisj' j hj (heq ▸ hj)

theorem vkey_ne_parent (names : List String) (lbl : Option String) (i : ℕ)
    (h bl : Option ℚ) (c₁ c₂ : Vertex)
    (hg : GoodTree names (.mk lbl i h bl [c₁, c₂])) :
    ∀ u ∈ subtreeVertices c₁ ++ subtreeVertices c₂,
      vkey names u ≠ vkey names (.mk lbl i h bl [c₁, c₂]) := by
  intro u hu heq
  have hg₁ := goodTree_left names lbl i h bl c₁ c₂ hg
  have hg₂ := goodTree_right names lbl i h bl c₁ c₂ hg
  have hdisj := goodTree_labels_disjoint names lbl i h bl c₁ c₂ hg
  have hkey : vkey names (.mk lbl i h bl [c₁, c₂]) =
      vkey names c₁ ∪ vkey names c₂ := rfl
  rcases List.mem_append.mp hu with hu | hu
  · obtain ⟨j, hj⟩ := vkey_nonempty names c₂ hg₂.1 hg₂.2.1
    have hjv : j ∈ vkey names (.mk lbl i h bl [c₁, c₂]) := by
      rw [hkey]; exact Finset.mem_union_right _ hj
    have hnot : j ∉ vkey names u := by
      intro hju
      obtain ⟨a, ha, hja⟩ := mem_vkey_exists names u j hju
      obtain ⟨b, hb, hjb⟩ := mem_vkey_exists names c₂ j hj
      exact hdisj a (mem_subtree_leaves c₁ u hu a ha) b hb
        (indexOf?_inj names (labelOf a) (labelOf b) j hja hjb)
    exact hnot (by rw [heq]; exact hjv)
  · obtain ⟨j, hj⟩ := vkey_nonempty names c₁ hg₁.1 hg₁.2.1
    have hjv : j ∈ vkey names (.mk lbl i h bl [c₁, c₂]) := by
      rw [hkey]; exact Finset.mem_union_left _ hj
    have hnot : j ∉ vkey names u := by
      intro hju
      obtain ⟨a, ha, hja⟩ := mem_vkey_exists names u j hju
      obtain ⟨b, hb, hjb⟩ := mem_vkey_exists names c₁ j hj
      exact hdisj b hb a (mem_subtree_leaves c₂ u hu a ha)
        (indexOf?_inj names (labelOf b) (labelOf a) j hjb hja)
    exact hnot (by rw [heq]; exact hjv)

theorem treeEntries_keys (names : List String) (v : Vertex) :
    ∀ kc ∈ treeEntries names v, ∃ u ∈ subtreeVertices v, kc.1 = vkey names u := by
  induction v using subtreeVertices.induct with
  | case1 lbl i h bl =>
    intro kc hkc
    have hkc' : kc = (vkey names (.mk lbl i h bl []), ⟨1, 0 + effHeight h, []⟩) :=
      List.mem_singleton.mp hkc
    exact ⟨.mk lbl i h bl [], List.mem_singleton.mpr rfl, by rw [hkc']⟩
  | case2 lbl i h bl c₁ c₂ rest ih₁ ih₂ =>
    intro kc hkc
    have he : treeEntries names (.mk lbl i h bl (c₁ :: c₂ :: rest)) =
        treeEntries names c₁ ++ treeEntries names c₂ ++
          [(vkey names (.mk lbl i h bl (c₁ :: c₂ :: rest)),
            ⟨1, 0 + effHeight h,
              [⟨vkey names c₁, vkey names c₂, 1, effHeight h, -1, none⟩]⟩)] := rfl
    rw [he, List.mem_append, List.mem_append] at hkc
    have hsub : subtreeVertices (.mk lbl i h bl (c₁ :: c₂ :: rest)) =
        .mk lbl i h bl (c₁ :: c₂ :: rest) ::
          (subtreeVertices c₁ ++ subtreeVertices c₂) := rfl
    rcases hkc with (hkc | hkc) | hkc
    · obtain ⟨u, hu, hk⟩ := ih₁ kc hkc
      exact ⟨u, by
        rw [hsub]; exact List.mem_cons_of_mem _ (List.mem_append_left _ hu), hk⟩
    · obtain ⟨u, hu, hk⟩ := ih₂ kc hkc
      exact ⟨u, by
        rw [hsub]; exact List.mem_cons_of_mem _ (List.mem_append_right _ hu), hk⟩
    · have hkc' := List.mem_singleton.mp hkc
      exact ⟨.mk lbl i h bl (c₁ :: c₂ :: rest), by
        rw [hsub]; exact List.mem_cons_self _ _, by rw [hkc']⟩
  | case3 lbl i h bl c =>
    intro kc hkc
    simp only [treeEntries] at hkc
    exact absurd hkc (List.not_mem_nil kc)

theorem treeEntries_keys_nodup (names : List String) (v : Vertex) :
    GoodTree names v → ((treeEntries names v).map (·.1)).Nodup := by
  induction v using subtreeVertices.induct with
  | case1 lbl i h bl =>
    intro _
    simp [treeEntries]
  | case2 lbl i h bl c₁ c₂ rest ih₁ ih₂ =>
    intro hg
    cases rest with
    | cons r rs => exact False.elim hg.1
    | nil =>
      have hg₁ := goodTree_left names lbl i h bl c₁ c₂ hg
      have hg₂ := goodTree_right names lbl i h bl c₁ c₂ hg
      have hacross := vkey_ne_across names c₁ c₂ hg₁
        (goodTree_labels_disjoint names lbl i h bl c₁ c₂ hg)
      have hparent := vkey_ne_parent names lbl i h bl c₁ c₂ hg
      have he : treeEntries names (.mk lbl i h bl [c₁, c₂]) =
          treeEntries names c₁ ++ treeEntries names c₂ ++
            [(vkey names (.mk lbl i h bl [c₁, c₂]),
              ⟨1, 0 + effHeight h,
                [⟨vkey names c₁, vkey names c₂, 1, effHeight h, -1, none⟩]⟩)] := rfl

      rw [he, List.map_append, List.map_append]
      refine List.nodup_append.mpr ⟨List.nodup_append.mpr ⟨ih₁ hg₁, ih₂ hg₂, ?_⟩,
        List.nodup_singleton _, ?_⟩
      · intro k hk₁ hk₂
        obtain ⟨kc, hkc, hfst⟩ := List.mem_map.mp hk₁
        obtain ⟨u, hu, hku⟩ := treeEntries_keys names c₁ kc hkc
        obtain ⟨kc', hkc', hfst'⟩ := List.mem_map.mp hk₂
        obtain ⟨w, hw, hkw⟩ := treeEntries_keys names c₂ kc' hkc'
        exact hacross u hu w hw (by rw [← hku, hfst, ← hfst', hkw])
      · intro k hk hkv
        rw [List.map_singleton, List.mem_singleton] at hkv
        subst hkv
        rcases List.mem_append.mp hk with hk | hk
        · obtain ⟨kc, hkc, hfst⟩ := List.mem_map.mp hk
          obtain ⟨u, hu, hku⟩ := treeEntries_keys names c₁ kc hkc
          exact hparent u (List.mem_append_left _ hu) (by rw [← hku, hfst])
        · obtain ⟨kc, hkc, hfst⟩ := List.mem_map.mp hk
          obtain ⟨u, hu, hku⟩ := treeEntries_keys names c₂ kc hkc
          exact hparent u (List.mem_append_right _ hu) (by rw [← hku, hfst])
  | case3 lbl i h bl c =>
    intro hg
    exact False.elim hg.1

theorem cladifyVertex_fresh_run (v : Vertex) :
    ∀ s : CCDState, GoodTree s.taxonNames v →
      (∀ u ∈ subtreeVertices v, ∀ kc ∈ s.clades, kc.1 ≠ vkey s.taxonNames u) →
      cladifyVertex s v =
        .ok ({ s with clades := s.clades ++ treeEntries s.taxonNames v },
          vkey s.taxonNames v) := by
  induction v using subtreeVertices.induct with
  | case1 lbl i h bl =>
    intro s hg hfresh
    obtain ⟨idx, hidx⟩ := Option.isSome_iff_exists.mp
      (hg.2.1 (.mk lbl i h bl []) (List.mem_singleton.mpr rfl))
    have hk : vkey s.taxonNames (.mk lbl i h bl []) = {idx} := by
      simp only [vkey]; rw [hidx]
    have heq : cladifyVertex s (.mk lbl i h bl []) =
        (match s.taxonNames.indexOf? (labelOf (.mk lbl i h bl [])) with
          | none => .error (.taxonUnknown (labelOf (.mk lbl i h bl [])))
          | some index =>
            .ok ({ s with clades := visitClade s.clades {index} (effHeight h) },
              {index})) := rfl
    rw [heq, hidx]
    show Except.ok
        ({ s with clades := visitClade s.clades {idx} (effHeight h) },
          ({idx} : Finset ℕ)) = _
    have hfresh' : ∀ kc ∈ s.clades, kc.1 ≠ ({idx} : Finset ℕ) := by
      intro kc hkc
      have hne := hfresh (.mk lbl i h bl []) (List.mem_singleton.mpr rfl) kc hkc
      rw [hk] at hne
      exact hne
    rw [visitClade_fresh s.clades {idx} (effHeight h) hfresh']
    rw [show treeEntries s.taxonNames (.mk lbl i h bl []) =
        [(vkey s.taxonNames (.mk lbl i h bl []), ⟨1, 0 + effHeight h, []⟩)]
      from rfl, hk]
  | case2 lbl i h bl c₁ c₂ rest ih₁ ih₂ =>
    intro s hg hfresh
    cases rest with
    | cons r rs => exact False.elim hg.1
    | nil =>
      have hg₁ := goodTree_left s.taxonNames lbl i h bl c₁ c₂ hg
      have hg₂ := goodTree_right s.taxonNames lbl i h bl c₁ c₂ hg
      have hsub : subtreeVertices (.mk lbl i h bl [c₁, c₂]) =
          .mk lbl i h bl [c₁, c₂] ::
            (subtreeVertices c₁ ++ subtreeVertices c₂) := rfl
      have hfresh₁ : ∀ u ∈ subtreeVertices c₁,
          ∀ kc ∈ s.clades, kc.1 ≠ vkey s.taxonNames u := by
        intro u hu
        exact hfresh u
          (by rw [hsub]; exact List.mem_cons_of_mem _ (List.mem_append_left _ hu))
      have hrun₁ := ih₁ s hg₁ hfresh₁
      have hfresh₂ : ∀ u ∈ subtreeVertices c₂,
          ∀ kc ∈ s.clades ++ treeEntries s.taxonNames c₁,
            kc.1 ≠ vkey s.taxonNames u := by
        intro u hu kc hkc
        rcases List.mem_append.mp hkc with hkc | hkc
        · exact hfresh u
            (by rw [hsub];
                exact List.mem_cons_of_mem _ (List.mem_append_right _ hu)) kc hkc
        · obtain ⟨w, hw, hkw⟩ := treeEntries_keys s.taxonNames c₁ kc hkc
          rw [hkw]
          exact vkey_ne_across s.taxonNames c₁ c₂ hg₁
            (goodTree_labels_disjoint s.taxonNames lbl i h bl c₁ c₂ hg) w hw u hu
      have hrun₂ :
          cladifyVertex { s with clades := s.clades ++ treeEntries s.taxonNames c₁ } c₂ =
            .ok ({ s with clades :=
                (s.clades ++ treeEntries s.taxonNames c₁) ++ treeEntries s.taxonNames c₂ },
              vkey s.taxonNames c₂) :=
        ih₂ { s with clades := s.clades ++ treeEntries s.taxonNames c₁ } hg₂ hfresh₂
      have hstep : cladifyVertex s (.mk lbl i h bl [c₁, c₂]) =
          (cladifyVertex s c₁ >>= fun p₁ =>
            match p₁ with
            | (s₁, b₁) =>
              cladifyVertex s₁ c₂ >>= fun p₂ =>
                match p₂ with
                | (s₂, b₂) =>
                  Except.ok ({ s₂ with clades :=
                      (visitPartition
                        (visitClade s₂.clades (b₁ ∪ b₂) (effHeight h))
                        (b₁ ∪ b₂) b₁ b₂ (effHeight h)) },
                    b₁ ∪ b₂)) := rfl
      rw [hstep, hrun₁, exceptBind_ok]
      show (cladifyVertex { s with clades := s.clades ++ treeEntries s.taxonNames c₁ } c₂ >>=
          fun p₂ =>
            match p₂ with
            | (s₂, b₂) =>
              Except.ok ({ s₂ with clades :=
                  (visitPartition
                    (visitClade s₂.clades (vkey s.taxonNames c₁ ∪ b₂) (effHeight h))
                    (vkey s.taxonNames c₁ ∪ b₂) (vkey s.taxonNames c₁) b₂ (effHeight h)) },
                vkey s.taxonNames c₁ ∪ b₂)) = _
      rw [hrun₂, exceptBind_ok]
      show Except.ok
          ({ s with clades :=
              (visitPartition
                (visitClade
                  ((s.clades ++ treeEntries s.taxonNames c₁) ++ treeEntries s.taxonNames c₂)
                  (vkey s.taxonNames c₁ ∪ vkey s.taxonNames c₂) (effHeight h))
                (vkey s.taxonNames c₁ ∪ vkey s.taxonNames c₂)
                (vkey s.taxonNames c₁) (vkey s.taxonNames c₂) (effHeight h)) },
            vkey s.taxonNames c₁ ∪ vkey s.taxonNames c₂) = _
      have hkv : vkey s.taxonNames (.mk lbl i h bl [c₁, c₂]) =
          vkey s.taxonNames c₁ ∪ vkey s.taxonNames c₂ := rfl
      have hparent := vkey_ne_parent s.taxonNames lbl i h bl c₁ c₂ hg
      have hfreshv : ∀ kc ∈
          (s.clades ++ treeEntries s.taxonNames c₁) ++ treeEntries s.taxonNames c₂,
          kc.1 ≠ vkey s.taxonNames c₁ ∪ vkey s.taxonNames c₂ := by
        intro kc hkc
        rw [← hkv]
        rcases List.mem_append.mp hkc with hkc | hkc
        · rcases List.mem_append.mp hkc with hkc | hkc
          · exact hfresh _ (by rw [hsub]; exact List.mem_cons_self _ _) kc hkc
          · obtain ⟨w, hw, hkw⟩ := treeEntries_keys s.taxonNames c₁ kc hkc
            rw [hkw]
            exact hparent w (List.mem_append_left _ hw)
        · obtain ⟨w, hw, hkw⟩ := treeEntries_keys s.taxonNames c₂ kc hkc
          rw [hkw]
          exact hparent w (List.mem_append_right _ hw)
      rw [visitClade_fresh _ _ _ hfreshv]
      rw [visitPartition_append_right _ _ _ _ _ _ hfreshv]
      rw [visitPartition_head]
      rw [show treeEntries s.taxonNames (.mk lbl i h bl [c₁, c₂]) =
          treeEntries s.taxonNames c₁ ++ treeEntries s.taxonNames c₂ ++
            [(vkey s.taxonNames (.mk lbl i h bl [c₁, c₂]),
              ⟨1, 0 + effHeight h,
                [⟨vkey s.taxonNames c₁, vkey s.taxonNames c₂, 1, effHeight h,
                  -1, none⟩]⟩)] from rfl, hkv]
      simp only [List.append_assoc]
      rfl
  | case3 lbl i h bl c =>
    intro s hg _
    exact False.elim hg.1

theorem indexOf?_isSome_of_mem (l : List String) (a : String) (h : a ∈ l) :
    (l.indexOf? a).isSome := by
  induction l with
  | nil => simp at h
  | cons x xs ih =>
    rw [List.indexOf?_cons]
    by_cases hx : x == a
    · rw [if_pos hx]
      rfl
    · rw [if_neg hx]
      rw [show ∀ o : Option ℕ, (Option.map Nat.succ o).isSome = o.isSome from
        fun o => by cases o <;> rfl]
      refine ih ?_
      rcases List.mem_cons.mp h with h' | h'
      · exact absurd (beq_iff_eq.mpr h'.symm) hx
      · exact h'

theorem vkey_card_leaf (names : List String) (lbl : Option String) (i : ℕ)
    (h bl : Option ℚ)
    (hm : (names.indexOf? (labelOf (.mk lbl i h bl []))).isSome) :
    (vkey names (.mk lbl i h bl [])).card = 1 := by
  obtain ⟨idx, hidx⟩ := Option.isSome_iff_exists.mp hm
  simp only [vkey]
  rw [hidx]
  exact Finset.card_singleton idx

theorem vkey_one_lt_card (names : List String) (lbl : Option String) (i : ℕ)
    (h bl : Option ℚ) (c₁ c₂ : Vertex)
    (hg : GoodTree names (.mk lbl i h bl [c₁, c₂])) :
    1 < (vkey names (.mk lbl i h bl [c₁, c₂])).card := by
  have hg₁ := goodTree_left names lbl i h bl c₁ c₂ hg
  have hg₂ := goodTree_right names lbl i h bl c₁ c₂ hg
  obtain ⟨j₁, hj₁⟩ := vkey_nonempty names c₁ hg₁.1 hg₁.2.1
  obtain ⟨j₂, hj₂⟩ := vkey_nonempty names c₂ hg₂.1 hg₂.2.1
  have hdisj := goodTree_labels_disjoint names lbl i h bl c₁ c₂ hg
  have hne : j₁ ≠ j₂ := by
    intro hEq
    exact vkey_disjoint_of_labels names c₁ c₂ hdisj j₁ hj₁ (hEq ▸ hj₂)
  have hk : vkey names (.mk lbl i h bl [c₁, c₂]) =
      vkey names c₁ ∪ vkey names c₂ := rfl
  refine Finset.one_lt_card.mpr ⟨j₁, ?_, j₂, ?_, hne⟩
  · rw [hk]; exact Finset.mem_union_left _ hj₁
  · rw [hk]; exact Finset.mem_union_right _ hj₂

/-- The root vertex of a binary tree whose leaf labels enumerate
exactly the taxon list receives the full clade `range names.length`. -/
theorem vkey_root_range (names : List String) (v : Vertex)
    (hb : v.Binary) (hnd : names.Nodup)
    (hcover : ∀ l ∈ names, ∃ u ∈ leavesOf v, labelOf u = l)
    (hmem : ∀ u ∈ leavesOf v, labelOf u ∈ names) :
    vkey names v = Finset.range names.length := by
  apply Finset.ext
  intro j
  constructor
  · intro hj
    obtain ⟨u, hu, hju⟩ := mem_vkey_exists names v j hj
    exact Finset.mem_range.mpr (indexOf?_some_getD names (labelOf u) j hju).1
  · intro hj
    have hjlt := Finset.mem_range.mp hj
    have hgd : names.getD j "" ∈ names := by
      rw [List.getD_eq_getElem?_getD, List.getElem?_eq_getElem hjlt]
      exact List.getElem_mem hjlt
    obtain ⟨u, hu, hlu⟩ := hcover _ hgd
    have hidx : names.indexOf? (labelOf u) = some j := by
      rw [hlu]
      exact nodup_indexOf?_getD names hnd j hjlt
    exact mem_vkey_of_leaf names v hb u hu j hidx

/-- Cladifying a binary tree into the one-entry root mapping of
`CCDState.empty`: the root entry is found and bumped in place, every
other subtree clade is appended fresh. -/
theorem cladifyVertex_root_run (v : Vertex) (s : CCDState)
    (hg : GoodTree s.taxonNames v)
    (hclades : s.clades = [(vkey s.taxonNames v, CladeD.new)]) :
    cladifyVertex s v =
      .ok ({ s with clades := rootEntries s.taxonNames v },
        vkey s.taxonNames v) := by
  cases v with
  | mk lbl i h bl cs =>
    cases cs with
    | nil =>
      obtain ⟨idx, hidx⟩ := Option.isSome_iff_exists.mp
        (hg.2.1 (.mk lbl i h bl []) (List.mem_singleton.mpr rfl))
      have hk : vkey s.taxonNames (.mk lbl i h bl []) = {idx} := by
        simp only [vkey]; rw [hidx]
      have heq : cladifyVertex s (.mk lbl i h bl []) =
          (match s.taxonNames.indexOf? (labelOf (.mk lbl i h bl [])) with
            | none => .error (.taxonUnknown (labelOf (.mk lbl i h bl [])))
            | some index =>
              .ok ({ s with clades := visitClade s.clades {index} (effHeight h) },
                {index})) := rfl
      rw [heq, hidx]
      show Except.ok
          ({ s with clades := visitClade s.clades {idx} (effHeight h) },
            ({idx} : Finset ℕ)) = _
      rw [show rootEntries s.taxonNames (.mk lbl i h bl []) =
          [(vkey s.taxonNames (.mk lbl i h bl []), ⟨1, 0 + effHeight h, []⟩)]
        from rfl]
      rw [hclades, hk]
      rw [visitClade_found {idx} CladeD.new (effHeight h) []]
      rfl
    | cons c₁ cs₂ =>
      cases cs₂ with
      | nil => exact False.elim hg.1
      | cons c₂ rest =>
        cases rest with
        | cons r rs => exact False.elim hg.1
        | nil =>
          have hg₁ := goodTree_left s.taxonNames lbl i h bl c₁ c₂ hg
          have hg₂ := goodTree_right s.taxonNames lbl i h bl c₁ c₂ hg
          have hparent := vkey_ne_parent s.taxonNames lbl i h bl c₁ c₂ hg
          have hfresh₁ : ∀ u ∈ subtreeVertices c₁,
              ∀ kc ∈ s.clades, kc.1 ≠ vkey s.taxonNames u := by
            intro u hu kc hkc
            have hkc' : kc = (vkey s.taxonNames (.mk lbl i h bl [c₁, c₂]), CladeD.new) :=
              List.mem_singleton.mp (hclades ▸ hkc)
            rw [hkc']
            exact (hparent u (List.mem_append_left _ hu)).symm
          have hrun₁ := cladifyVertex_fresh_run c₁ s hg₁ hfresh₁
          have hfresh₂ : ∀ u ∈ subtreeVertices c₂,
              ∀ kc ∈ s.clades ++ treeEntries s.taxonNames c₁,
                kc.1 ≠ vkey s.taxonNames u := by
            intro u hu kc hkc
            rcases List.mem_append.mp hkc with hkc | hkc
            · have hkc' : kc = (vkey s.taxonNames (.mk lbl i h bl [c₁, c₂]), CladeD.new) :=
                List.mem_singleton.mp (hclades ▸ hkc)
              rw [hkc']
              exact (hparent u (List.mem_append_right _ hu)).symm
            · obtain ⟨w, hw, hkw⟩ := treeEntries_keys s.taxonNames c₁ kc hkc
              rw [hkw]
              exact vkey_ne_across s.taxonNames c₁ c₂ hg₁
                (goodTree_labels_disjoint s.taxonNames lbl i h bl c₁ c₂ hg) w hw u hu
          have hrun₂ :
              cladifyVertex
                  { s with clades := s.clades ++ treeEntries s.taxonNames c₁ } c₂ =
                .ok ({ s with clades :=
                    (s.clades ++ treeEntries s.taxonNames c₁) ++
                      treeEntries s.taxonNames c₂ },
                  vkey s.taxonNames c₂) :=
            cladifyVertex_fresh_run c₂
              { s with clades := s.clades ++ treeEntries s.taxonNames c₁ } hg₂ hfresh₂
          have hstep : cladifyVertex s (.mk lbl i h bl [c₁, c₂]) =
              (cladifyVertex s c₁ >>= fun p₁ =>
                match p₁ with
                | (s₁, b₁) =>
                  cladifyVertex s₁ c₂ >>= fun p₂ =>
                    match p₂ with
                    | (s₂, b₂) =>
                      Except.ok ({ s₂ with clades :=
                          (visitPartition
                            (visitClade s₂.clades (b₁ ∪ b₂) (effHeight h))
                            (b₁ ∪ b₂) b₁ b₂ (effHeight h)) },
                        b₁ ∪ b₂)) := rfl
          rw [hstep, hrun₁, exceptBind_ok]
          show (cladifyVertex
              { s with clades := s.clades ++ treeEntries s.taxonNames c₁ } c₂ >>=
              fun p₂ =>
                match p₂ with
                | (s₂, b₂) =>
                  Except.ok ({ s₂ with clades :=
                      (visitPartition
                        (visitClade s₂.clades (vkey s.taxonNames c₁ ∪ b₂) (effHeight h))
                        (vkey s.taxonNames c₁ ∪ b₂) (vkey s.taxonNames c₁) b₂
                        (effHeight h)) },
                    vkey s.taxonNames c₁ ∪ b₂)) = _
          rw [hrun₂, exceptBind_ok]
          show Except.ok
              ({ s with clades :=
                  (visitPartition
                    (visitClade
                      ((s.clades ++ treeEntries s.taxonNames c₁) ++
                        treeEntries s.taxonNames c₂)
                      (vkey s.taxonNames c₁ ∪ vkey s.taxonNames c₂) (effHeight h))
                    (vkey s.taxonNames c₁ ∪ vkey s.taxonNames c₂)
                    (vkey s.taxonNames c₁) (vkey s.taxonNames c₂) (effHeight h)) },
                vkey s.taxonNames c₁ ∪ vkey s.taxonNames c₂) = _
          have hkv : vkey s.taxonNames (.mk lbl i h bl [c₁, c₂]) =
              vkey s.taxonNames c₁ ∪ vkey s.taxonNames c₂ := rfl
          rw [show rootEntries s.taxonNames (.mk lbl i h bl [c₁, c₂]) =
              (vkey s.taxonNames (.mk lbl i h bl [c₁, c₂]),
                (⟨1, 0 + effHeight h,
                  [⟨vkey s.taxonNames c₁, vkey s.taxonNames c₂, 1, effHeight h,
                    -1, none⟩]⟩ : CladeD))
                :: (treeEntries s.taxonNames c₁ ++ treeEntries s.taxonNames c₂)
            from rfl]
          rw [hclades, hkv]
          rw [List.singleton_append, List.cons_append]
          rw [visitClade_found]
          rw [visitPartition_head]
          rfl

/-! ## `initialize()` on the single-tree mapping -/

theorem initializeClade_single (k₁ k₂ : Finset ℕ) (sh h₂ c₀ : ℚ) (lg₀ : Option ℚ) :
    initializeClade ⟨1, sh, [⟨k₁, k₂, 1, h₂, c₀, lg₀⟩]⟩ =
      ⟨1, sh, [⟨k₁, k₂, 1, h₂, 1, some 1⟩]⟩ := by
  simp [initializeClade, setCCP]

theorem map_initializeClade_treeEntries (names : List String) (v : Vertex) :
    (treeEntries names v).map (fun kc => (kc.1, initializeClade kc.2)) =
      treeEntriesInit names v := by
  induction v using subtreeVertices.induct with
  | case1 lbl i h bl => rfl
  | case2 lbl i h bl c₁ c₂ rest ih₁ ih₂ =>
    rw [show treeEntries names (.mk lbl i h bl (c₁ :: c₂ :: rest)) =
        treeEntries names c₁ ++ treeEntries names c₂ ++
          [(vkey names (.mk lbl i h bl (c₁ :: c₂ :: rest)),
            ⟨1, 0 + effHeight h,
              [⟨vkey names c₁, vkey names c₂, 1, effHeight h, -1, none⟩]⟩)]
      from rfl]
    rw [List.map_append, List.map_append, ih₁, ih₂]
    rw [show (List.map (fun kc => (kc.1, initializeClade kc.2))
        [(vkey names (.mk lbl i h bl (c₁ :: c₂ :: rest)),
          (⟨1, 0 + effHeight h,
            [⟨vkey names c₁, vkey names c₂, 1, effHeight h, -1, none⟩]⟩ : CladeD))]) =
        [(vkey names (.mk lbl i h bl (c₁ :: c₂ :: rest)),
          initializeClade ⟨1, 0 + effHeight h,
            [⟨vkey names c₁, vkey names c₂, 1, effHeight h, -1, none⟩]⟩)] from rfl]
    rw [initializeClade_single]
    rfl
  | case3 lbl i h bl c => rfl

theorem map_initializeClade_rootEntries (names : List String) (v : Vertex) :
    (rootEntries names v).map (fun kc => (kc.1, initializeClade kc.2)) =
      rootEntriesInit names v := by
  cases v with
  | mk lbl i h bl cs =>
    cases cs with
    | nil => rfl
    | cons c₁ cs₂ =>
      cases cs₂ with
      | nil => rfl
      | cons c₂ rest =>
        rw [show rootEntries names (.mk lbl i h bl (c₁ :: c₂ :: rest)) =
            (vkey names (.mk lbl i h bl (c₁ :: c₂ :: rest)),
              (⟨1, 0 + effHeight h,
                [⟨vkey names c₁, vkey names c₂, 1, effHeight h, -1, none⟩]⟩ : CladeD))
              :: (treeEntries names c₁ ++ treeEntries names c₂) from rfl]
        rw [List.map_cons, List.map_append,
          map_initializeClade_treeEntries, map_initializeClade_treeEntries]
        show (_, initializeClade _) :: _ = _
        rw [initializeClade_single]
        rfl

/-- `addTree` on the fresh CCD of a binary tree whose root clade is the
full taxon set. -/
theorem addTree_single_run (t : JSTree) (names : List String)
    (hg : GoodTree names t.root)
    (hroot : vkey names t.root = Finset.range names.length) :
    addTree (CCDState.empty names) t =
      .ok (setCacheAsDirty
        { CCDState.empty names with
            numBaseTrees := 1,
            clades := rootEntries names t.root }) := by
  have hclades :
      ({ CCDState.empty names with
          numBaseTrees := (CCDState.empty names).numBaseTrees + 1 } : CCDState).clades =
        [(vkey ({ CCDState.empty names with
          numBaseTrees := (CCDState.empty names).numBaseTrees + 1 } : CCDState).taxonNames
            t.root, CladeD.new)] := by
    show [(Finset.range names.length, CladeD.new)] = [(vkey names t.root, CladeD.new)]
    rw [hroot]
  have hrun := cladifyVertex_root_run t.root
    { CCDState.empty names with
        numBaseTrees := (CCDState.empty names).numBaseTrees + 1 } hg hclades
  have hstep : addTree (CCDState.empty names) t =
      (cladifyVertex
          { CCDState.empty names with
              numBaseTrees := (CCDState.empty names).numBaseTrees + 1 } t.root >>=
        fun p =>
          match p with
          | (s₂, _) => Except.ok (setCacheAsDirty s₂)) := rfl
  rw [hstep, hrun, exceptBind_ok]
  rfl

/-- The complete single-tree pipeline: `fromTrees([T], 0)` produces the
initialized clade mapping `rootEntriesInit` over the sorted taxa of
`T`, with one base tree and all cache flags raised. -/
theorem fromTrees_single_run (t : JSTree)
    (hb : t.root.Binary) (hnd : t.leafLabels.Nodup) :
    fromTrees [t] 0 =
      .ok { leafArraySize := (sortStrings (allTaxaOf [t])).length,
            taxonNames := sortStrings (allTaxaOf [t]),
            numBaseTrees := 1,
            clades := rootEntriesInit (sortStrings (allTaxaOf [t])) t.root,
            probabilitiesDirty := true,
            entropyDirty := true,
            numberOfTopologiesDirty := true } := by
  have hmemn : ∀ u ∈ leavesOf t.root,
      labelOf u ∈ sortStrings (allTaxaOf [t]) := by
    intro u hu
    rw [sortStrings_mem]
    rw [allTaxaOf_mem]
    exact ⟨t, List.mem_singleton.mpr rfl, List.mem_map_of_mem _ hu⟩
  have hg : GoodTree (sortStrings (allTaxaOf [t])) t.root :=
    ⟨hb, fun u hu => indexOf?_isSome_of_mem _ _ (hmemn u hu), hnd⟩
  have hroot : vkey (sortStrings (allTaxaOf [t])) t.root =
      Finset.range (sortStrings (allTaxaOf [t])).length := by
    refine vkey_root_range _ _ hb
      (sortStrings_nodup _ (allTaxaOf_nodup _)) ?_ hmemn
    intro l hl
    rw [sortStrings_mem, allTaxaOf_mem] at hl
    obtain ⟨t', ht', hlt⟩ := hl
    rw [List.mem_singleton.mp ht'] at hlt
    obtain ⟨u, hu, hlu⟩ := List.mem_map.mp hlt
    exact ⟨u, hu, hlu⟩
  rw [fromTrees_eval [t] 0 0 (by norm_num [burninCountOf]) rfl]
  rw [show ([t].drop 0) = [t] from rfl]
  rw [show (List.foldlM addTree (CCDState.empty (sortStrings (allTaxaOf [t]))) [t]) =
      (addTree (CCDState.empty (sortStrings (allTaxaOf [t]))) t >>=
        fun s => (pure s : Except CCDErr CCDState)) from rfl]
  rw [addTree_single_run t _ hg hroot, exceptBind_ok]
  show Except.ok
      ({ leafArraySize := (sortStrings (allTaxaOf [t])).length,
         taxonNames := sortStrings (allTaxaOf [t]),
         numBaseTrees := 1,
         clades := (rootEntries (sortStrings (allTaxaOf [t])) t.root).map
           (fun kc => (kc.1, initializeClade kc.2)),
         probabilitiesDirty := true,
         entropyDirty := true,
         numberOfTopologiesDirty := true } : CCDState) = _
  rw [map_initializeClade_rootEntries]

/-! ## Relaxation loop of getMaxLogTreeProbability on the single-tree CCD -/

theorem lookupVal_updateVal_self (vals : List (Finset ℕ × Option ℚ)) (k : Finset ℕ)
    (x : Option ℚ) (h : (lookupVal vals k).isSome) :
    lookupVal (updateVal vals k x) k = some x := by
  induction vals with
  | nil => simp [lookupVal] at h
  | cons e rest ih =>
    obtain ⟨k₀, v⟩ := e
    by_cases hk : k₀ = k
    · unfold updateVal
      rw [if_pos hk]
      unfold lookupVal
      rw [if_pos hk]
    · unfold updateVal
      rw [if_neg hk]
      unfold lookupVal
      rw [if_neg hk]
      unfold lookupVal at h
      rw [if_neg hk] at h
      exact ih h

theorem lookupVal_updateVal_ne (vals : List (Finset ℕ × Option ℚ)) (k k' : Finset ℕ)
    (x : Option ℚ) (h : k' ≠ k) :
    lookupVal (updateVal vals k x) k' = lookupVal vals k' := by
  induction vals with
  | nil => rfl
  | cons e rest ih =>
    obtain ⟨k₀, v⟩ := e
    by_cases hk : k₀ = k
    · unfold updateVal
      rw [if_pos hk]
      unfold lookupVal
      have hne : ¬k₀ = k' := fun heq => h (heq ▸ hk ▸ rfl)
      rw [if_neg hne, if_neg hne]
    · unfold updateVal
      rw [if_neg hk]
      unfold lookupVal
      by_cases hk' : k₀ = k'
      · rw [if_pos hk', if_pos hk']
      · rw [if_neg hk', if_neg hk']
        exact ih

theorem lookupVal_initMaxVals (cl : List (Finset ℕ × CladeD)) (k : Finset ℕ) :
    lookupVal (initMaxVals cl) k =
      if (lookupClade cl k).isSome then some (if k.card = 1 then some 1 else none)
      else none := by
  induction cl with
  | nil => rfl
  | cons e rest ih =>
    obtain ⟨k₀, c⟩ := e
    by_cases hk : k₀ = k
    · simp only [initMaxVals, List.map_cons] at ih ⊢
      unfold lookupVal
      rw [if_pos hk]
      unfold lookupClade
      rw [if_pos hk]
      rw [hk]
      rfl
    · simp only [initMaxVals, List.map_cons] at ih ⊢
      unfold lookupVal
      rw [if_neg hk]
      unfold lookupClade
      rw [if_neg hk]
      exact ih

theorem maxStep_done (vals : List (Finset ℕ × Option ℚ)) (ch : Bool) (k : Finset ℕ)
    (c : CladeD) (q : ℚ) (h : lookupVal vals k = some (some q)) :
    maxStep (vals, ch) (k, c) = (vals, ch) := by
  simp [maxStep, h]

theorem maxStep_leafskip (vals : List (Finset ℕ × Option ℚ)) (ch : Bool) (k : Finset ℕ)
    (c : CladeD) (h : lookupVal vals k = some none) (hcard : k.card = 1) :
    maxStep (vals, ch) (k, c) = (vals, ch) := by
  simp [maxStep, h, hcard]

theorem maxStep_blocked (vals : List (Finset ℕ × Option ℚ)) (ch : Bool) (k : Finset ℕ)
    (c : CladeD) (h : lookupVal vals k = some none) (hcard : ¬k.card = 1)
    (hnc : (c.partitions.all (childrenComputed vals) && !c.partitions.isEmpty) = false) :
    maxStep (vals, ch) (k, c) = (vals, ch) := by
  simp [maxStep, h, hcard, hnc]

theorem maxStep_compute (vals : List (Finset ℕ × Option ℚ)) (ch : Bool) (k : Finset ℕ)
    (c : CladeD) (h : lookupVal vals k = some none) (hcard : ¬k.card = 1)
    (hc : (c.partitions.all (childrenComputed vals) && !c.partitions.isEmpty) = true) :
    maxStep (vals, ch) (k, c) =
      (updateVal vals k (bestPartitionValue vals c.partitions), true) := by
  simp [maxStep, h, hcard, hc]

theorem foldl_maxStep_done (seg : List (Finset ℕ × CladeD)) :
    ∀ (vals : List (Finset ℕ × Option ℚ)) (ch : Bool),
    (∀ kc ∈ seg, ∃ q, lookupVal vals kc.1 = some (some q)) →
    List.foldl maxStep (vals, ch) seg = (vals, ch) := by
  induction seg with
  | nil => intro vals ch _; rfl
  | cons e rest ih =>
    intro vals ch hall
    obtain ⟨k, c⟩ := e
    obtain ⟨q, hq⟩ := hall (k, c) (List.mem_cons_self _ rest)
    rw [List.foldl_cons, maxStep_done vals ch k c q hq]
    exact ih vals ch (fun kc hkc => hall kc (List.mem_cons_of_mem _ hkc))

/-- One pass of the relaxation over the post-ordered segment of a
binary subtree computes every clade of the subtree to `some 1` (log 0),
touches no other key, and reports a change exactly when the subtree has
an internal vertex. -/
theorem maxPass_segment (names : List String) (v : Vertex) :
    ∀ (vals : List (Finset ℕ × Option ℚ)) (ch : Bool),
    GoodTree names v →
    (∀ u ∈ subtreeVertices v, (lookupVal vals (vkey names u)).isSome) →
    (∀ u ∈ subtreeVertices v, u.isLeaf = true →
      lookupVal vals (vkey names u) = some (some 1)) →
    (∀ u ∈ subtreeVertices v, u.isLeaf = false →
      lookupVal vals (vkey names u) = some none) →
    ∃ vals',
      List.foldl maxStep (vals, ch) (treeEntriesInit names v) =
        (vals', (ch || !v.isLeaf)) ∧
      (∀ u ∈ subtreeVertices v, lookupVal vals' (vkey names u) = some (some 1)) ∧
      (∀ k, (∀ u ∈ subtreeVertices v, k ≠ vkey names u) →
        lookupVal vals' k = lookupVal vals k) := by
  induction v using subtreeVertices.induct with
  | case1 lbl i h bl =>
    intro vals ch hg hp hl hi
    refine ⟨vals, ?_, ?_, ?_⟩
    · rw [show treeEntriesInit names (.mk lbl i h bl []) =
          [(vkey names (.mk lbl i h bl []), ⟨1, 0 + effHeight h, []⟩)] from rfl]
      rw [List.foldl_cons, List.foldl_nil]
      rw [maxStep_done _ _ _ _ 1 (hl _ (List.mem_singleton.mpr rfl) rfl)]
      rw [show (Vertex.mk lbl i h bl []).isLeaf = true from rfl]
      rw [Bool.not_true, Bool.or_false]
    · intro u hu
      have hu' : u = .mk lbl i h bl [] := List.mem_singleton.mp hu
      subst hu'
      exact hl _ (List.mem_singleton.mpr rfl) rfl
    · intro k _; rfl
  | case2 lbl i h bl c₁ c₂ rest ih₁ ih₂ =>
    intro vals ch hg hp hl hi
    cases rest with
    | cons r rs => exact False.elim hg.1
    | nil =>
      have hg₁ := goodTree_left names lbl i h bl c₁ c₂ hg
      have hg₂ := goodTree_right names lbl i h bl c₁ c₂ hg
      have hacross := vkey_ne_across names c₁ c₂ hg₁
        (goodTree_labels_disjoint names lbl i h bl c₁ c₂ hg)
      have hparent := vkey_ne_parent names lbl i h bl c₁ c₂ hg
      have hsub : subtreeVertices (.mk lbl i h bl [c₁, c₂]) =
          .mk lbl i h bl [c₁, c₂] ::
            (subtreeVertices c₁ ++ subtreeVertices c₂) := rfl
      have hmem₁ : ∀ u ∈ subtreeVertices c₁,
          u ∈ subtreeVertices (.mk lbl i h bl [c₁, c₂]) := by
        intro u hu
        rw [hsub]; exact List.mem_cons_of_mem _ (List.mem_append_left _ hu)
      have hmem₂ : ∀ u ∈ subtreeVertices c₂,
          u ∈ subtreeVertices (.mk lbl i h bl [c₁, c₂]) := by
        intro u hu
        rw [hsub]; exact List.mem_cons_of_mem _ (List.mem_append_right _ hu)
      obtain ⟨vals₁, hfold₁, hC₁, hT₁⟩ := ih₁ vals ch hg₁
        (fun u hu => hp u (hmem₁ u hu))
        (fun u hu => hl u (hmem₁ u hu))
        (fun u hu => hi u (hmem₁ u hu))
      have htrans : ∀ u ∈ subtreeVertices c₂,
          lookupVal vals₁ (vkey names u) = lookupVal vals (vkey names u) :=
        fun u hu => hT₁ _ (fun w hw => (hacross w hw u hu).symm)
      obtain ⟨vals₂, hfold₂, hC₂, hT₂⟩ := ih₂ vals₁ (ch || !c₁.isLeaf) hg₂
        (fun u hu => by rw [htrans u hu]; exact hp u (hmem₂ u hu))
        (fun u hu hleaf => by rw [htrans u hu]; exact hl u (hmem₂ u hu) hleaf)
        (fun u hu hint => by rw [htrans u hu]; exact hi u (hmem₂ u hu) hint)
      have hx₁ : lookupVal vals₂ (vkey names c₁) = some (some 1) := by
        rw [hT₂ _ (fun w hw => hacross c₁ (self_mem_subtreeVertices c₁) w hw)]
        exact hC₁ c₁ (self_mem_subtreeVertices c₁)
      have hx₂ : lookupVal vals₂ (vkey names c₂) = some (some 1) :=
        hC₂ c₂ (self_mem_subtreeVertices c₂)
      have hkc : lookupVal vals₂ (vkey names (.mk lbl i h bl [c₁, c₂])) = some none := by
        rw [hT₂ _ (fun w hw => (hparent w (List.mem_append_right _ hw)).symm)]
        rw [hT₁ _ (fun w hw => (hparent w (List.mem_append_left _ hw)).symm)]
        exact hi _ (by rw [hsub]; exact List.mem_cons_self _ _) rfl
      have hcard : ¬(vkey names (.mk lbl i h bl [c₁, c₂])).card = 1 := by
        have hlt := vkey_one_lt_card names lbl i h bl c₁ c₂ hg
        omega
      have hcc : (((⟨1, 0 + effHeight h,
          [⟨vkey names c₁, vkey names c₂, 1, effHeight h, 1, some 1⟩]⟩ : CladeD)).partitions.all
            (childrenComputed vals₂) &&
          !((⟨1, 0 + effHeight h,
            [⟨vkey names c₁, vkey names c₂, 1, effHeight h, 1, some 1⟩]⟩ : CladeD)).partitions.isEmpty) =
          true := by
        simp [childrenComputed, hx₁, hx₂]
      have hbest : bestPartitionValue vals₂
          [⟨vkey names c₁, vkey names c₂, 1, effHeight h, 1, some 1⟩] = some 1 := by
        rw [show bestPartitionValue vals₂
            [⟨vkey names c₁, vkey names c₂, 1, effHeight h, 1, some 1⟩] =
            (match partitionCandidate vals₂
              ⟨vkey names c₁, vkey names c₂, 1, effHeight h, 1, some 1⟩,
              (none : Option ℚ) with
            | none, a => a
            | some c, none => some c
            | some c, some m => if m < c then some c else some m) from rfl]
        rw [show partitionCandidate vals₂
            ⟨vkey names c₁, vkey names c₂, 1, effHeight h, 1, some 1⟩ =
            (if (some 1 : Option ℚ) = none ∨ (1 : ℚ) ≤ 0 then none
            else
              match lookupVal vals₂ (vkey names c₁), lookupVal vals₂ (vkey names c₂) with
              | some (some v₁), some (some v₂) => some ((1 : ℚ) * v₁ * v₂)
              | _, _ => none) from rfl]
        rw [if_neg (by push_neg; refine ⟨by simp, by norm_num⟩), hx₁, hx₂]
        norm_num
      refine ⟨updateVal vals₂ (vkey names (.mk lbl i h bl [c₁, c₂])) (some 1), ?_, ?_, ?_⟩
      · rw [show treeEntriesInit names (.mk lbl i h bl [c₁, c₂]) =
            (treeEntriesInit names c₁ ++ treeEntriesInit names c₂) ++
              [(vkey names (.mk lbl i h bl [c₁, c₂]),
                ⟨1, 0 + effHeight h,
                  [⟨vkey names c₁, vkey names c₂, 1, effHeight h, 1, some 1⟩]⟩)]
          from rfl]
        rw [List.foldl_append, List.foldl_append]
        rw [hfold₁, hfold₂]
        rw [List.foldl_cons, List.foldl_nil]
        rw [maxStep_compute vals₂ _ _ _ hkc hcard hcc]
        rw [show ((⟨1, 0 + effHeight h,
            [⟨vkey names c₁, vkey names c₂, 1, effHeight h, 1, some 1⟩]⟩ : CladeD)).partitions =
            [⟨vkey names c₁, vkey names c₂, 1, effHeight h, 1, some 1⟩] from rfl]
        rw [hbest]
        rw [show (Vertex.mk lbl i h bl [c₁, c₂]).isLeaf = false from rfl]
        rw [Bool.not_false, Bool.or_true]
      · intro u hu
        rw [hsub] at hu
        rcases List.mem_cons.mp hu with hu | hu
        · subst hu
          exact lookupVal_updateVal_self vals₂ _ (some 1) (by rw [hkc]; rfl)
        rcases List.mem_append.mp hu with hu | hu
        · rw [lookupVal_updateVal_ne vals₂ _ _ (some 1)
            (hparent u (List.mem_append_left _ hu))]
          rw [hT₂ _ (fun w hw => hacross u hu w hw)]
          exact hC₁ u hu
        · rw [lookupVal_updateVal_ne vals₂ _ _ (some 1)
            (hparent u (List.mem_append_right _ hu))]
          exact hC₂ u hu
      · intro k hk
        rw [lookupVal_updateVal_ne vals₂ _ _ (some 1)
          (hk _ (by rw [hsub]; exact List.mem_cons_self _ _))]
        rw [hT₂ _ (fun w hw => hk w (hmem₂ w hw))]
        exact hT₁ _ (fun w hw => hk w (hmem₁ w hw))
  | case3 lbl i h bl c =>
    intro vals ch hg
    exact False.elim hg.1

theorem lookupClade_isSome_of_mem (cl : List (Finset ℕ × CladeD)) (k : Finset ℕ)
    (c : CladeD) (h : (k, c) ∈ cl) : (lookupClade cl k).isSome := by
  induction cl with
  | nil => simp at h
  | cons e rest ih =>
    obtain ⟨k₀, c₀⟩ := e
    unfold lookupClade
    by_cases hk : k₀ = k
    · rw [if_pos hk]; rfl
    · rw [if_neg hk]
      rcases List.mem_cons.mp h with h' | h'
      · exact absurd (congrArg Prod.fst h').symm hk
      · exact ih h'

theorem mem_treeEntriesInit (names : List String) (w : Vertex) :
    w.Binary → ∀ u ∈ subtreeVertices w,
      (vkey names u, initCladeOf names u) ∈ treeEntriesInit names w := by
  induction w using subtreeVertices.induct with
  | case1 lbl i h bl =>
    intro _ u hu
    have hu' : u = .mk lbl i h bl [] := List.mem_singleton.mp hu
    subst hu'
    exact List.mem_singleton.mpr rfl
  | case2 lbl i h bl c₁ c₂ rest ih₁ ih₂ =>
    intro hb u hu
    cases rest with
    | cons r rs => exact False.elim hb
    | nil =>
      rw [show treeEntriesInit names (.mk lbl i h bl [c₁, c₂]) =
          (treeEntriesInit names c₁ ++ treeEntriesInit names c₂) ++
            [(vkey names (.mk lbl i h bl [c₁, c₂]),
              ⟨1, 0 + effHeight h,
                [⟨vkey names c₁, vkey names c₂, 1, effHeight h, 1, some 1⟩]⟩)]
        from rfl]
      rcases List.mem_cons.mp hu with hu | hu
      · subst hu
        exact List.mem_append_right _ (List.mem_singleton.mpr rfl)
      rcases List.mem_append.mp hu with hu | hu
      · exact List.mem_append_left _ (List.mem_append_left _ (ih₁ hb.1 u hu))
      · exact List.mem_append_left _ (List.mem_append_right _ (ih₂ hb.2 u hu))
  | case3 lbl i h bl c =>
    intro hb
    exact False.elim hb

theorem treeEntriesInit_length_pos (names : List String) (w : Vertex)
    (hb : w.Binary) : 0 < (treeEntriesInit names w).length := by
  cases w with
  | mk lbl i h bl cs =>
    cases cs with
    | nil => exact Nat.zero_lt_one
    | cons c₁ cs₂ =>
      cases cs₂ with
      | nil => exact False.elim hb
      | cons c₂ rest =>
        rw [show treeEntriesInit names (.mk lbl i h bl (c₁ :: c₂ :: rest)) =
            treeEntriesInit names c₁ ++ treeEntriesInit names c₂ ++
              [(vkey names (.mk lbl i h bl (c₁ :: c₂ :: rest)),
                ⟨1, 0 + effHeight h,
                  [⟨vkey names c₁, vkey names c₂, 1, effHeight h, 1, some 1⟩]⟩)]
          from rfl]
        simp

theorem isLeaf_of_card_one (names : List String) (u : Vertex)
    (hg : GoodTree names u) (hcard : (vkey names u).card = 1) :
    u.isLeaf = true := by
  cases u with
  | mk lbl i h bl cs =>
    cases cs with
    | nil => rfl
    | cons c₁ cs₂ =>
      cases cs₂ with
      | nil => exact False.elim hg.1
      | cons c₂ rest =>
        cases rest with
        | cons r rs => exact False.elim hg.1
        | nil =>
          have := vkey_one_lt_card names lbl i h bl c₁ c₂ hg
          omega

theorem card_ne_one_of_not_leaf (names : List String) (u : Vertex)
    (hg : GoodTree names u) (hleaf : u.isLeaf = false) :
    ¬(vkey names u).card = 1 := by
  cases u with
  | mk lbl i h bl cs =>
    cases cs with
    | nil => exact Bool.noConfusion hleaf
    | cons c₁ cs₂ =>
      cases cs₂ with
      | nil => exact False.elim hg.1
      | cons c₂ rest =>
        cases rest with
        | cons r rs => exact False.elim hg.1
        | nil =>
          have := vkey_one_lt_card names lbl i h bl c₁ c₂ hg
          omega

theorem maxLoop_two (cl : List (Finset ℕ × CladeD)) (fuel : ℕ)
    (vals vals₁ : List (Finset ℕ × Option ℚ)) (h2 : 2 ≤ fuel)
    (hp1 : maxPass cl vals = (vals₁, true))
    (hp2 : maxPass cl vals₁ = (vals₁, false)) :
    maxLoop cl fuel vals = vals₁ := by
  obtain ⟨f, rfl⟩ : ∃ f, fuel = f + 2 := ⟨fuel - 2, by omega⟩
  rw [show maxLoop cl (f + 2) vals =
      (match maxPass cl vals with
      | (v', ch) => if ch then maxLoop cl (f + 1) v' else v') from rfl, hp1]
  show maxLoop cl (f + 1) vals₁ = vals₁
  rw [show maxLoop cl (f + 1) vals₁ =
      (match maxPass cl vals₁ with
      | (v', ch) => if ch then maxLoop cl f v' else v') from rfl, hp2]
  rfl

theorem maxLoop_three (cl : List (Finset ℕ × CladeD)) (fuel : ℕ)
    (vals vals₁ vals₂ : List (Finset ℕ × Option ℚ)) (h3 : 3 ≤ fuel)
    (hp1 : maxPass cl vals = (vals₁, true))
    (hp2 : maxPass cl vals₁ = (vals₂, true))
    (hp3 : maxPass cl vals₂ = (vals₂, false)) :
    maxLoop cl fuel vals = vals₂ := by
  obtain ⟨f, rfl⟩ : ∃ f, fuel = f + 3 := ⟨fuel - 3, by omega⟩
  rw [show maxLoop cl (f + 3) vals =
      (match maxPass cl vals with
      | (v', ch) => if ch then maxLoop cl (f + 2) v' else v') from rfl, hp1]
  show maxLoop cl (f + 2) vals₁ = vals₂
  exact maxLoop_two cl (f + 2) vals₁ vals₂ (by omega) hp2 hp3

theorem vkey_card_of_leaf (names : List String) (u : Vertex)
    (hg : GoodTree names u) (hleaf : u.isLeaf = true) :
    (vkey names u).card = 1 := by
  cases u with
  | mk lbl i h bl cs =>
    cases cs with
    | nil =>
      exact vkey_card_leaf names lbl i h bl
        (hg.2.1 _ (List.mem_singleton.mpr rfl))
    | cons c₁ cs₂ => exact Bool.noConfusion hleaf

theorem subtreeVertices_of_leaf (u : Vertex) (hleaf : u.isLeaf = true) :
    subtreeVertices u = [u] := by
  cases u with
  | mk lbl i h bl cs =>
    cases cs with
    | nil => rfl
    | cons c₁ cs₂ => exact Bool.noConfusion hleaf

theorem treeEntriesInit_keys (names : List String) (w : Vertex) :
    ∀ kc ∈ treeEntriesInit names w, ∃ u ∈ subtreeVertices w, kc.1 = vkey names u := by
  intro kc hkc
  rw [← map_initializeClade_treeEntries] at hkc
  obtain ⟨kc₀, hkc₀, hmap⟩ := List.mem_map.mp hkc
  obtain ⟨u, hu, hku⟩ := treeEntries_keys names w kc₀ hkc₀
  exact ⟨u, hu, by rw [← hmap]; exact hku⟩

/-- The complete relaxation loop on the initialized single-tree mapping
of an internal root: the root clade's `maxSubtreeCCP` ends at `some 1`
(log 0). -/
theorem maxLoop_root_run (names : List String) (lbl : Option String) (i : ℕ)
    (h bl : Option ℚ) (c₁ c₂ : Vertex)
    (hg : GoodTree names (Vertex.mk lbl i h bl [c₁, c₂]))
    (cl : List (Finset ℕ × CladeD)) (vals₀ : List (Finset ℕ × Option ℚ))
    (hshape : cl = (vkey names (Vertex.mk lbl i h bl [c₁, c₂]),
        ⟨1, 0 + effHeight h,
          [⟨vkey names c₁, vkey names c₂, 1, effHeight h, 1, some 1⟩]⟩)
        :: (treeEntriesInit names c₁ ++ treeEntriesInit names c₂))
    (hrootval : lookupVal vals₀ (vkey names (Vertex.mk lbl i h bl [c₁, c₂])) =
      some none)
    (hp₀ : ∀ u ∈ subtreeVertices c₁ ++ subtreeVertices c₂,
      (lookupVal vals₀ (vkey names u)).isSome)
    (hl₀ : ∀ u ∈ subtreeVertices c₁ ++ subtreeVertices c₂, u.isLeaf = true →
      lookupVal vals₀ (vkey names u) = some (some 1))
    (hi₀ : ∀ u ∈ subtreeVertices c₁ ++ subtreeVertices c₂, u.isLeaf = false →
      lookupVal vals₀ (vkey names u) = some none) :
    (lookupVal (maxLoop cl cl.length vals₀)
      (vkey names (Vertex.mk lbl i h bl [c₁, c₂]))).join = some 1 := by
  subst hshape
  have hg₁ := goodTree_left names lbl i h bl c₁ c₂ hg
  have hg₂ := goodTree_right names lbl i h bl c₁ c₂ hg
  have hacross := vkey_ne_across names c₁ c₂ hg₁
    (goodTree_labels_disjoint names lbl i h bl c₁ c₂ hg)
  have hparent := vkey_ne_parent names lbl i h bl c₁ c₂ hg
  have hcardv : ¬(vkey names (Vertex.mk lbl i h bl [c₁, c₂])).card = 1 :=
    card_ne_one_of_not_leaf names _ hg rfl
  have hlen₁ := treeEntriesInit_length_pos names c₁ hg₁.1
  have hlen₂ := treeEntriesInit_length_pos names c₂ hg₂.1
  have hfuel : 3 ≤ ((vkey names (Vertex.mk lbl i h bl [c₁, c₂]),
      (⟨1, 0 + effHeight h,
        [⟨vkey names c₁, vkey names c₂, 1, effHeight h, 1, some 1⟩]⟩ : CladeD))
      :: (treeEntriesInit names c₁ ++ treeEntriesInit names c₂)).length := by
    simp only [List.length_cons, List.length_append]
    omega
  have htailkeys : ∀ kc ∈ treeEntriesInit names c₁ ++ treeEntriesInit names c₂,
      ∃ u ∈ subtreeVertices c₁ ++ subtreeVertices c₂, kc.1 = vkey names u := by
    intro kc hkc
    rcases List.mem_append.mp hkc with hkc | hkc
    · obtain ⟨u, hu, hku⟩ := treeEntriesInit_keys names c₁ kc hkc
      exact ⟨u, List.mem_append_left _ hu, hku⟩
    · obtain ⟨u, hu, hku⟩ := treeEntriesInit_keys names c₂ kc hkc
      exact ⟨u, List.mem_append_right _ hu, hku⟩
  by_cases hll : (c₁.isLeaf && c₂.isLeaf) = true
  · rw [Bool.and_eq_true] at hll
    obtain ⟨hleaf₁, hleaf₂⟩ := hll
    have hx₁ : lookupVal vals₀ (vkey names c₁) = some (some 1) :=
      hl₀ c₁ (List.mem_append_left _ (self_mem_subtreeVertices c₁)) hleaf₁
    have hx₂ : lookupVal vals₀ (vkey names c₂) = some (some 1) :=
      hl₀ c₂ (List.mem_append_right _ (self_mem_subtreeVertices c₂)) hleaf₂
    have hcc : (((⟨1, 0 + effHeight h,
        [⟨vkey names c₁, vkey names c₂, 1, effHeight h, 1, some 1⟩]⟩ : CladeD)).partitions.all
          (childrenComputed vals₀) &&
        !((⟨1, 0 + effHeight h,
          [⟨vkey names c₁, vkey names c₂, 1, effHeight h, 1, some 1⟩]⟩ : CladeD)).partitions.isEmpty) =
        true := by
      simp [childrenComputed, hx₁, hx₂]
    have hbest : bestPartitionValue vals₀
        [⟨vkey names c₁, vkey names c₂, 1, effHeight h, 1, some 1⟩] = some 1 := by
      rw [show bestPartitionValue vals₀
          [⟨vkey names c₁, vkey names c₂, 1, effHeight h, 1, some 1⟩] =
          (match partitionCandidate vals₀
            ⟨vkey names c₁, vkey names c₂, 1, effHeight h, 1, some 1⟩,
            (none : Option ℚ) with
          | none, a => a
          | some c, none => some c
          | some c, some m => if m < c then some c else some m) from rfl]
      rw [show partitionCandidate vals₀
          ⟨vkey names c₁, vkey names c₂, 1, effHeight h, 1, some 1⟩ =
          (if (some 1 : Option ℚ) = none ∨ (1 : ℚ) ≤ 0 then none
          else
            match lookupVal vals₀ (vkey names c₁), lookupVal vals₀ (vkey names c₂) with
            | some (some v₁), some (some v₂) => some ((1 : ℚ) * v₁ * v₂)
            | _, _ => none) from rfl]
      rw [if_neg (by push_neg; refine ⟨by simp, by norm_num⟩), hx₁, hx₂]
      norm_num
    have hstepA : maxStep (vals₀, false)
        (vkey names (Vertex.mk lbl i h bl [c₁, c₂]),
          ⟨1, 0 + effHeight h,
            [⟨vkey names c₁, vkey names c₂, 1, effHeight h, 1, some 1⟩]⟩) =
        (updateVal vals₀ (vkey names (Vertex.mk lbl i h bl [c₁, c₂])) (some 1), true) := by
      rw [maxStep_compute vals₀ false _ _ hrootval hcardv hcc]
      rw [show ((⟨1, 0 + effHeight h,
          [⟨vkey names c₁, vkey names c₂, 1, effHeight h, 1, some 1⟩]⟩ : CladeD)).partitions =
          [⟨vkey names c₁, vkey names c₂, 1, effHeight h, 1, some 1⟩] from rfl]
      rw [hbest]
    have hdone₁ : ∀ kc ∈ treeEntriesInit names c₁ ++ treeEntriesInit names c₂,
        ∃ q, lookupVal
          (updateVal vals₀ (vkey names (Vertex.mk lbl i h bl [c₁, c₂])) (some 1))
          kc.1 = some (some q) := by
      intro kc hkc
      obtain ⟨u, hu, hku⟩ := htailkeys kc hkc
      rw [hku, lookupVal_updateVal_ne vals₀ _ _ _ (hparent u hu)]
      have huleaf : u.isLeaf = true := by
        rcases List.mem_append.mp hu with hu' | hu'
        · rw [subtreeVertices_of_leaf c₁ hleaf₁] at hu'
          rw [List.mem_singleton.mp hu']
          exact hleaf₁
        · rw [subtreeVertices_of_leaf c₂ hleaf₂] at hu'
          rw [List.mem_singleton.mp hu']
          exact hleaf₂
      exact ⟨1, hl₀ u hu huleaf⟩
    have hpass1 : maxPass
        ((vkey names (Vertex.mk lbl i h bl [c₁, c₂]),
          ⟨1, 0 + effHeight h,
            [⟨vkey names c₁, vkey names c₂, 1, effHeight h, 1, some 1⟩]⟩)
          :: (treeEntriesInit names c₁ ++ treeEntriesInit names c₂)) vals₀ =
        (updateVal vals₀ (vkey names (Vertex.mk lbl i h bl [c₁, c₂])) (some 1), true) := by
      unfold maxPass
      rw [List.foldl_cons, hstepA]
      exact foldl_maxStep_done _ _ _ hdone₁
    have hdoneCL : ∀ kc ∈ (vkey names (Vertex.mk lbl i h bl [c₁, c₂]),
        (⟨1, 0 + effHeight h,
          [⟨vkey names c₁, vkey names c₂, 1, effHeight h, 1, some 1⟩]⟩ : CladeD))
        :: (treeEntriesInit names c₁ ++ treeEntriesInit names c₂),
        ∃ q, lookupVal
          (updateVal vals₀ (vkey names (Vertex.mk lbl i h bl [c₁, c₂])) (some 1))
          kc.1 = some (some q) := by
      intro kc hkc
      rcases List.mem_cons.mp hkc with hkc | hkc
      · refine ⟨1, ?_⟩
        rw [show kc.1 = vkey names (Vertex.mk lbl i h bl [c₁, c₂]) from by rw [hkc]]
        exact lookupVal_updateVal_self vals₀ _ (some 1) (by rw [hrootval]; rfl)
      · exact hdone₁ kc hkc
    have hpass2 : maxPass
        ((vkey names (Vertex.mk lbl i h bl [c₁, c₂]),
          ⟨1, 0 + effHeight h,
            [⟨vkey names c₁, vkey names c₂, 1, effHeight h, 1, some 1⟩]⟩)
          :: (treeEntriesInit names c₁ ++ treeEntriesInit names c₂))
        (updateVal vals₀ (vkey names (Vertex.mk lbl i h bl [c₁, c₂])) (some 1)) =
        (updateVal vals₀ (vkey names (Vertex.mk lbl i h bl [c₁, c₂])) (some 1), false) := by
      unfold maxPass
      exact foldl_maxStep_done _ _ _ hdoneCL
    rw [maxLoop_two _ _ vals₀ _ (by omega) hpass1 hpass2]
    rw [lookupVal_updateVal_self vals₀ _ (some 1) (by rw [hrootval]; rfl)]
    rfl
  · have hor : c₁.isLeaf = false ∨ c₂.isLeaf = false := by
      revert hll
      cases h1 : c₁.isLeaf <;> cases h2 : c₂.isLeaf <;> simp
    have hccB : (((⟨1, 0 + effHeight h,
        [⟨vkey names c₁, vkey names c₂, 1, effHeight h, 1, some 1⟩]⟩ : CladeD)).partitions.all
          (childrenComputed vals₀) &&
        !((⟨1, 0 + effHeight h,
          [⟨vkey names c₁, vkey names c₂, 1, effHeight h, 1, some 1⟩]⟩ : CladeD)).partitions.isEmpty) =
        false := by
      rcases hor with h1 | h2
      · simp [childrenComputed,
          hi₀ c₁ (List.mem_append_left _ (self_mem_subtreeVertices c₁)) h1]
      · simp [childrenComputed,
          hi₀ c₂ (List.mem_append_right _ (self_mem_subtreeVertices c₂)) h2]
    have hstepB : maxStep (vals₀, false)
        (vkey names (Vertex.mk lbl i h bl [c₁, c₂]),
          ⟨1, 0 + effHeight h,
            [⟨vkey names c₁, vkey names c₂, 1, effHeight h, 1, some 1⟩]⟩) =
        (vals₀, false) :=
      maxStep_blocked vals₀ false _ _ hrootval hcardv hccB
    obtain ⟨vals₁, hfold₁, hC₁, hT₁⟩ := maxPass_segment names c₁ vals₀ false hg₁
      (fun u hu => hp₀ u (List.mem_append_left _ hu))
      (fun u hu hx => hl₀ u (List.mem_append_left _ hu) hx)
      (fun u hu hx => hi₀ u (List.mem_append_left _ hu) hx)
    have htrans : ∀ u ∈ subtreeVertices c₂,
        lookupVal vals₁ (vkey names u) = lookupVal vals₀ (vkey names u) :=
      fun u hu => hT₁ _ (fun w hw => (hacross w hw u hu).symm)
    obtain ⟨vals₂, hfold₂, hC₂, hT₂⟩ := maxPass_segment names c₂ vals₁
      (false || !c₁.isLeaf) hg₂
      (fun u hu => by rw [htrans u hu]; exact hp₀ u (List.mem_append_right _ hu))
      (fun u hu hx => by rw [htrans u hu]; exact hl₀ u (List.mem_append_right _ hu) hx)
      (fun u hu hx => by rw [htrans u hu]; exact hi₀ u (List.mem_append_right _ hu) hx)
    have hboolB : ((false || !c₁.isLeaf) || !c₂.isLeaf) = true := by
      rcases hor with h1 | h2
      · rw [h1]; simp
      · rw [h2]; simp
    have hpass1 : maxPass
        ((vkey names (Vertex.mk lbl i h bl [c₁, c₂]),
          ⟨1, 0 + effHeight h,
            [⟨vkey names c₁, vkey names c₂, 1, effHeight h, 1, some 1⟩]⟩)
          :: (treeEntriesInit names c₁ ++ treeEntriesInit names c₂)) vals₀ =
        (vals₂, true) := by
      unfold maxPass
      rw [List.foldl_cons, hstepB, List.foldl_append, hfold₁, hfold₂, hboolB]
    have hrootval₂ :
        lookupVal vals₂ (vkey names (Vertex.mk lbl i h bl [c₁, c₂])) = some none := by
      rw [hT₂ _ (fun w hw => (hparent w (List.mem_append_right _ hw)).symm)]
      rw [hT₁ _ (fun w hw => (hparent w (List.mem_append_left _ hw)).symm)]
      exact hrootval
    have hx₁ : lookupVal vals₂ (vkey names c₁) = some (some 1) := by
      rw [hT₂ _ (fun w hw => hacross c₁ (self_mem_subtreeVertices c₁) w hw)]
      exact hC₁ c₁ (self_mem_subtreeVertices c₁)
    have hx₂ : lookupVal vals₂ (vkey names c₂) = some (some 1) :=
      hC₂ c₂ (self_mem_subtreeVertices c₂)
    have hcc₂ : (((⟨1, 0 + effHeight h,
        [⟨vkey names c₁, vkey names c₂, 1, effHeight h, 1, some 1⟩]⟩ : CladeD)).partitions.all
          (childrenComputed vals₂) &&
        !((⟨1, 0 + effHeight h,
          [⟨vkey names c₁, vkey names c₂, 1, effHeight h, 1, some 1⟩]⟩ : CladeD)).partitions.isEmpty) =
        true := by
      simp [childrenComputed, hx₁, hx₂]
    have hbest₂ : bestPartitionValue vals₂
        [⟨vkey names c₁, vkey names c₂, 1, effHeight h, 1, some 1⟩] = some 1 := by
      rw [show bestPartitionValue vals₂
          [⟨vkey names c₁, vkey names c₂, 1, effHeight h, 1, some 1⟩] =
          (match partitionCandidate vals₂
            ⟨vkey names c₁, vkey names c₂, 1, effHeight h, 1, some 1⟩,
            (none : Option ℚ) with
          | none, a => a
          | some c, none => some c
          | some c, some m => if m < c then some c else some m) from rfl]
      rw [show partitionCandidate vals₂
          ⟨vkey names c₁, vkey names c₂, 1, effHeight h, 1, some 1⟩ =
          (if (some 1 : Option ℚ) = none ∨ (1 : ℚ) ≤ 0 then none
          else
            match lookupVal vals₂ (vkey names c₁), lookupVal vals₂ (vkey names c₂) with
            | some (some v₁), some (some v₂) => some ((1 : ℚ) * v₁ * v₂)
            | _, _ => none) from rfl]
      rw [if_neg (by push_neg; refine ⟨by simp, by norm_num⟩), hx₁, hx₂]
      norm_num
    have hstep₂ : maxStep (vals₂, false)
        (vkey names (Vertex.mk lbl i h bl [c₁, c₂]),
          ⟨1, 0 + effHeight h,
            [⟨vkey names c₁, vkey names c₂, 1, effHeight h, 1, some 1⟩]⟩) =
        (updateVal vals₂ (vkey names (Vertex.mk lbl i h bl [c₁, c₂])) (some 1), true) := by
      rw [maxStep_compute vals₂ false _ _ hrootval₂ hcardv hcc₂]
      rw [show ((⟨1, 0 + effHeight h,
          [⟨vkey names c₁, vkey names c₂, 1, effHeight h, 1, some 1⟩]⟩ : CladeD)).partitions =
          [⟨vkey names c₁, vkey names c₂, 1, effHeight h, 1, some 1⟩] from rfl]
      rw [hbest₂]
    have hdone₂ : ∀ kc ∈ treeEntriesInit names c₁ ++ treeEntriesInit names c₂,
        ∃ q, lookupVal
          (updateVal vals₂ (vkey names (Vertex.mk lbl i h bl [c₁, c₂])) (some 1))
          kc.1 = some (some q) := by
      intro kc hkc
      obtain ⟨u, hu, hku⟩ := htailkeys kc hkc
      rw [hku, lookupVal_updateVal_ne vals₂ _ _ _ (hparent u hu)]
      rcases List.mem_append.mp hu with hu' | hu'
      · refine ⟨1, ?_⟩
        rw [hT₂ _ (fun w hw => hacross u hu' w hw)]
        exact hC₁ u hu'
      · exact ⟨1, hC₂ u hu'⟩
    have hpass2 : maxPass
        ((vkey names (Vertex.mk lbl i h bl [c₁, c₂]),
          ⟨1, 0 + effHeight h,
            [⟨vkey names c₁, vkey names c₂, 1, effHeight h, 1, some 1⟩]⟩)
          :: (treeEntriesInit names c₁ ++ treeEntriesInit names c₂)) vals₂ =
        (updateVal vals₂ (vkey names (Vertex.mk lbl i h bl [c₁, c₂])) (some 1), true) := by
      unfold maxPass
      rw [List.foldl_cons, hstep₂]
      exact foldl_maxStep_done _ _ _ hdone₂
    have hdoneCL : ∀ kc ∈ (vkey names (Vertex.mk lbl i h bl [c₁, c₂]),
        (⟨1, 0 + effHeight h,
          [⟨vkey names c₁, vkey names c₂, 1, effHeight h, 1, some 1⟩]⟩ : CladeD))
        :: (treeEntriesInit names c₁ ++ treeEntriesInit names c₂),
        ∃ q, lookupVal
          (updateVal vals₂ (vkey names (Vertex.mk lbl i h bl [c₁, c₂])) (some 1))
          kc.1 = some (some q) := by
      intro kc hkc
      rcases List.mem_cons.mp hkc with hkc | hkc
      · refine ⟨1, ?_⟩
        rw [show kc.1 = vkey names (Vertex.mk lbl i h bl [c₁, c₂]) from by rw [hkc]]
        exact lookupVal_updateVal_self vals₂ _ (some 1) (by rw [hrootval₂]; rfl)
      · exact hdone₂ kc hkc
    have hpass3 : maxPass
        ((vkey names (Vertex.mk lbl i h bl [c₁, c₂]),
          ⟨1, 0 + effHeight h,
            [⟨vkey names c₁, vkey names c₂, 1, effHeight h, 1, some 1⟩]⟩)
          :: (treeEntriesInit names c₁ ++ treeEntriesInit names c₂))
        (updateVal vals₂ (vkey names (Vertex.mk lbl i h bl [c₁, c₂])) (some 1)) =
        (updateVal vals₂ (vkey names (Vertex.mk lbl i h bl [c₁, c₂])) (some 1), false) := by
      unfold maxPass
      exact foldl_maxStep_done _ _ _ hdoneCL
    rw [maxLoop_three _ _ vals₀ vals₂ _ hfuel hpass1 hpass2 hpass3]
    rw [lookupVal_updateVal_self vals₂ _ (some 1) (by rw [hrootval₂]; rfl)]
    rfl

/-- `getMaxLogTreeProbability` on the single-tree CCD state is `some 1`
(a log probability of zero). -/
theorem getMaxLog_single (names : List String) (v : Vertex) (s : CCDState)
    (hg : GoodTree names v)
    (hclades : s.clades = rootEntriesInit names v)
    (hroot : vkey names v = Finset.range s.leafArraySize) :
    s.getMaxLogTreeProbability = some 1 := by
  have hunf : s.getMaxLogTreeProbability =
      (lookupVal (maxLoop s.clades s.clades.length (initMaxVals s.clades))
        (Finset.range s.leafArraySize)).join := rfl
  rw [hunf, hclades, ← hroot]
  cases v with
  | mk lbl i h bl cs =>
    cases cs with
    | nil =>
      rw [show rootEntriesInit names (.mk lbl i h bl []) =
          [(vkey names (.mk lbl i h bl []), ⟨1, 0 + effHeight h, []⟩)] from rfl]
      have hcard := vkey_card_of_leaf names (.mk lbl i h bl []) hg rfl
      have hlook₀ : lookupVal
          (initMaxVals [(vkey names (.mk lbl i h bl []), ⟨1, 0 + effHeight h, []⟩)])
          (vkey names (.mk lbl i h bl [])) = some (some 1) := by
        rw [lookupVal_initMaxVals]
        rw [if_pos (by unfold lookupClade; rw [if_pos rfl]; rfl)]
        rw [if_pos hcard]
      have hpass : maxPass
          [(vkey names (.mk lbl i h bl []), ⟨1, 0 + effHeight h, []⟩)]
          (initMaxVals [(vkey names (.mk lbl i h bl []), ⟨1, 0 + effHeight h, []⟩)]) =
          (initMaxVals [(vkey names (.mk lbl i h bl []), ⟨1, 0 + effHeight h, []⟩)],
            false) := by
        unfold maxPass
        refine foldl_maxStep_done _ _ _ ?_
        intro kc hkc
        rw [show kc.1 = vkey names (.mk lbl i h bl []) from
          by rw [List.mem_singleton.mp hkc]]
        exact ⟨1, hlook₀⟩
      rw [show ([(vkey names (.mk lbl i h bl []),
          (⟨1, 0 + effHeight h, []⟩ : CladeD))]).length = 1 from rfl]
      rw [show maxLoop
          [(vkey names (.mk lbl i h bl []), (⟨1, 0 + effHeight h, []⟩ : CladeD))] 1
          (initMaxVals [(vkey names (.mk lbl i h bl []), ⟨1, 0 + effHeight h, []⟩)]) =
          (match maxPass
            [(vkey names (.mk lbl i h bl []), (⟨1, 0 + effHeight h, []⟩ : CladeD))]
            (initMaxVals
              [(vkey names (.mk lbl i h bl []), ⟨1, 0 + effHeight h, []⟩)]) with
          | (v', ch) => if ch then maxLoop
              [(vkey names (.mk lbl i h bl []), (⟨1, 0 + effHeight h, []⟩ : CladeD))]
              0 v' else v') from rfl, hpass]
      show (lookupVal
        (initMaxVals [(vkey names (.mk lbl i h bl []), ⟨1, 0 + effHeight h, []⟩)])
        (vkey names (.mk lbl i h bl []))).join = some 1
      rw [hlook₀]
      rfl
    | cons c₁ cs₂ =>
      cases cs₂ with
      | nil => exact False.elim hg.1
      | cons c₂ rest =>
        cases rest with
        | cons r rs => exact False.elim hg.1
        | nil =>
          have hg₁ := goodTree_left names lbl i h bl c₁ c₂ hg
          have hg₂ := goodTree_right names lbl i h bl c₁ c₂ hg
          have hcardv : ¬(vkey names (Vertex.mk lbl i h bl [c₁, c₂])).card = 1 :=
            card_ne_one_of_not_leaf names _ hg rfl
          have hgu : ∀ u ∈ subtreeVertices c₁ ++ subtreeVertices c₂,
              GoodTree names u := by
            intro u hu
            rcases List.mem_append.mp hu with hu | hu
            · exact goodTree_of_mem_subtree names c₁ hg₁ u hu
            · exact goodTree_of_mem_subtree names c₂ hg₂ u hu
          have hpres : ∀ u ∈ subtreeVertices c₁ ++ subtreeVertices c₂,
              (lookupClade (rootEntriesInit names (Vertex.mk lbl i h bl [c₁, c₂]))
                (vkey names u)).isSome := by
            intro u hu
            refine lookupClade_isSome_of_mem _ _ (initCladeOf names u) ?_
            rw [show rootEntriesInit names (Vertex.mk lbl i h bl [c₁, c₂]) =
                (vkey names (Vertex.mk lbl i h bl [c₁, c₂]),
                  ⟨1, 0 + effHeight h,
                    [⟨vkey names c₁, vkey names c₂, 1, effHeight h, 1, some 1⟩]⟩)
                  :: (treeEntriesInit names c₁ ++ treeEntriesInit names c₂) from rfl]
            rcases List.mem_append.mp hu with hu | hu
            · exact List.mem_cons_of_mem _
                (List.mem_append_left _ (mem_treeEntriesInit names c₁ hg₁.1 u hu))
            · exact List.mem_cons_of_mem _
                (List.mem_append_right _ (mem_treeEntriesInit names c₂ hg₂.1 u hu))
          have hval₀ : ∀ u ∈ subtreeVertices c₁ ++ subtreeVertices c₂,
              lookupVal
                (initMaxVals (rootEntriesInit names (Vertex.mk lbl i h bl [c₁, c₂])))
                (vkey names u) =
                some (if (vkey names u).card = 1 then some 1 else none) := by
            intro u hu
            rw [lookupVal_initMaxVals, if_pos (hpres u hu)]
          have hrootval : lookupVal
              (initMaxVals (rootEntriesInit names (Vertex.mk lbl i h bl [c₁, c₂])))
              (vkey names (Vertex.mk lbl i h bl [c₁, c₂])) = some none := by
            rw [lookupVal_initMaxVals]
            rw [if_pos (by
              rw [show rootEntriesInit names (Vertex.mk lbl i h bl [c₁, c₂]) =
                  (vkey names (Vertex.mk lbl i h bl [c₁, c₂]),
                    ⟨1, 0 + effHeight h,
                      [⟨vkey names c₁, vkey names c₂, 1, effHeight h, 1, some 1⟩]⟩)
                    :: (treeEntriesInit names c₁ ++ treeEntriesInit names c₂)
                from rfl]
              unfold lookupClade
              rw [if_pos rfl]
              rfl)]
            rw [if_neg hcardv]
          exact maxLoop_root_run names lbl i h bl c₁ c₂ hg _ _ rfl hrootval
            (fun u hu => by rw [hval₀ u hu]; rfl)
            (fun u hu hx => by
              rw [hval₀ u hu, if_pos (vkey_card_of_leaf names u (hgu u hu) hx)])
            (fun u hu hx => by
              rw [hval₀ u hu, if_neg (card_ne_one_of_not_leaf names u (hgu u hu) hx)])

/-! ## Per-tree log probability on the single-tree CCD -/

theorem treeEntriesInit_keys_nodup (names : List String) (w : Vertex)
    (hg : GoodTree names w) :
    ((treeEntriesInit names w).map (·.1)).Nodup := by
  rw [← map_initializeClade_treeEntries, List.map_map]
  exact treeEntries_keys_nodup names w hg

theorem rootEntriesInit_keys_nodup (names : List String) (v : Vertex)
    (hg : GoodTree names v) :
    ((rootEntriesInit names v).map (·.1)).Nodup := by
  cases v with
  | mk lbl i h bl cs =>
    cases cs with
    | nil => simp [rootEntriesInit]
    | cons c₁ cs₂ =>
      cases cs₂ with
      | nil => exact False.elim hg.1
      | cons c₂ rest =>
        cases rest with
        | cons r rs => exact False.elim hg.1
        | nil =>
          have hg₁ := goodTree_left names lbl i h bl c₁ c₂ hg
          have hg₂ := goodTree_right names lbl i h bl c₁ c₂ hg
          have hacross := vkey_ne_across names c₁ c₂ hg₁
            (goodTree_labels_disjoint names lbl i h bl c₁ c₂ hg)
          have hparent := vkey_ne_parent names lbl i h bl c₁ c₂ hg
          rw [show rootEntriesInit names (Vertex.mk lbl i h bl [c₁, c₂]) =
              (vkey names (Vertex.mk lbl i h bl [c₁, c₂]),
                ⟨1, 0 + effHeight h,
                  [⟨vkey names c₁, vkey names c₂, 1, effHeight h, 1, some 1⟩]⟩)
                :: (treeEntriesInit names c₁ ++ treeEntriesInit names c₂) from rfl]
          rw [List.map_cons, List.nodup_cons]
          constructor
          · intro hmem
            rw [List.map_append, List.mem_append] at hmem
            rcases hmem with hmem | hmem
            · obtain ⟨kc, hkc, hfst⟩ := List.mem_map.mp hmem
              obtain ⟨u, hu, hku⟩ := treeEntriesInit_keys names c₁ kc hkc
              exact hparent u (List.mem_append_left _ hu) (by rw [← hku, hfst])
            · obtain ⟨kc, hkc, hfst⟩ := List.mem_map.mp hmem
              obtain ⟨u, hu, hku⟩ := treeEntriesInit_keys names c₂ kc hkc
              exact hparent u (List.mem_append_right _ hu) (by rw [← hku, hfst])
          · rw [List.map_append]
            refine List.nodup_append.mpr
              ⟨treeEntriesInit_keys_nodup names c₁ hg₁,
               treeEntriesInit_keys_nodup names c₂ hg₂, ?_⟩
            intro k hk₁ hk₂
            obtain ⟨kc, hkc, hfst⟩ := List.mem_map.mp hk₁
            obtain ⟨u, hu, hku⟩ := treeEntriesInit_keys names c₁ kc hkc
            obtain ⟨kc', hkc', hfst'⟩ := List.mem_map.mp hk₂
            obtain ⟨w, hw, hkw⟩ := treeEntriesInit_keys names c₂ kc' hkc'
            exact hacross u hu w hw (by rw [← hku, hfst, ← hfst', hkw])

theorem mem_rootEntriesInit (names : List String) (v : Vertex)
    (hg : GoodTree names v) :
    ∀ u ∈ subtreeVertices v,
      (vkey names u, initCladeOf names u) ∈ rootEntriesInit names v := by
  cases v with
  | mk lbl i h bl cs =>
    cases cs with
    | nil =>
      intro u hu
      have hu' : u = .mk lbl i h bl [] := List.mem_singleton.mp hu
      subst hu'
      exact List.mem_singleton.mpr rfl
    | cons c₁ cs₂ =>
      cases cs₂ with
      | nil => exact False.elim hg.1
      | cons c₂ rest =>
        cases rest with
        | cons r rs => exact False.elim hg.1
        | nil =>
          intro u hu
          rw [show rootEntriesInit names (Vertex.mk lbl i h bl [c₁, c₂]) =
              (vkey names (Vertex.mk lbl i h bl [c₁, c₂]),
                ⟨1, 0 + effHeight h,
                  [⟨vkey names c₁, vkey names c₂, 1, effHeight h, 1, some 1⟩]⟩)
                :: (treeEntriesInit names c₁ ++ treeEntriesInit names c₂) from rfl]
          rcases List.mem_cons.mp hu with hu | hu
          · subst hu
            exact List.mem_cons_self _ _
          rcases List.mem_append.mp hu with hu | hu
          · exact List.mem_cons_of_mem _
              (List.mem_append_left _ (mem_treeEntriesInit names c₁ hg.1.1 u hu))
          · exact List.mem_cons_of_mem _
              (List.mem_append_right _ (mem_treeEntriesInit names c₂ hg.1.2 u hu))

theorem lookupClade_rootEntriesInit (names : List String) (v : Vertex)
    (hg : GoodTree names v) :
    ∀ u ∈ subtreeVertices v,
      lookupClade (rootEntriesInit names v) (vkey names u) =
        some (initCladeOf names u) := by
  intro u hu
  exact lookupClade_mem_nodup _ _ _ (mem_rootEntriesInit names v hg u hu)
    (rootEntriesInit_keys_nodup names v hg)

theorem childBits_nodeResOf (names : List String) (s : CCDState)
    (hnames : s.taxonNames = names) (child : Vertex)
    (hml : ∀ w ∈ leavesOf child, (names.indexOf? (labelOf w)).isSome) :
    childBits s (nodeResOf names child) child = vkey names child := by
  cases child with
  | mk lbl i h bl cs =>
    cases cs with
    | nil =>
      obtain ⟨idx, hidx⟩ := Option.isSome_iff_exists.mp
        (hml _ (List.mem_singleton.mpr rfl))
      show (match s.taxonNames.indexOf? (labelOf (.mk lbl i h bl [])) with
        | some j => ({j} : Finset ℕ)
        | none => ∅) = _
      rw [hnames, hidx]
      show ({idx} : Finset ℕ) = _
      simp only [vkey]
      rw [hidx]
    | cons c₁ cs₂ => rfl

theorem resolved_child_clade (names : List String) (v : Vertex) (s : CCDState)
    (hnames : s.taxonNames = names) (hclades : s.clades = rootEntriesInit names v)
    (hgv : GoodTree names v) (child : Vertex)
    (hmem : child ∈ subtreeVertices v)
    (hml : ∀ w ∈ leavesOf child, (names.indexOf? (labelOf w)).isSome) :
    (match nodeResOf names child with
      | .cladeRes k => some k
      | _ => s.getLeafClade child) = some (vkey names child) := by
  cases child with
  | mk lbl i h bl cs =>
    cases cs with
    | nil =>
      obtain ⟨idx, hidx⟩ := Option.isSome_iff_exists.mp
        (hml _ (List.mem_singleton.mpr rfl))
      have hk : vkey names (.mk lbl i h bl []) = {idx} := by
        simp only [vkey]; rw [hidx]
      show s.getLeafClade (.mk lbl i h bl []) = some (vkey names (.mk lbl i h bl []))
      unfold CCDState.getLeafClade
      rw [hnames, hidx]
      show (if (lookupClade s.clades {idx}).isSome then some ({idx} : Finset ℕ)
        else none) = _
      rw [← hk, hclades, lookupClade_rootEntriesInit names v hgv _ hmem]
      rfl
    | cons c₁ cs₂ => rfl

/-- `calculateNodeLogProb` on any subtree vertex of the single-tree CCD
returns the vertex's result and leaves the accumulated log probability
unchanged (every consulted partition carries `logCCP = 0`, and cherry
vertices consult none). -/
theorem calcNode_run (names : List String) (v : Vertex) (s : CCDState)
    (hnames : s.taxonNames = names)
    (hclades : s.clades = rootEntriesInit names v)
    (hgv : GoodTree names v) :
    ∀ u : Vertex, u.Binary →
      (∀ w ∈ subtreeVertices u, w ∈ subtreeVertices v) →
      (∀ w ∈ leavesOf u, (names.indexOf? (labelOf w)).isSome) →
      ∀ x : ℚ, calcNodeLogProb s u (some x) = .ok (nodeResOf names u, some x) := by
  intro u
  induction u using subtreeVertices.induct with
  | case1 lbl i h bl =>
    intro _ _ _ x
    rfl
  | case2 lbl i h bl d₁ d₂ rest ih₁ ih₂ =>
    intro hb hsub hml x
    cases rest with
    | cons r rs => exact False.elim hb
    | nil =>
      have hsubn : subtreeVertices (.mk lbl i h bl [d₁, d₂]) =
          .mk lbl i h bl [d₁, d₂] ::
            (subtreeVertices d₁ ++ subtreeVertices d₂) := rfl
      have hsub₁ : ∀ w ∈ subtreeVertices d₁, w ∈ subtreeVertices v := fun w hw =>
        hsub w (by rw [hsubn]; exact List.mem_cons_of_mem _ (List.mem_append_left _ hw))
      have hsub₂ : ∀ w ∈ subtreeVertices d₂, w ∈ subtreeVertices v := fun w hw =>
        hsub w (by rw [hsubn]; exact List.mem_cons_of_mem _ (List.mem_append_right _ hw))
      have hml₁ : ∀ w ∈ leavesOf d₁, (names.indexOf? (labelOf w)).isSome := fun w hw =>
        hml w (by rw [leavesOf_node]; exact List.mem_append_left _ hw)
      have hml₂ : ∀ w ∈ leavesOf d₂, (names.indexOf? (labelOf w)).isSome := fun w hw =>
        hml w (by rw [leavesOf_node]; exact List.mem_append_right _ hw)
      have hrun₁ := ih₁ hb.1 hsub₁ hml₁ x
      have hrun₂ := ih₂ hb.2 hsub₂ hml₂ x
      have hcb₁ := childBits_nodeResOf names s hnames d₁ hml₁
      have hcb₂ := childBits_nodeResOf names s hnames d₂ hml₂
      have hmemv := hsub _ (self_mem_subtreeVertices (.mk lbl i h bl [d₁, d₂]))
      have hstep : calcNodeLogProb s (.mk lbl i h bl [d₁, d₂]) (some x) =
          (calcNodeLogProb s d₁ (some x) >>= fun p₁ =>
            match p₁ with
            | (r₁, lp₁) =>
              calcNodeLogProb s d₂ lp₁ >>= fun p₂ =>
                match p₂ with
                | (r₂, lp₂) =>
                  match lookupClade s.clades
                    (childBits s r₁ d₁ ∪ childBits s r₂ d₂) with
                  | none => .ok (NodeRes.undefRes, none)
                  | some clade =>
                    if r₁.isClade || r₂.isClade then
                      match findPartitionOpt clade.partitions
                        (match r₁ with
                          | .cladeRes k => some k
                          | _ => s.getLeafClade d₁)
                        (match r₂ with
                          | .cladeRes k => some k
                          | _ => s.getLeafClade d₂) with
                      | some p =>
                        .ok (NodeRes.cladeRes (childBits s r₁ d₁ ∪ childBits s r₂ d₂),
                          addLog lp₂ p.logCCP)
                      | none =>
                        .ok (NodeRes.cladeRes (childBits s r₁ d₁ ∪ childBits s r₂ d₂),
                          none)
                    else
                      .ok (NodeRes.cladeRes (childBits s r₁ d₁ ∪ childBits s r₂ d₂),
                        lp₂)) := rfl
      rw [hstep, hrun₁, exceptBind_ok]
      show (calcNodeLogProb s d₂ (some x) >>= fun p₂ =>
          match p₂ with
          | (r₂, lp₂) =>
            match lookupClade s.clades
              (childBits s (nodeResOf names d₁) d₁ ∪ childBits s r₂ d₂) with
            | none => Except.ok (NodeRes.undefRes, none)
            | some clade =>
              if (nodeResOf names d₁).isClade || r₂.isClade then
                match findPartitionOpt clade.partitions
                  (match nodeResOf names d₁ with
                    | .cladeRes k => some k
                    | _ => s.getLeafClade d₁)
                  (match r₂ with
                    | .cladeRes k => some k
                    | _ => s.getLeafClade d₂) with
                | some p =>
                  Except.ok
                    (NodeRes.cladeRes (childBits s (nodeResOf names d₁) d₁ ∪ childBits s r₂ d₂),
                      addLog lp₂ p.logCCP)
                | none =>
                  Except.ok
                    (NodeRes.cladeRes (childBits s (nodeResOf names d₁) d₁ ∪ childBits s r₂ d₂),
                      none)
              else
                Except.ok
                  (NodeRes.cladeRes (childBits s (nodeResOf names d₁) d₁ ∪ childBits s r₂ d₂),
                    lp₂)) = _
      rw [hrun₂, exceptBind_ok]
      show (match lookupClade s.clades
            (childBits s (nodeResOf names d₁) d₁ ∪
              childBits s (nodeResOf names d₂) d₂) with
          | none => Except.ok (NodeRes.undefRes, none)
          | some clade =>
            if (nodeResOf names d₁).isClade || (nodeResOf names d₂).isClade then
              match findPartitionOpt clade.partitions
                (match nodeResOf names d₁ with
                  | .cladeRes k => some k
                  | _ => s.getLeafClade d₁)
                (match nodeResOf names d₂ with
                  | .cladeRes k => some k
                  | _ => s.getLeafClade d₂) with
              | some p =>
                Except.ok
                  (NodeRes.cladeRes (childBits s (nodeResOf names d₁) d₁ ∪
                    childBits s (nodeResOf names d₂) d₂),
                    addLog (some x) p.logCCP)
              | none =>
                Except.ok
                  (NodeRes.cladeRes (childBits s (nodeResOf names d₁) d₁ ∪
                    childBits s (nodeResOf names d₂) d₂),
                    none)
            else
              Except.ok
                (NodeRes.cladeRes (childBits s (nodeResOf names d₁) d₁ ∪
                  childBits s (nodeResOf names d₂) d₂),
                  some x)) = _
      rw [hcb₁, hcb₂]
      rw [show vkey names d₁ ∪ vkey names d₂ =
          vkey names (.mk lbl i h bl [d₁, d₂]) from rfl]
      rw [hclades, lookupClade_rootEntriesInit names v hgv _ hmemv]
      show (if (nodeResOf names d₁).isClade || (nodeResOf names d₂).isClade then
          match findPartitionOpt
            (initCladeOf names (.mk lbl i h bl [d₁, d₂])).partitions
            (match nodeResOf names d₁ with
              | .cladeRes k => some k
              | _ => s.getLeafClade d₁)
            (match nodeResOf names d₂ with
              | .cladeRes k => some k
              | _ => s.getLeafClade d₂) with
          | some p =>
            Except.ok (NodeRes.cladeRes (vkey names (.mk lbl i h bl [d₁, d₂])),
              addLog (some x) p.logCCP)
          | none =>
            Except.ok (NodeRes.cladeRes (vkey names (.mk lbl i h bl [d₁, d₂])), none)
        else
          Except.ok (NodeRes.cladeRes (vkey names (.mk lbl i h bl [d₁, d₂])), some x)) = _
      by_cases hbool :
          ((nodeResOf names d₁).isClade || (nodeResOf names d₂).isClade) = true
      · rw [if_pos hbool]
        rw [resolved_child_clade names v s hnames hclades hgv d₁
          (hsub₁ d₁ (self_mem_subtreeVertices d₁)) hml₁]
        rw [resolved_child_clade names v s hnames hclades hgv d₂
          (hsub₂ d₂ (self_mem_subtreeVertices d₂)) hml₂]
        rw [show (initCladeOf names (.mk lbl i h bl [d₁, d₂])).partitions =
            [⟨vkey names d₁, vkey names d₂, 1, effHeight h, 1, some 1⟩] from rfl]
        have hfind : findPartitionOpt
            [⟨vkey names d₁, vkey names d₂, 1, effHeight h, 1, some 1⟩]
            (some (vkey names d₁)) (some (vkey names d₂)) =
            some ⟨vkey names d₁, vkey names d₂, 1, effHeight h, 1, some 1⟩ := by
          simp [findPartitionOpt]
        rw [hfind]
        show Except.ok (NodeRes.cladeRes (vkey names (.mk lbl i h bl [d₁, d₂])),
          addLog (some x) (some 1)) = _
        rw [show addLog (some x) (some 1) = some (x * 1) from rfl, mul_one]
        rfl
      · rw [if_neg hbool]
        rfl
  | case3 lbl i h bl c =>
    intro hb
    exact False.elim hb

theorem getTreeLog_single (names : List String) (t : JSTree) (s : CCDState)
    (hnames : s.taxonNames = names)
    (hclades : s.clades = rootEntriesInit names t.root)
    (hg : GoodTree names t.root) :
    s.getTreeLogProbability t = .ok (some 1) := by
  have hrun := calcNode_run names t.root s hnames hclades hg t.root hg.1
    (fun w hw => hw) hg.2.1 1
  have hstep : s.getTreeLogProbability t =
      (calcNodeLogProb s t.root (some 1) >>= fun p =>
        match p with
        | (_, lp) => Except.ok lp) := rfl
  rw [hstep, hrun, exceptBind_ok]

/-- C8: for every rooted binary tree `T` (with distinct tip labels),
building a CCD from the single tree `T` — one `addTree` into the fresh
CCD followed by `initialize()`, as `fromTrees([T], 0)` performs — makes
`getMaxTreeProbability()` return 1 and `getTreeLogProbability(T)`
return a log probability of 0 (log values are carried as their
exponentials, so `.ok (some 1)` is the log probability 0). -/
theorem single_tree_max_probability (t : JSTree) (s : CCDState)
    (hb : t.root.Binary) (hnd : t.leafLabels.Nodup)
    (hrun : fromTrees [t] 0 = .ok s) :
    s.getMaxTreeProbability = 1 ∧ s.getTreeLogProbability t = .ok (some 1) := by
  have hS := fromTrees_single_run t hb hnd
  rw [hrun] at hS
  have hs := Except.ok.inj hS
  subst hs
  have hmemn : ∀ u ∈ leavesOf t.root,
      labelOf u ∈ sortStrings (allTaxaOf [t]) := by
    intro u hu
    rw [sortStrings_mem, allTaxaOf_mem]
    exact ⟨t, List.mem_singleton.mpr rfl, List.mem_map_of_mem _ hu⟩
  have hg : GoodTree (sortStrings (allTaxaOf [t])) t.root :=
    ⟨hb, fun u hu => indexOf?_isSome_of_mem _ _ (hmemn u hu), hnd⟩
  have hroot : vkey (sortStrings (allTaxaOf [t])) t.root =
      Finset.range (sortStrings (allTaxaOf [t])).length := by
    refine vkey_root_range _ _ hb
      (sortStrings_nodup _ (allTaxaOf_nodup _)) ?_ hmemn
    intro l hl
    rw [sortStrings_mem, allTaxaOf_mem] at hl
    obtain ⟨t', ht', hlt⟩ := hl
    rw [List.mem_singleton.mp ht'] at hlt
    obtain ⟨u, hu, hlu⟩ := List.mem_map.mp hlt
    exact ⟨u, hu, hlu⟩
  constructor
  · have hmax := getMaxLog_single (sortStrings (allTaxaOf [t])) t.root
      { leafArraySize := (sortStrings (allTaxaOf [t])).length,
        taxonNames := sortStrings (allTaxaOf [t]),
        numBaseTrees := 1,
        clades := rootEntriesInit (sortStrings (allTaxaOf [t])) t.root,
        probabilitiesDirty := true,
        entropyDirty := true,
        numberOfTopologiesDirty := true } hg rfl hroot
    show expOf _ = 1
    rw [hmax]
    rfl
  · exact getTreeLog_single (sortStrings (allTaxaOf [t])) t _ rfl rfl hg

/-- C8 witness: the theorem applied to the concrete binary tree
`((a,b),c)`; `fromTrees` succeeds on it and both probabilities are as
claimed. -/
theorem single_tree_max_probability_witness :
    treeABC.root.Binary ∧ treeABC.leafLabels.Nodup ∧
    ∃ s, fromTrees [treeABC] 0 = .ok s ∧
      s.getMaxTreeProbability = 1 ∧
      s.getTreeLogProbability treeABC = .ok (some 1) := by
  refine ⟨by decide, by decide, _,
    fromTrees_single_run treeABC (by decide) (by decide), ?_⟩
  exact single_tree_max_probability treeABC _ (by decide) (by decide)
    (fromTrees_single_run treeABC (by decide) (by decide))

/-! ## Path distance: symmetry and enumeration lemmas -/

mutual

/-- The a→MRCA→b path length does not depend on the order of the two
labels. -/
theorem pairPath_symm (eff : Option ℚ → ℚ) : ∀ (v : Vertex) (a b : String),
    pairPath eff v a b = pairPath eff v b a
  | .mk _ _ _ _ [], _, _ => rfl
  | .mk lbl i h bl (c :: cs), a, b => by
    show (match pairPathDescend eff (c :: cs) a b with
      | some r => r
      | none =>
        if a ∈ descendantLabels (.mk none 0 none none (c :: cs)) ∧
           b ∈ descendantLabels (.mk none 0 none none (c :: cs)) then do
          let d₁ ← distUp eff (.mk none 0 none none (c :: cs)) a
          let d₂ ← distUp eff (.mk none 0 none none (c :: cs)) b
          pure (d₁ + d₂)
        else none) =
      (match pairPathDescend eff (c :: cs) b a with
      | some r => r
      | none =>
        if b ∈ descendantLabels (.mk none 0 none none (c :: cs)) ∧
           a ∈ descendantLabels (.mk none 0 none none (c :: cs)) then do
          let d₁ ← distUp eff (.mk none 0 none none (c :: cs)) b
          let d₂ ← distUp eff (.mk none 0 none none (c :: cs)) a
          pure (d₁ + d₂)
        else none)
    rw [pairPathDescend_symm eff (c :: cs) a b]
    cases hd : pairPathDescend eff (c :: cs) b a with
    | some r => rfl
    | none =>
      by_cases hA : a ∈ descendantLabels (.mk none 0 none none (c :: cs))
      · by_cases hB : b ∈ descendantLabels (.mk none 0 none none (c :: cs))
        · rw [if_pos ⟨hA, hB⟩, if_pos ⟨hB, hA⟩]
          cases h₁ : distUp eff (.mk none 0 none none (c :: cs)) a with
          | none =>
            cases h₂ : distUp eff (.mk none 0 none none (c :: cs)) b with
            | none => rfl
            | some d₂ => rfl
          | some d₁ =>
            cases h₂ : distUp eff (.mk none 0 none none (c :: cs)) b with
            | none => rfl
            | some d₂ =>
              show some (d₁ + d₂) = some (d₂ + d₁)
              rw [add_comm]
        · rw [if_neg (fun hc => hB hc.2), if_neg (fun hc => hB hc.1)]
      · rw [if_neg (fun hc => hA hc.1), if_neg (fun hc => hA hc.2)]

/-- The MRCA descent does not depend on the order of the two labels. -/
theorem pairPathDescend_symm (eff : Option ℚ → ℚ) :
    ∀ (cs : List Vertex) (a b : String),
    pairPathDescend eff cs a b = pairPathDescend eff cs b a
  | [], _, _ => rfl
  | c :: cs, a, b => by
    show (if a ∈ descendantLabels c ∧ b ∈ descendantLabels c then
        some (pairPath eff c a b)
      else pairPathDescend eff cs a b) =
      (if b ∈ descendantLabels c ∧ a ∈ descendantLabels c then
        some (pairPath eff c b a)
      else pairPathDescend eff cs b a)
    by_cases hA : a ∈ descendantLabels c
    · by_cases hB : b ∈ descendantLabels c
      · rw [if_pos ⟨hA, hB⟩, if_pos ⟨hB, hA⟩]
        rw [pairPath_symm eff c a b]
      · rw [if_neg (fun hc => hB hc.2), if_neg (fun hc => hB hc.1)]
        exact pairPathDescend_symm eff cs a b
    · rw [if_neg (fun hc => hA hc.1), if_neg (fun hc => hA hc.2)]
      exact pairPathDescend_symm eff cs a b

end

theorem filterMap_guard {α β : Type} (p : α → Prop) [DecidablePred p] (g : α → β)
    (l : List α) :
    l.filterMap (fun a => if p a then some (g a) else none) =
      (l.filter (fun a => decide (p a))).map g := by
  induction l with
  | nil => rfl
  | cons x xs ih =>
    by_cases h : p x <;>
      simp [List.filterMap_cons, List.filter_cons, h, ih]

theorem pairEnum_mem {β : Type} (n : ℕ) (F : ℕ → ℕ → β) (y : β) :
    (y ∈ (List.range n).flatMap (fun i =>
      (List.range n).filterMap (fun j => if i < j then some (F i j) else none))) ↔
    ∃ i j, i < j ∧ j < n ∧ y = F i j := by
  rw [List.mem_flatMap]
  constructor
  · rintro ⟨i, hi, hmem⟩
    rw [List.mem_filterMap] at hmem
    obtain ⟨j, hj, hij⟩ := hmem
    by_cases h : i < j
    · rw [if_pos h] at hij
      exact ⟨i, j, h, List.mem_range.mp hj, (Option.some_inj.mp hij).symm⟩
    · rw [if_neg h] at hij
      exact absurd hij (by simp)
  · rintro ⟨i, j, hij, hjn, rfl⟩
    refine ⟨i, List.mem_range.mpr (by omega), ?_⟩
    rw [List.mem_filterMap]
    exact ⟨j, List.mem_range.mpr hjn, by rw [if_pos hij]⟩

theorem pairEnum_map {β γ : Type} (n : ℕ) (F : ℕ → ℕ → β) (g : β → γ) :
    ((List.range n).flatMap (fun i =>
      (List.range n).filterMap (fun j => if i < j then some (F i j) else none))).map g =
    (List.range n).flatMap (fun i =>
      (List.range n).filterMap (fun j => if i < j then some (g (F i j)) else none)) := by
  rw [List.map_flatMap]
  congr 1
  funext i
  rw [List.map_filterMap]
  congr 1
  funext j
  by_cases h : i < j <;> simp [h]

theorem pairEnum_nodup {β : Type} (n : ℕ) (F : ℕ → ℕ → β)
    (hinj : ∀ i j i' j', i < j → j < n → i' < j' → j' < n → F i j = F i' j' →
      i = i' ∧ j = j') :
    ((List.range n).flatMap (fun i =>
      (List.range n).filterMap (fun j => if i < j then some (F i j) else none))).Nodup := by
  rw [List.nodup_flatMap]
  constructor
  · intro i hi
    rw [filterMap_guard (fun j => i < j) (F i) (List.range n)]
    refine List.Nodup.map_on ?_ (List.Nodup.filter _ (List.nodup_range n))
    intro j hj j' hj' heq
    rw [List.mem_filter] at hj hj'
    have hij := of_decide_eq_true hj.2
    have hij' := of_decide_eq_true hj'.2
    exact (hinj i j i j' hij (List.mem_range.mp hj.1) hij'
      (List.mem_range.mp hj'.1) heq).2
  · have hpw : (List.range n).Pairwise (· < ·) := List.pairwise_lt_range ..
    refine hpw.imp ?_
    intro i i' hii' y hy hy'
    rw [List.mem_filterMap] at hy hy'
    obtain ⟨j, hj, hij⟩ := hy
    obtain ⟨j', hj', hij'⟩ := hy'
    by_cases h : i < j
    · by_cases h' : i' < j'
      · rw [if_pos h] at hij
        rw [if_pos h'] at hij'
        have := (hinj i j i' j' h (List.mem_range.mp hj) h'
          (List.mem_range.mp hj')
          ((Option.some_inj.mp hij).trans (Option.some_inj.mp hij').symm)).1
        omega
      · rw [if_neg h'] at hij'
        exact absurd hij' (by simp)
    · rw [if_neg h] at hij
      exact absurd hij (by simp)

theorem getD_nodup_ne (l : List String) (hnd : l.Nodup) (i j : ℕ)
    (hi : i < l.length) (hj : j < l.length) (hij : i ≠ j) :
    l.getD i "" ≠ l.getD j "" := by
  intro heq
  have h1 := nodup_indexOf?_getD l hnd i hi
  have h2 := nodup_indexOf?_getD l hnd j hj
  rw [heq] at h1
  rw [h1] at h2
  exact hij (Option.some_inj.mp h2)

theorem getD_mem_of_lt (l : List String) (i : ℕ) (hi : i < l.length) :
    l.getD i "" ∈ l := by
  rw [List.getD_eq_getElem?_getD, List.getElem?_eq_getElem hi]
  exact List.getElem_mem hi

theorem exists_getD_of_mem (l : List String) (a : String) (ha : a ∈ l) :
    ∃ i, i < l.length ∧ l.getD i "" = a := by
  obtain ⟨i, hidx⟩ := Option.isSome_iff_exists.mp (indexOf?_isSome_of_mem l a ha)
  obtain ⟨hlt, hgd⟩ := indexOf?_some_getD l a i hidx
  exact ⟨i, hlt, hgd⟩

theorem sorted_getD_le (l : List String) (hs : List.Sorted strLe l) (i j : ℕ)
    (hij : i < j) (hj : j < l.length) : strLe (l.getD i "") (l.getD j "") := by
  have hi : i < l.length := lt_trans hij hj
  rw [List.getD_eq_getElem?_getD, List.getElem?_eq_getElem hi,
    List.getD_eq_getElem?_getD, List.getElem?_eq_getElem hj]
  exact hs.rel_get_of_lt (show (⟨i, hi⟩ : Fin l.length) < ⟨j, hj⟩ from hij)

theorem getAllPairwisePaths_eq (eff : Option ℚ → ℚ) (t : JSTree) :
    getAllPairwisePaths eff t =
      (List.range (leavesOf t.root).length).flatMap (fun i =>
        (List.range (leavesOf t.root).length).filterMap (fun j =>
          if i < j then
            some (pairKey (labelOf ((leavesOf t.root).getD i default))
                (labelOf ((leavesOf t.root).getD j default)),
              (pairPath eff t.root (labelOf ((leavesOf t.root).getD i default))
                (labelOf ((leavesOf t.root).getD j default))).getD 0)
          else none)) := rfl

theorem leafLabels_length (t : JSTree) :
    t.leafLabels.length = (leavesOf t.root).length := by
  rw [show t.leafLabels = (leavesOf t.root).map labelOf from rfl, List.length_map]

theorem leafLabel_getD (t : JSTree) (i : ℕ) (hi : i < (leavesOf t.root).length) :
    labelOf ((leavesOf t.root).getD i default) = t.leafLabels.getD i "" := by
  have h1 : (leavesOf t.root).getD i default = (leavesOf t.root)[i] := by
    rw [List.getD_eq_getElem?_getD, List.getElem?_eq_getElem hi]
    rfl
  have h2 : ((leavesOf t.root).map labelOf).getD i "" =
      labelOf ((leavesOf t.root)[i]) := by
    rw [List.getD_eq_getElem?_getD, List.getElem?_map, List.getElem?_eq_getElem hi]
    rfl
  rw [show t.leafLabels = (leavesOf t.root).map labelOf from rfl, h1, h2]

theorem pairKey_or (a b : String) : pairKey a b = (a, b) ∨ pairKey a b = (b, a) := by
  unfold pairKey
  by_cases h : strLe a b
  · rw [if_pos h]; exact Or.inl rfl
  · rw [if_neg h]; exact Or.inr rfl

theorem pairKey_sorted_of (a b : String) (hab : strLe a b) : pairKey a b = (a, b) := by
  unfold pairKey
  rw [if_pos hab]

theorem pairKey_swap_sorted (a b : String) (hab : strLe a b) (hne : a ≠ b) :
    pairKey b a = (a, b) := by
  unfold pairKey
  rw [if_neg (fun hba => hne (antisymm hab hba))]

theorem pairKey_sorted_ne (a b : String) (hne : a ≠ b) :
    strLe (pairKey a b).1 (pairKey a b).2 ∧ (pairKey a b).1 ≠ (pairKey a b).2 := by
  unfold pairKey
  by_cases h : strLe a b
  · rw [if_pos h]; exact ⟨h, hne⟩
  · rw [if_neg h]
    exact ⟨(total_of strLe a b).resolve_left h, hne.symm⟩

theorem pairKey_inj_cases (x y x' y' : String) (h : pairKey x y = pairKey x' y') :
    (x = x' ∧ y = y') ∨ (x = y' ∧ y = x') := by
  unfold pairKey at h
  by_cases h1 : strLe x y <;> by_cases h2 : strLe x' y'
  · rw [if_pos h1, if_pos h2] at h
    exact Or.inl ⟨(Prod.ext_iff.mp h).1, (Prod.ext_iff.mp h).2⟩
  · rw [if_pos h1, if_neg h2] at h
    exact Or.inr ⟨(Prod.ext_iff.mp h).1, (Prod.ext_iff.mp h).2⟩
  · rw [if_neg h1, if_pos h2] at h
    exact Or.inr ⟨(Prod.ext_iff.mp h).2, (Prod.ext_iff.mp h).1⟩
  · rw [if_neg h1, if_neg h2] at h
    exact Or.inl ⟨(Prod.ext_iff.mp h).2, (Prod.ext_iff.mp h).1⟩

theorem mem_paths (eff : Option ℚ → ℚ) (t : JSTree) (e : (String × String) × ℚ) :
    e ∈ getAllPairwisePaths eff t ↔
      ∃ i j, i < j ∧ j < (leavesOf t.root).length ∧
        e = (pairKey (t.leafLabels.getD i "") (t.leafLabels.getD j ""),
          (pairPath eff t.root (t.leafLabels.getD i "")
            (t.leafLabels.getD j "")).getD 0) := by
  rw [getAllPairwisePaths_eq, pairEnum_mem]
  constructor
  · rintro ⟨i, j, hij, hjn, rfl⟩
    refine ⟨i, j, hij, hjn, ?_⟩
    rw [leafLabel_getD t i (lt_trans hij hjn), leafLabel_getD t j hjn]
  · rintro ⟨i, j, hij, hjn, rfl⟩
    refine ⟨i, j, hij, hjn, ?_⟩
    rw [leafLabel_getD t i (lt_trans hij hjn), leafLabel_getD t j hjn]

theorem mem_pathKeys (eff : Option ℚ → ℚ) (t : JSTree) (hnd : t.leafLabels.Nodup)
    (k : String × String) :
    k ∈ (getAllPairwisePaths eff t).map (·.1) ↔
      (strLe k.1 k.2 ∧ k.1 ≠ k.2 ∧ k.1 ∈ t.leafLabels ∧ k.2 ∈ t.leafLabels) := by
  have hlen := leafLabels_length t
  constructor
  · intro hk
    obtain ⟨e, he, hek⟩ := List.mem_map.mp hk
    obtain ⟨i, j, hij, hjn, rfl⟩ := (mem_paths eff t e).mp he
    have hiL : i < t.leafLabels.length := by rw [hlen]; exact lt_trans hij hjn
    have hjL : j < t.leafLabels.length := by rw [hlen]; exact hjn
    have hne : t.leafLabels.getD i "" ≠ t.leafLabels.getD j "" :=
      getD_nodup_ne _ hnd i j hiL hjL (by omega)
    have hk_eq : pairKey (t.leafLabels.getD i "") (t.leafLabels.getD j "") = k := hek
    subst hk_eq
    have hs := pairKey_sorted_ne _ _ hne
    have hma : t.leafLabels.getD i "" ∈ t.leafLabels := getD_mem_of_lt _ i hiL
    have hmb : t.leafLabels.getD j "" ∈ t.leafLabels := getD_mem_of_lt _ j hjL
    refine ⟨hs.1, hs.2, ?_, ?_⟩ <;>
      rcases pairKey_or (t.leafLabels.getD i "") (t.leafLabels.getD j "") with hpk | hpk <;>
      rw [hpk] <;>
      first
        | exact hma
        | exact hmb
  · rintro ⟨hle, hne, hmem1, hmem2⟩
    obtain ⟨ia, hia, hga⟩ := exists_getD_of_mem _ _ hmem1
    obtain ⟨ib, hib, hgb⟩ := exists_getD_of_mem _ _ hmem2
    have hiajb : ia ≠ ib := by
      intro hEq
      rw [hEq] at hga
      exact hne (hga.symm.trans hgb)
    rcases lt_or_gt_of_ne hiajb with h | h
    · refine List.mem_map.mpr
        ⟨(pairKey (t.leafLabels.getD ia "") (t.leafLabels.getD ib ""),
          (pairPath eff t.root (t.leafLabels.getD ia "")
            (t.leafLabels.getD ib "")).getD 0), ?_, ?_⟩
      · exact (mem_paths eff t _).mpr ⟨ia, ib, h, by rw [← hlen]; exact hib, rfl⟩
      · show pairKey (t.leafLabels.getD ia "") (t.leafLabels.getD ib "") = k
        rw [hga, hgb, pairKey_sorted_of k.1 k.2 hle]
    · refine List.mem_map.mpr
        ⟨(pairKey (t.leafLabels.getD ib "") (t.leafLabels.getD ia ""),
          (pairPath eff t.root (t.leafLabels.getD ib "")
            (t.leafLabels.getD ia "")).getD 0), ?_, ?_⟩
      · exact (mem_paths eff t _).mpr ⟨ib, ia, h, by rw [← hlen]; exact hia, rfl⟩
      · show pairKey (t.leafLabels.getD ib "") (t.leafLabels.getD ia "") = k
        rw [hgb, hga, pairKey_swap_sorted k.1 k.2 hle hne]

theorem paths_val (eff : Option ℚ → ℚ) (t : JSTree) (e : (String × String) × ℚ)
    (he : e ∈ getAllPairwisePaths eff t) :
    e.2 = (pairPath eff t.root e.1.1 e.1.2).getD 0 := by
  obtain ⟨i, j, hij, hjn, rfl⟩ := (mem_paths eff t e).mp he
  rcases pairKey_or (t.leafLabels.getD i "") (t.leafLabels.getD j "") with hpk | hpk
  · show (pairPath eff t.root (t.leafLabels.getD i "")
        (t.leafLabels.getD j "")).getD 0 =
      (pairPath eff t.root
        (pairKey (t.leafLabels.getD i "") (t.leafLabels.getD j "")).1
        (pairKey (t.leafLabels.getD i "") (t.leafLabels.getD j "")).2).getD 0
    rw [hpk]
  · show (pairPath eff t.root (t.leafLabels.getD i "")
        (t.leafLabels.getD j "")).getD 0 =
      (pairPath eff t.root
        (pairKey (t.leafLabels.getD i "") (t.leafLabels.getD j "")).1
        (pairKey (t.leafLabels.getD i "") (t.leafLabels.getD j "")).2).getD 0
    rw [hpk]
    show (pairPath eff t.root (t.leafLabels.getD i "")
        (t.leafLabels.getD j "")).getD 0 =
      (pairPath eff t.root (t.leafLabels.getD j "")
        (t.leafLabels.getD i "")).getD 0
    rw [pairPath_symm eff t.root (t.leafLabels.getD i "") (t.leafLabels.getD j "")]

theorem pathKeys_nodup (eff : Option ℚ → ℚ) (t : JSTree)
    (hnd : t.leafLabels.Nodup) :
    ((getAllPairwisePaths eff t).map (·.1)).Nodup := by
  have hlen := leafLabels_length t
  have gInj : ∀ p q, p < t.leafLabels.length → q < t.leafLabels.length →
      t.leafLabels.getD p "" = t.leafLabels.getD q "" → p = q := by
    intro p q hp hq hpq
    by_contra hne
    exact getD_nodup_ne _ hnd p q hp hq hne hpq
  rw [getAllPairwisePaths_eq, pairEnum_map]
  refine pairEnum_nodup _ _ ?_
  intro i j i' j' hij hjn hij' hjn' heq
  have heq' : pairKey (labelOf ((leavesOf t.root).getD i default))
      (labelOf ((leavesOf t.root).getD j default)) =
      pairKey (labelOf ((leavesOf t.root).getD i' default))
        (labelOf ((leavesOf t.root).getD j' default)) := heq
  rw [leafLabel_getD t i (lt_trans hij hjn), leafLabel_getD t j hjn,
    leafLabel_getD t i' (lt_trans hij' hjn'), leafLabel_getD t j' hjn'] at heq'
  have hiL : i < t.leafLabels.length := by rw [hlen]; exact lt_trans hij hjn
  have hjL : j < t.leafLabels.length := by rw [hlen]; exact hjn
  have hiL' : i' < t.leafLabels.length := by rw [hlen]; exact lt_trans hij' hjn'
  have hjL' : j' < t.leafLabels.length := by rw [hlen]; exact hjn'
  rcases pairKey_inj_cases _ _ _ _ heq' with ⟨h1, h2⟩ | ⟨h1, h2⟩
  · exact ⟨gInj _ _ hiL hiL' h1, gInj _ _ hjL hjL' h2⟩
  · have e1 := gInj _ _ hiL hjL' h1
    have e2 := gInj _ _ hjL hiL' h2
    constructor <;> omega

theorem lookupPath_isSome_iff (ps : List ((String × String) × ℚ))
    (k : String × String) :
    (lookupPath ps k).isSome ↔ k ∈ ps.map (·.1) := by
  unfold lookupPath
  rw [show ∀ o : Option ((String × String) × ℚ),
      ((o.map (·.2)).isSome) = o.isSome from fun o => by cases o <;> rfl]
  rw [List.find?_isSome]
  constructor
  · rintro ⟨e, he, heq⟩
    exact List.mem_map.mpr ⟨e, he, beq_iff_eq.mp heq⟩
  · intro hmem
    obtain ⟨e, he, hk⟩ := List.mem_map.mp hmem
    exact ⟨e, he, beq_iff_eq.mpr hk⟩

theorem lookupPath_eq_of_mem (eff : Option ℚ → ℚ) (t : JSTree)
    (k : String × String)
    (hk : k ∈ (getAllPairwisePaths eff t).map (·.1)) :
    lookupPath (getAllPairwisePaths eff t) k =
      some ((pairPath eff t.root k.1 k.2).getD 0) := by
  obtain ⟨e, he, hek⟩ := List.mem_map.mp hk
  unfold lookupPath
  cases hf : (getAllPairwisePaths eff t).find? (fun e' => e'.1 == k) with
  | none =>
    rw [List.find?_eq_none] at hf
    exact absurd (beq_iff_eq.mpr hek) (hf e he)
  | some e' =>
    have he'mem := List.mem_of_find?_eq_some hf
    have hp := List.find?_some hf
    have he'k : e'.1 = k := beq_iff_eq.mp hp
    have hv := paths_val eff t e' he'mem
    show some e'.2 = _
    rw [hv, he'k]

theorem specSharedPairs_eq (t₁ t₂ : JSTree) :
    specSharedPairs t₁ t₂ =
      (List.range (sortStrings (t₁.leafLabels.filter
          (fun l => l ∈ t₂.leafLabels))).length).flatMap (fun i =>
        (List.range (sortStrings (t₁.leafLabels.filter
            (fun l => l ∈ t₂.leafLabels))).length).filterMap (fun j =>
          if i < j then
            some ((sortStrings (t₁.leafLabels.filter
                (fun l => l ∈ t₂.leafLabels))).getD i "",
              (sortStrings (t₁.leafLabels.filter
                (fun l => l ∈ t₂.leafLabels))).getD j "")
          else none)) := rfl

theorem mem_sharedList (t₁ t₂ : JSTree) (a : String) :
    a ∈ sortStrings (t₁.leafLabels.filter (fun l => l ∈ t₂.leafLabels)) ↔
      a ∈ t₁.leafLabels ∧ a ∈ t₂.leafLabels := by
  rw [sortStrings_mem, List.mem_filter]
  simp

theorem mem_specSharedPairs (t₁ t₂ : JSTree) (hnd₁ : t₁.leafLabels.Nodup)
    (k : String × String) :
    k ∈ specSharedPairs t₁ t₂ ↔
      strLe k.1 k.2 ∧ k.1 ≠ k.2 ∧
        (k.1 ∈ t₁.leafLabels ∧ k.1 ∈ t₂.leafLabels) ∧
        (k.2 ∈ t₁.leafLabels ∧ k.2 ∈ t₂.leafLabels) := by
  have hnodS := sortStrings_nodup _ (hnd₁.filter
    (fun l => decide (l ∈ t₂.leafLabels)))
  have hsortS := sortStrings_sorted (t₁.leafLabels.filter
    (fun l => l ∈ t₂.leafLabels))
  rw [specSharedPairs_eq, pairEnum_mem]
  constructor
  · rintro ⟨i, j, hij, hjn, rfl⟩
    refine ⟨sorted_getD_le _ hsortS i j hij hjn,
      getD_nodup_ne _ hnodS i j (lt_trans hij hjn) hjn (by omega), ?_, ?_⟩
    · exact (mem_sharedList t₁ t₂ _).mp (getD_mem_of_lt _ i (lt_trans hij hjn))
    · exact (mem_sharedList t₁ t₂ _).mp (getD_mem_of_lt _ j hjn)
  · rintro ⟨hle, hne, hm1, hm2⟩
    obtain ⟨ia, hia, hga⟩ :=
      exists_getD_of_mem _ _ ((mem_sharedList t₁ t₂ k.1).mpr hm1)
    obtain ⟨ib, hib, hgb⟩ :=
      exists_getD_of_mem _ _ ((mem_sharedList t₁ t₂ k.2).mpr hm2)
    have hne' : ia ≠ ib := fun hEq => hne (by rw [← hga, hEq, hgb])
    rcases lt_or_gt_of_ne hne' with h | h
    · refine ⟨ia, ib, h, hib, ?_⟩
      rw [hga, hgb]
    · have hs := sorted_getD_le _ hsortS ib ia h hia
      rw [hga, hgb] at hs
      exact absurd (antisymm hle hs) hne

theorem specSharedPairs_nodup (t₁ t₂ : JSTree) (hnd₁ : t₁.leafLabels.Nodup) :
    (specSharedPairs t₁ t₂).Nodup := by
  have hnodS := sortStrings_nodup _ (hnd₁.filter
    (fun l => decide (l ∈ t₂.leafLabels)))
  rw [specSharedPairs_eq]
  refine pairEnum_nodup _ _ ?_
  intro i j i' j' hij hjn hij' hjn' heq
  have h1 := (Prod.ext_iff.mp heq).1
  have h2 := (Prod.ext_iff.mp heq).2
  constructor
  · by_contra hne
    exact getD_nodup_ne _ hnodS i i' (lt_trans hij hjn) (lt_trans hij' hjn') hne h1
  · by_contra hne
    exact getD_nodup_ne _ hnodS j j' hjn hjn' hne h2

/-- `calculatePathDistance` coincides with the specification's
description when the code's effective-branch-length rule (`x || 1`) is
used on the specification side: same shared pairs, same per-pair
absolute differences, same mean. -/
theorem pathDistance_eq_spec_aux (t₁ t₂ : JSTree)
    (hnd₁ : t₁.leafLabels.Nodup) (hnd₂ : t₂.leafLabels.Nodup) :
    calculatePathDistance t₁ t₂ = specPathDistance effBranchLength t₁ t₂ := by
  have hmemiff : ∀ k : String × String,
      k ∈ (((getAllPairwisePaths effBranchLength t₁).filter
        (fun e => (lookupPath (getAllPairwisePaths effBranchLength t₂) e.1).isSome)).map
          (·.1)) ↔
      k ∈ specSharedPairs t₁ t₂ := by
    intro k
    constructor
    · intro hk
      obtain ⟨e, he, hek⟩ := List.mem_map.mp hk
      rw [List.mem_filter] at he
      obtain ⟨heA, hsome⟩ := he
      have hkA : k ∈ (getAllPairwisePaths effBranchLength t₁).map (·.1) :=
        List.mem_map.mpr ⟨e, heA, hek⟩
      have h1 := (mem_pathKeys _ t₁ hnd₁ k).mp hkA
      have hkB : k ∈ (getAllPairwisePaths effBranchLength t₂).map (·.1) := by
        rw [← lookupPath_isSome_iff, ← hek]
        exact hsome
      have h2 := (mem_pathKeys _ t₂ hnd₂ k).mp hkB
      exact (mem_specSharedPairs t₁ t₂ hnd₁ k).mpr
        ⟨h1.1, h1.2.1, ⟨h1.2.2.1, h2.2.2.1⟩, ⟨h1.2.2.2, h2.2.2.2⟩⟩
    · intro hk
      have h := (mem_specSharedPairs t₁ t₂ hnd₁ k).mp hk
      have hkA := (mem_pathKeys effBranchLength t₁ hnd₁ k).mpr
        ⟨h.1, h.2.1, h.2.2.1.1, h.2.2.2.1⟩
      have hkB := (mem_pathKeys effBranchLength t₂ hnd₂ k).mpr
        ⟨h.1, h.2.1, h.2.2.1.2, h.2.2.2.2⟩
      obtain ⟨e, he, hek⟩ := List.mem_map.mp hkA
      refine List.mem_map.mpr ⟨e, ?_, hek⟩
      rw [List.mem_filter]
      refine ⟨he, ?_⟩
      rw [hek]
      exact (lookupPath_isSome_iff _ k).mpr hkB
  have hnodS : (((getAllPairwisePaths effBranchLength t₁).filter
      (fun e => (lookupPath (getAllPairwisePaths effBranchLength t₂) e.1).isSome)).map
        (·.1)).Nodup := by
    refine List.Nodup.sublist ?_ (pathKeys_nodup effBranchLength t₁ hnd₁)
    exact List.Sublist.map _ (List.filter_sublist _)
  have hperm : (((getAllPairwisePaths effBranchLength t₁).filter
      (fun e => (lookupPath (getAllPairwisePaths effBranchLength t₂) e.1).isSome)).map
        (·.1)).Perm (specSharedPairs t₁ t₂) := by
    refine List.perm_of_nodup_nodup_toFinset_eq hnodS
      (specSharedPairs_nodup t₁ t₂ hnd₁) ?_
    ext k
    simp only [List.mem_toFinset]
    exact hmemiff k
  have hterm : ∀ e ∈ (getAllPairwisePaths effBranchLength t₁).filter
      (fun e => (lookupPath (getAllPairwisePaths effBranchLength t₂) e.1).isSome),
      |e.2 - (lookupPath (getAllPairwisePaths effBranchLength t₂) e.1).getD 0| =
        |((pairPath effBranchLength t₁.root e.1.1 e.1.2).getD 0) -
          ((pairPath effBranchLength t₂.root e.1.1 e.1.2).getD 0)| := by
    intro e he
    rw [List.mem_filter] at he
    have hv1 := paths_val effBranchLength t₁ e he.1
    have hkB : e.1 ∈ (getAllPairwisePaths effBranchLength t₂).map (·.1) :=
      (lookupPath_isSome_iff _ e.1).mp he.2
    rw [hv1, lookupPath_eq_of_mem effBranchLength t₂ e.1 hkB]
    rfl
  have hmapped : (((getAllPairwisePaths effBranchLength t₁).filter
      (fun e => (lookupPath (getAllPairwisePaths effBranchLength t₂) e.1).isSome)).map
        (fun e =>
          |e.2 - (lookupPath (getAllPairwisePaths effBranchLength t₂) e.1).getD 0|)) =
      ((((getAllPairwisePaths effBranchLength t₁).filter
        (fun e => (lookupPath (getAllPairwisePaths effBranchLength t₂) e.1).isSome)).map
          (·.1)).map (fun k =>
            |((pairPath effBranchLength t₁.root k.1 k.2).getD 0) -
              ((pairPath effBranchLength t₂.root k.1 k.2).getD 0)|)) := by
    rw [List.map_map]
    exact List.map_congr_left (fun e he => hterm e he)
  have hlen : (((getAllPairwisePaths effBranchLength t₁).filter
      (fun e => (lookupPath (getAllPairwisePaths effBranchLength t₂) e.1).isSome))).length =
      (specSharedPairs t₁ t₂).length := by
    rw [show (((getAllPairwisePaths effBranchLength t₁).filter
        (fun e => (lookupPath (getAllPairwisePaths effBranchLength t₂) e.1).isSome))).length =
        ((((getAllPairwisePaths effBranchLength t₁).filter
          (fun e =>
            (lookupPath (getAllPairwisePaths effBranchLength t₂) e.1).isSome))).map
              (·.1)).length from (List.length_map _ _).symm]
    exact hperm.length_eq
  have hsum : ((((getAllPairwisePaths effBranchLength t₁).filter
      (fun e => (lookupPath (getAllPairwisePaths effBranchLength t₂) e.1).isSome))).map
        (fun e =>
          |e.2 - (lookupPath (getAllPairwisePaths effBranchLength t₂) e.1).getD 0|)).sum =
      ((specSharedPairs t₁ t₂).map (fun ab =>
        |((pairPath effBranchLength t₁.root ab.1 ab.2).getD 0) -
          ((pairPath effBranchLength t₂.root ab.1 ab.2).getD 0)|)).sum := by
    rw [hmapped]
    exact (hperm.map _).sum_eq
  show (if 0 < (((getAllPairwisePaths effBranchLength t₁).filter
      (fun e =>
        (lookupPath (getAllPairwisePaths effBranchLength t₂) e.1).isSome))).length
    then some (((((getAllPairwisePaths effBranchLength t₁).filter
        (fun e =>
          (lookupPath (getAllPairwisePaths effBranchLength t₂) e.1).isSome))).map
          (fun e =>
            |e.2 -
              (lookupPath (getAllPairwisePaths effBranchLength t₂) e.1).getD 0|)).sum /
      ((((getAllPairwisePaths effBranchLength t₁).filter
        (fun e =>
          (lookupPath (getAllPairwisePaths effBranchLength t₂) e.1).isSome))).length : ℚ))
    else none) =
    (if 0 < (specSharedPairs t₁ t₂).length
    then some (((specSharedPairs t₁ t₂).map (fun ab =>
        |((pairPath effBranchLength t₁.root ab.1 ab.2).getD 0) -
          ((pairPath effBranchLength t₂.root ab.1 ab.2).getD 0)|)).sum /
      ((specSharedPairs t₁ t₂).length : ℚ))
    else none)
  rw [hlen, hsum]

/-- C6 counterexample: the specification says a MISSING branch length
defaults to 1, but the code's `current.branchLength || 1` also replaces
an explicit branch length of 0 by 1 (0 is falsy in JavaScript).  On the
cherries `(a:0,b:0)` and `(a:2,b:2)` the code computes a mean
difference of `|2 - 4| = 2`, while the specification's reading
(`specEffBranchLength`, defaulting only missing values) gives
`|0 - 4| = 4`. -/
theorem pathDistance_zero_branch_counterexample :
    calculatePathDistance treeZeroBL treeTwoBL ≠
      specPathDistance specEffBranchLength treeZeroBL treeTwoBL := by
  rw [pathDistance_eq_spec_aux treeZeroBL treeTwoBL (by decide) (by decide)]
  intro h
  have h1 : specPathDistance effBranchLength treeZeroBL treeTwoBL =
      some ((|((0:ℚ) + 1 + (0 + 1)) - (0 + 2 + (0 + 2))| + 0) / ((1:ℕ):ℚ)) := rfl
  have h2 : specPathDistance specEffBranchLength treeZeroBL treeTwoBL =
      some ((|((0:ℚ) + 0 + (0 + 0)) - (0 + 2 + (0 + 2))| + 0) / ((1:ℕ):ℚ)) := rfl
  rw [h1, h2] at h
  have h3 := Option.some_inj.mp h
  rw [show |((0:ℚ) + 1 + (0 + 1)) - (0 + 2 + (0 + 2))| = 2 from by
      rw [abs_of_nonpos (by norm_num)]; norm_num,
    show |((0:ℚ) + 0 + (0 + 0)) - (0 + 2 + (0 + 2))| = 4 from by
      rw [abs_of_nonpos (by norm_num)]; norm_num] at h3
  norm_num at h3

/-- C6 (amended): for every pair of trees whose tip labels are distinct
within each tree, `calculatePathDistance` sums effective branch lengths
along each leaf pair's path through the MRCA — where a missing OR ZERO
branch length counts as 1 (`x || 1` treats 0 as falsy) — restricts to
the unordered leaf-label pairs present in both trees, and returns the
mean absolute difference of the two trees' path lengths over those
shared pairs, or infinity (`none`) when no pair is shared. -/
theorem calculatePathDistance_spec (t₁ t₂ : JSTree)
    (hnd₁ : t₁.leafLabels.Nodup) (hnd₂ : t₂.leafLabels.Nodup) :
    calculatePathDistance t₁ t₂ = specPathDistance effBranchLength t₁ t₂ :=
  pathDistance_eq_spec_aux t₁ t₂ hnd₁ hnd₂

/-- C6 witness: the theorem applied to the concrete trees `((a,b),c)`
and `(a:0,b:0)` (tip labels distinct within each). -/
theorem calculatePathDistance_spec_witness :
    treeABC.leafLabels.Nodup ∧ treeZeroBL.leafLabels.Nodup ∧
    calculatePathDistance treeABC treeZeroBL =
      specPathDistance effBranchLength treeABC treeZeroBL :=
  ⟨by decide, by decide,
    calculatePathDistance_spec treeABC treeZeroBL (by decide) (by decide)⟩

end PhyloMDS
